import Mathlib

/-!
# psc-project: a network of message-passing nodes

A shallow embedding of the Go sources `network.go`, `serializer.go`,
`deserializer.go` and of the load handler of `ui.go`.

Conventions of the embedding

* A Go `string` and the content of a reader are sequences of bytes; a byte is a
  natural number (below 256 in every real input).
* Go's `int`, `nodeid`, `relaymode` and `time.Duration` are 64-bit signed
  integers; they are held as `Int`, and `wrap64` is applied where the source
  does arithmetic that may overflow.
* A channel created by `make` is identified by a number; the nil channel is
  `none`.  The control channel of a node is held as the sequence of the messages
  sent on it so far, in send order.
* A call that blocks forever (a send on a nil channel) returns `none`.
-/

namespace PscProject

/-! ## Data model (network.go) -/

/-- A Go string: its bytes. -/
abbrev GoString := List Nat

/-- Each node has a fixed unique numeric id (`type nodeid int`). -/
abbrev nodeid := Int

/-- How received messages are retransmitted (`type relaymode int`). -/
abbrev relaymode := Int

def ROUND_ROBIN : relaymode := 0
def MULTICAST : relaymode := 1
def DISCARD : relaymode := 2

/-- A channel between nodes: `none` is the nil channel, `some a` the channel
made by the `a`-th call of `make`. -/
abbrev datachan := Option Nat

/-- Two's complement wrap-around of a 64-bit signed integer. -/
def wrap64 (i : Int) : Int := (i + 2 ^ 63) % 2 ^ 64 - 2 ^ 63

/-- Information kept by main about each channel. The usage is a float64 in the
source; the embedded code only writes the constants 0 and 1 to it. -/
structure chaninfo where
  dst : nodeid
  usage : Rat
deriving DecidableEq

/-- Information kept by the nodes about their outgoing channels. -/
structure nodeout where
  ch : datachan
  dst : nodeid
deriving DecidableEq

/-- Struct sent on the reportChan after each send. -/
structure sendreport where
  src : nodeid
  dst : nodeid
deriving DecidableEq

/-- A control message: the action tag together with its payload, the payload
having the type that the receiving branch of `nodeMain` asserts. -/
inductive ctlmsg where
  | SET_NAME (name : GoString)
  | ADD_DEST (o : nodeout)
  | DEL_DEST (dst : nodeid)
  | SET_RELAY_MODE (mode : relaymode)
  | SET_SEND_TEXT (text : GoString)
  | SET_SEND_INTERVAL (d : Int)
  | TOGGLE_PAUSE
  | QUIT
deriving DecidableEq

/-- A control channel: `none` is the nil channel, `some q` a channel on which
the messages `q` have been sent so far, oldest first. -/
abbrev ctlchan := Option (List ctlmsg)

/-- Information kept by the main goroutine about each node. The field `inp` is
the field `in` of the source. -/
structure node where
  id : nodeid
  name : GoString
  ctl : ctlchan
  inp : datachan
  outs : List chaninfo
  sendText : GoString
  sendInterval : Int
  relayMode : relaymode
  paused : Bool
  x : Int
  y : Int
deriving DecidableEq

/-- The zero value of `node`, which a Go map returns for a missing key. -/
def zeroNode : node :=
  { id := 0, name := [], ctl := none, inp := none, outs := [], sendText := [],
    sendInterval := 0, relayMode := 0, paused := false, x := 0, y := 0 }

/-- The nodes, indexed by node id (`map[nodeid]node`). The list order is the
order in which `range` visits the entries. -/
abbrev network := List (nodeid × node)

namespace network

/-- The two-value map read `n, ok := net[id]`. -/
def find? (net : network) (id : nodeid) : Option node :=
  match net with
  | [] => none
  | (k, n) :: rest => if k = id then some n else find? rest id

/-- The map read `net[id]`: the zero node when the key is missing. -/
def get (net : network) (id : nodeid) : node :=
  (net.find? id).getD zeroNode

/-- The map write `net[id] = n`. -/
def set (net : network) (id : nodeid) (n : node) : network :=
  match net with
  | [] => [(id, n)]
  | (k, m) :: rest => if k = id then (k, n) :: rest else (k, m) :: set rest id n

/-- The map deletion `delete(net, id)`. -/
def delete (net : network) (id : nodeid) : network :=
  net.filter (fun e => e.1 ≠ id)

/-- The keys of the map, in iteration order. -/
def keys (net : network) : List nodeid := net.map Prod.fst

end network

/-! ## Text primitives -/

/-- UTF-8 encoding of a code point, as `string(c)` and `utf8.AppendRune` do
it: surrogates and values above U+10FFFF are written as U+FFFD. -/
def encodeRune (r : Nat) : List Nat :=
  if r < 0x80 then [r]
  else if r < 0x800 then [0xC0 + r / 64, 0x80 + r % 64]
  else if 0xD800 ≤ r ∧ r < 0xE000 then [0xEF, 0xBF, 0xBD]
  else if r < 0x10000 then [0xE0 + r / 4096, 0x80 + r / 64 % 64, 0x80 + r % 64]
  else if r < 0x110000 then
    [0xF0 + r / 262144, 0x80 + r / 4096 % 64, 0x80 + r / 64 % 64, 0x80 + r % 64]
  else [0xEF, 0xBF, 0xBD]

/-- The bytes of a string literal. -/
def bytes (s : String) : GoString :=
  s.toList.flatMap (fun c => encodeRune c.toNat)

/-- The decimal digits of a natural number, most significant first; `fuel`
bounds the number of digits. -/
def natDigits (fuel : Nat) (n : Nat) : List Nat :=
  match fuel with
  | 0 => []
  | fuel + 1 =>
    if n < 10 then [48 + n] else natDigits fuel (n / 10) ++ [48 + n % 10]

/-- The text that the verb `%d` prints for an integer (`strconv.Itoa`). -/
def itoa (i : Int) : GoString :=
  if i < 0 then 45 :: natDigits (i.natAbs + 1) i.natAbs
  else natDigits (i.natAbs + 1) i.natAbs

/-! ## Readers and `fmt.Fscanf` (Go standard library)

The content of a `bufio.Reader` is held as the sequence of the runes that
`ReadRune` returns, one after the other, for the bytes of the input. The bytes
that the source peeks at are ASCII, and an ASCII byte is the first byte of the
input exactly when it is its first rune. -/

/-- The code point of a character. -/
def rune (c : Char) : Nat := c.toNat

/-- The code points of a format string. -/
def runes (s : String) : List Nat := s.toList.map Char.toNat

/-- A continuation byte between `lo` and `hi`. -/
def inRange (lo hi b : Nat) : Bool := decide (lo ≤ b) && decide (b ≤ hi)

/-- The UTF-8 decoding of the first rune of the input (`utf8.DecodeRune`, as
`bufio.Reader.ReadRune` uses it): the rune and the bytes that follow it, an
invalid or incomplete sequence giving U+FFFD of width one; `none` at the end
of the input. -/
def decodeRune (bs : List Nat) : Option (Nat × List Nat) :=
  match bs with
  | [] => none
  | b0 :: rest =>
    if b0 < 0x80 then some (b0, rest)
    else if inRange 0xC2 0xDF b0 then
      match rest with
      | b1 :: r1 =>
        if inRange 0x80 0xBF b1 then some ((b0 - 0xC0) * 64 + (b1 - 0x80), r1)
        else some (0xFFFD, rest)
      | _ => some (0xFFFD, rest)
    else if inRange 0xE0 0xEF b0 then
      match rest with
      | b1 :: b2 :: r2 =>
        if inRange (if b0 = 0xE0 then 0xA0 else 0x80) (if b0 = 0xED then 0x9F else 0xBF) b1
            && inRange 0x80 0xBF b2 then
          some ((b0 - 0xE0) * 4096 + (b1 - 0x80) * 64 + (b2 - 0x80), r2)
        else some (0xFFFD, rest)
      | _ => some (0xFFFD, rest)
    else if inRange 0xF0 0xF4 b0 then
      match rest with
      | b1 :: b2 :: b3 :: r3 =>
        if inRange (if b0 = 0xF0 then 0x90 else 0x80) (if b0 = 0xF4 then 0x8F else 0xBF) b1
            && inRange 0x80 0xBF b2 && inRange 0x80 0xBF b3 then
          some ((b0 - 0xF0) * 262144 + (b1 - 0x80) * 4096 + (b2 - 0x80) * 64 + (b3 - 0x80), r3)
        else some (0xFFFD, rest)
      | _ => some (0xFFFD, rest)
    else some (0xFFFD, rest)

/-- The runes of an input; `fuel` bounds their number. -/
def decodeRunes (fuel : Nat) (bs : List Nat) : List Nat :=
  match fuel with
  | 0 => []
  | fuel + 1 =>
    match decodeRune bs with
    | none => []
    | some (r, rest) => r :: decodeRunes fuel rest

/-- What is left to read of a `bufio.Reader`. -/
abbrev Reader := List Nat

/-- The reader `bufio.NewReader(reader)` on an input with the bytes `bs`. -/
def NewReader (bs : GoString) : Reader := decodeRunes bs.length bs

/-- The function `isSpace` of package fmt. -/
def isSpace (r : Nat) : Bool :=
  inRange 0x09 0x0d r || r == 0x20 || r == 0x85 || r == 0xA0 || r == 0x1680 ||
  inRange 0x2000 0x200a r || inRange 0x2028 0x2029 r || r == 0x202f || r == 0x205f ||
  r == 0x3000

/-- The loop `for isSpace(inputc) && inputc != '\n'` of `advance`: drop the
spaces other than newline. -/
def skipBlanks (r : Reader) : Reader :=
  match r with
  | [] => []
  | c :: rest => if isSpace c && c != 10 then skipBlanks rest else c :: rest

/-- The method `SkipSpace` of a scan state made by `Fscanf`: drop the spaces;
a newline is an error. -/
def SkipSpace (r : Reader) : Option Reader :=
  match r with
  | [] => some []
  | c :: rest =>
    if c = 10 then none
    else if isSpace c then SkipSpace rest
    else some (c :: rest)

/-- A run of spaces in a format with `newlines` newlines, followed by a space
when `trailingSpace`, matched against the input as `advance` does it. -/
def matchSpaces (newlines : Nat) (trailingSpace : Bool) (r : Reader) : Option Reader :=
  match newlines with
  | n + 1 =>
    match skipBlanks r with
    | [] => matchSpaces n trailingSpace []
    | c :: rest => if c = 10 then matchSpaces n trailingSpace rest else none
  | 0 =>
    if trailingSpace then some (skipBlanks r) else some r

/-- The space processing of `advance` for a run of spaces in the format with
`newlines` newlines that ends with a space when `trailingSpace`. -/
def advanceSpaces (newlines : Nat) (trailingSpace : Bool) (r : Reader) : Option Reader :=
  if newlines = 0 then
    -- a space that stands alone matches one or more spaces or the end of input
    match r with
    | [] => some []
    | c :: rest => if isSpace c && c != 10 then some (skipBlanks rest) else none
  else matchSpaces newlines trailingSpace r

/-- The run of spaces at the start of a format: the number of its newlines,
whether a space follows the last newline, and the format after the run. -/
def spaceRun (format : List Nat) (newlines : Nat) (trailingSpace : Bool) :
    Nat × Bool × List Nat :=
  match format with
  | [] => (newlines, trailingSpace, [])
  | c :: rest =>
    if isSpace c then
      if c = 10 then spaceRun rest (newlines + 1) false
      else spaceRun rest newlines true
    else (newlines, trailingSpace, c :: rest)

/-- The digits that `scanNumber` accepts for the verb `%d`, with their value. -/
def scanDigits (r : Reader) (acc : Nat) : Nat × Reader :=
  match r with
  | [] => (acc, [])
  | c :: rest =>
    if 48 ≤ c ∧ c ≤ 57 then scanDigits rest (acc * 10 + (c - 48)) else (acc, c :: rest)

/-- The method `scanInt` for the verb `%d` and a 64-bit operand: spaces, an
optional sign, one or more decimal digits; the value has to fit in 64 bits
(`strconv.ParseInt`). -/
def scanInt (r : Reader) : Option (Int × Reader) :=
  match SkipSpace r with
  | none => none
  | some [] => none
  | some (c :: rest) =>
    -- the sign, when there is one
    let r1 := if c = 43 ∨ c = 45 then rest else c :: rest
    match r1 with
    | [] => none
    | d :: _ =>
      if 48 ≤ d ∧ d ≤ 57 then
        let v := (scanDigits r1 0).1
        let r2 := (scanDigits r1 0).2
        if c = 45 then (if v ≤ 2 ^ 63 then some (-(v : Int), r2) else none)
        else (if v < 2 ^ 63 then some ((v : Int), r2) else none)
      else none

/-- The method `accept`: read the next rune when it is `a` or `b`. -/
def accept (a b : Nat) (r : Reader) : Bool × Reader :=
  match r with
  | [] => (false, [])
  | c :: rest => if c = a ∨ c = b then (true, rest) else (false, c :: rest)

/-- The method `scanBool` for the verb `%t`. -/
def scanBool (r : Reader) : Option (Bool × Reader) :=
  match SkipSpace r with
  | none => none
  | some [] => none
  | some (c :: rest) =>
    if c = rune '0' then some (false, rest)
    else if c = rune '1' then some (true, rest)
    else if c = rune 't' ∨ c = rune 'T' then
      match accept (rune 'r') (rune 'R') rest with
      | (false, rest) => some (true, rest)
      | (true, rest) =>
        match accept (rune 'u') (rune 'U') rest with
        | (false, _) => none
        | (true, rest) =>
          match accept (rune 'e') (rune 'E') rest with
          | (false, _) => none
          | (true, rest) => some (true, rest)
    else if c = rune 'f' ∨ c = rune 'F' then
      match accept (rune 'a') (rune 'A') rest with
      | (false, rest) => some (false, rest)
      | (true, rest) =>
        match accept (rune 'l') (rune 'L') rest with
        | (false, _) => none
        | (true, rest) =>
          match accept (rune 's') (rune 'S') rest with
          | (false, _) => none
          | (true, rest) =>
            match accept (rune 'e') (rune 'E') rest with
            | (false, _) => none
            | (true, rest) => some (false, rest)
    else some (false, rest)

/-- A value stored by `Fscanf` in one of its operands. -/
inductive ScanVal where
  | int (i : Int)
  | bool (b : Bool)
  | char (c : Nat)
deriving DecidableEq

/-- A literal character `c` of the format, matched by `advance` against the
next rune of the input. -/
def matchLiteral (c : Nat) (r : Reader) : Option Reader :=
  match r with
  | [] => none
  | x :: r => if x = c then some r else none

/-- The verb `%v` of a format: the value scanned, if the verb scans one, and
the reader after it. The verb `%%` matches a percent sign, `%c` reads one rune,
`%d` and `%t` skip spaces and scan an integer and a boolean. -/
def scanVerb (v : Nat) (r : Reader) : Option (Option ScanVal × Reader) :=
  if v = rune '%' then (matchLiteral (rune '%') r).map (fun r => (none, r))
  else if v = rune 'c' then
    match r with
    | [] => none
    | x :: r => some (some (.char x), r)
  else if v = rune 'd' then
    (SkipSpace r).bind (fun r => (scanInt r).map (fun p => (some (.int p.1), p.2)))
  else if v = rune 't' then
    (SkipSpace r).bind (fun r => (scanBool r).map (fun p => (some (.bool p.1), p.2)))
  else none

/-- The method `doScanf` for the verbs `%d`, `%t` and `%c`, every operand
having the type that its verb scans (a 64-bit integer, a bool, a rune) and the
operands being as many as the verbs: the values scanned so far are `vals`;
`none` when an error is returned. `fuel` bounds the length of the format. -/
def doScanf (fuel : Nat) (format : List Nat) (r : Reader) (vals : List ScanVal) :
    Option (List ScanVal × Reader) :=
  match fuel with
  | 0 => none
  | fuel + 1 =>
    match format with
    | [] => some (vals, r)
    | c :: rest =>
      if isSpace c then
        (advanceSpaces (spaceRun (c :: rest) 0 false).1
            (spaceRun (c :: rest) 0 false).2.1 r).bind
          (fun r => doScanf fuel (spaceRun (c :: rest) 0 false).2.2 r vals)
      else if c = rune '%' then
        match rest with
        | [] => none
        | v :: rest =>
          (scanVerb v r).bind (fun p => doScanf fuel rest p.2 (vals ++ p.1.toList))
      else
        (matchLiteral c r).bind (fun r => doScanf fuel rest r vals)

/-- The call `fmt.Fscanf(r, format, ...)`: the values stored in the operands
and the reader after the call, or `none` when the error is not nil. -/
def Fscanf (r : Reader) (format : String) : Option (List ScanVal × Reader) :=
  doScanf ((runes format).length + 1) (runes format) r []

/-! ## Network registry (network.go) -/

/-- Add a new node to the network. The data channel that `make` returns is the
argument `inCh`; the control channel starts with no message sent. The node
goroutine receives the same record `n` as its parameters. -/
def network.spawnNodeWithID (net : network) (id : nodeid) (x y : Int)
    (inCh : Nat) : network :=
  let n : node :=
    { id := id, name := bytes "node", ctl := some [], inp := some inCh, outs := [],
      sendText := bytes "from " ++ itoa id, sendInterval := 0,
      relayMode := ROUND_ROBIN, paused := false, x := x, y := y }
  net.set id n

/-- Utility function to send a control message to a node; a send on the nil
channel of a missing node never returns. (A send on a channel that `make`
returned waits until the buffer has room and then returns.) -/
def network.sendCtl (net : network) (dst : nodeid) (m : ctlmsg) : Option network :=
  match (net.get dst).ctl with
  | none => none
  | some q => some (net.set dst { net.get dst with ctl := some (q ++ [m]) })

def network.setName (net : network) (id : nodeid) (name : GoString) : Option network :=
  let n := net.get id
  let n := { n with name := name }
  let net := net.set id n
  net.sendCtl id (.SET_NAME name)

/-- The index of the first channel of `outs` whose destination is `j`. -/
def findChan (outs : List chaninfo) (j : nodeid) : Option Nat :=
  match outs with
  | [] => none
  | c :: rest => if c.dst ≠ j then (findChan rest j).map (· + 1) else some 0

/-- Create a channel between i and j if there is none yet, delete it otherwise. -/
def network.addOrDelChan (net : network) (i j : nodeid) : Option network :=
  match findChan (net.get i).outs j with
  | some k =>
    let n := net.get i
    let n := { n with outs := n.outs.eraseIdx k }
    let net := net.set i n
    net.sendCtl i (.DEL_DEST j)
  | none =>
    let n := net.get i
    let n := { n with outs := n.outs ++ [{ dst := j, usage := 0 }] }
    let net := net.set i n
    net.sendCtl i (.ADD_DEST { ch := (net.get j).inp, dst := j })

def network.setRelayMode (net : network) (id : nodeid) (mode : relaymode) :
    Option network :=
  let n := net.get id
  let n := { n with relayMode := mode }
  let net := net.set id n
  net.sendCtl id (.SET_RELAY_MODE mode)

def network.setSendText (net : network) (id : nodeid) (text : GoString) :
    Option network :=
  let n := net.get id
  let n := { n with sendText := text }
  let net := net.set id n
  net.sendCtl id (.SET_SEND_TEXT text)

def network.setSendInterval (net : network) (id : nodeid) (ms : Int) : Option network :=
  let d := wrap64 (ms * 1000000)
  let n := net.get id
  let n := { n with sendInterval := d }
  let net := net.set id n
  net.sendCtl id (.SET_SEND_INTERVAL d)

/-- Flip the paused flag; returns the network and the new value of the flag. -/
def network.togglePause (net : network) (id : nodeid) : Option (network × Bool) :=
  let n := net.get id
  let n := { n with paused := !n.paused }
  let net := net.set id n
  (net.sendCtl id .TOGGLE_PAUSE).map (fun net => (net, n.paused))

def network.stop (net : network) (id : nodeid) : Option network :=
  net.sendCtl id .QUIT

/-- The first loop of `stopAllAndWait`: send QUIT to the nodes `ids`. -/
def stopEach (net : network) (ids : List nodeid) : Option network :=
  match ids with
  | [] => some net
  | id :: rest => (net.stop id).bind (fun net => stopEach net rest)

/-- The second loop of `stopAllAndWait`: for each key, receive one value from
`stopChan` (never returning when none comes) and delete the key. Returns the
network and what is left on `stopChan`. -/
def waitEach (net : network) (ids : List nodeid) (stopChan : List nodeid) :
    Option (network × List nodeid) :=
  match ids with
  | [] => some (net, stopChan)
  | i :: rest =>
    match stopChan with
    | [] => none
    | _ :: stopChan => waitEach (net.delete i) rest stopChan

/-- Send a QUIT message to all nodes and wait for their termination;
`stopChan` holds the values that the nodes send on the stop channel. -/
def network.stopAllAndWait (net : network) (stopChan : List nodeid) :
    Option (network × List nodeid) :=
  (stopEach net net.keys).bind (fun net => waitEach net net.keys stopChan)

/-! ## `strconv.Unquote` (Go standard library) -/

/-- The function `unhex` of package strconv. -/
def unhex (b : Nat) : Option Nat :=
  if 48 ≤ b ∧ b ≤ 57 then some (b - 48)
  else if 97 ≤ b ∧ b ≤ 102 then some (b - 97 + 10)
  else if 65 ≤ b ∧ b ≤ 70 then some (b - 65 + 10)
  else none

/-- The value of `n` hexadecimal digits at the start of `s`, with what follows
them. -/
def hexValue (n : Nat) (s : GoString) (v : Nat) : Option (Nat × GoString) :=
  match n with
  | 0 => some (v, s)
  | n + 1 =>
    match s with
    | [] => none
    | b :: rest =>
      match unhex b with
      | none => none
      | some x => hexValue n rest (v * 16 + x)

/-- The function `utf8.ValidRune`. -/
def ValidRune (r : Nat) : Bool :=
  decide (r < 0xD800) || (decide (0xE000 ≤ r) && decide (r ≤ 0x10FFFF))

/-- The hard case of `strconv.UnquoteChar` with the quote `"`: the bytes that
the escape sequence made of a backslash, the byte `e` and the start of `s`
stands for, and the rest of `s`; `none` for a syntax error. -/
def unquoteEscape (e : Nat) (s : GoString) : Option (GoString × GoString) :=
  if e = rune 'a' then some ([7], s)
  else if e = rune 'b' then some ([8], s)
  else if e = rune 'f' then some ([12], s)
  else if e = rune 'n' then some ([10], s)
  else if e = rune 'r' then some ([13], s)
  else if e = rune 't' then some ([9], s)
  else if e = rune 'v' then some ([11], s)
  else if e = rune 'x' then
    (hexValue 2 s 0).map (fun p => ([p.1], p.2))
  else if e = rune 'u' ∨ e = rune 'U' then
    (hexValue (if e = rune 'u' then 4 else 8) s 0).bind
      (fun p => if ValidRune p.1 then some (encodeRune p.1, p.2) else none)
  else if rune '0' ≤ e ∧ e ≤ rune '7' then
    match s with
    | d1 :: d2 :: tail =>
      if rune '0' ≤ d1 ∧ d1 ≤ rune '7' ∧ rune '0' ≤ d2 ∧ d2 ≤ rune '7' then
        if ((e - 48) * 8 + (d1 - 48)) * 8 + (d2 - 48) > 255 then none
        else some ([((e - 48) * 8 + (d1 - 48)) * 8 + (d2 - 48)], tail)
      else none
    | _ => none
  else if e = rune '\\' then some ([rune '\\'], s)
  else if e = rune '"' then some ([rune '"'], s)
  else none

/-- The function `strconv.UnquoteChar` with the quote `"`: the bytes that the
first character or escape sequence of `s` stands for, and the rest of `s`;
`none` for a syntax error. -/
def UnquoteChar (s : GoString) : Option (GoString × GoString) :=
  match s with
  | [] => none
  | c :: rest =>
    if c = rune '"' then none
    else if c ≥ 0x80 then (decodeRune (c :: rest)).map (fun p => (encodeRune p.1, p.2))
    else if c ≠ rune '\\' then some ([c], rest)
    else
      match rest with
      | [] => none
      | e :: s => unquoteEscape e s

/-- The loop of `strconv.Unquote` on what follows the opening quote: the
characters up to the closing quote, which has to be the last byte. `fuel`
bounds the number of characters. -/
def unquoteLoop (fuel : Nat) (s : GoString) (buf : GoString) : Option GoString :=
  match fuel with
  | 0 => none
  | fuel + 1 =>
    match s with
    | [] => none
    | c :: rest =>
      if c = rune '"' then (if rest = [] then some buf else none)
      else if c = 10 then none
      else
        match UnquoteChar (c :: rest) with
        | none => none
        | some (bs, tail) => unquoteLoop fuel tail (buf ++ bs)

/-- The function `strconv.Unquote` on a string that starts with a double
quote, the only form that `scanQuoted` passes: the string that the Go string
literal `s` denotes, or `none` for a syntax error. (The source's shortcut for a
literal without backslash returns what the loop returns.) -/
def Unquote (s : GoString) : Option GoString :=
  match s with
  | [] => none
  | q :: rest => if q = rune '"' then unquoteLoop (rest.length + 1) rest [] else none

/-! ## Deserializer (deserializer.go) -/

structure endpoints where
  src : nodeid
  dst : nodeid
deriving DecidableEq

/-- Return true if the next byte in the reader is c, without consuming it. -/
def peek (r : Reader) (c : Nat) : Bool :=
  match r with
  | [] => false
  | b :: _ => b == c

/-- Same as peek, but also consume the byte if it matches the argument. -/
def consume (r : Reader) (c : Nat) : Bool × Reader :=
  if peek r c then (true, r.tail) else (false, r)

/-- Consume spaces and newlines from the reader, stop at the first
non-whitespace character. -/
def skipEmptyLines (r : Reader) : Reader :=
  match r with
  | [] => []
  | b :: rest =>
    if b = rune ' ' ∨ b = rune '\n' then skipEmptyLines rest else b :: rest

/-- The loop of `scanQuoted`: `s` is the literal read so far, `escape` is true
after a backslash. The match on the reader is the call
`fmt.Fscanf(r, "%c", &c)`. -/
def scanQuotedLoop (r : Reader) (s : GoString) (escape : Bool) : GoString × Bool × Reader :=
  match r with
  | [] => (s, false, [])
  | c :: r =>
    if c = rune '\\' ∧ escape = false then
      -- escape next character
      scanQuotedLoop r s true
    else
      let s := s ++ encodeRune c
      if c = rune '"' ∧ escape = false then
        -- Unquote handles the escape sequences other than \"
        match Unquote s with
        | none => ([], false, r)
        | some s => (s, true, r)
      else scanQuotedLoop r s false

/-- Parse a quoted string: the string, whether the parsing succeeded, and the
reader after the call. -/
def scanQuoted (r : Reader) : GoString × Bool × Reader :=
  match consume r (rune '"') with
  | (false, r) => ([], false, r)
  | (true, r) => scanQuotedLoop r (bytes "\"") false

/-- Whether the input holds an unescaped double quote, that is, whether it
does not end before the closing quote of a quoted string; `escape` is true when
the first rune follows a backslash. -/
def hasClosingQuote (r : Reader) (escape : Bool) : Bool :=
  match r with
  | [] => false
  | c :: r =>
    if c = rune '\\' ∧ escape = false then hasClosingQuote r true
    else if c = rune '"' ∧ escape = false then true
    else hasClosingQuote r false

/-- The outcome of a call of the deserializer. -/
inductive Outcome (α : Type) where
  /-- The call returned true (for `deserialize`: a network that is not nil). -/
  | ok (a : α)
  /-- The call returned false (for `deserialize`: the nil network and -1). -/
  | failed
  /-- The call never returns: it sends on the nil control channel. -/
  | blocked
deriving DecidableEq

/-- Parses a node line after its id, creates the node with the parameters read
and adds it to `net`; `inCh` is the data channel that `spawnNodeWithID` makes.
Returns the network and the reader after the call. -/
def deserializeNode (r : Reader) (net : network) (id : nodeid) (inCh : Nat) :
    Outcome (network × Reader) :=
  match Fscanf r "[label=" with
  | none => .failed
  | some (_, r) =>
    match scanQuoted r with
    | (_, false, _) => .failed
    | (name, true, r) =>
      match Fscanf r "] // " with
      | none => .failed
      | some (_, r) =>
        match scanQuoted r with
        | (_, false, _) => .failed
        | (sendText, true, r) =>
          match Fscanf r "%d %d %t %d %d" with
          | some ([.int sendInterval, .int relayMode, .bool paused, .int x, .int y], r) =>
            let net := net.spawnNodeWithID id x y inCh
            let net := if paused then (net.togglePause id).map Prod.fst else some net
            let net := net.bind (fun net => net.setName id name)
            let net := net.bind (fun net => net.setSendText id sendText)
            let net := net.bind (fun net => net.setSendInterval id sendInterval)
            let net := net.bind (fun net => net.setRelayMode id relayMode)
            match net with
            | none => .blocked
            | some net => .ok (net, r)
          | _ => .failed

/-- Parses the endpoints of a channel and adds it to `chans`. -/
def deserializeChan (r : Reader) (chans : List endpoints) (src : nodeid) :
    Option (List endpoints × Reader) :=
  match Fscanf r "-> %d" with
  | some ([.int dst], r) => some (chans ++ [{ src := src, dst := dst }], r)
  | _ => none

/-- The loop `for _, c := range chans` of `deserialize`. -/
def addChans (net : network) (chans : List endpoints) : Option network :=
  match chans with
  | [] => some net
  | c :: rest => (net.addOrDelChan c.src c.dst).bind (fun net => addChans net rest)

/-- The first loop of `deserialize`, up to the closing brace: the network, the
channels found and the maximum node id. `made` is the number of data channels
made before, the next one being channel `made`; `fuel` bounds the number of
iterations. -/
def deserializeLoop (fuel : Nat) (r : Reader) (net : network) (chans : List endpoints)
    (maxid : nodeid) (made : Nat) : Outcome (network × List endpoints × nodeid) :=
  match fuel with
  | 0 => .failed
  | fuel + 1 =>
    let r := skipEmptyLines r
    match consume r (rune '\x7d') with
    | (true, _) => .ok (net, chans, maxid)
    | (false, r) =>
      match Fscanf r "%d " with
      | some ([.int id], r) =>
        if peek r (rune '[') then
          match deserializeNode r net id made with
          | .failed => .failed
          | .blocked => .blocked
          | .ok (net, r) => deserializeLoop fuel r net chans (max maxid id) (made + 1)
        else if peek r (rune '-') then
          match deserializeChan r chans id with
          | none => .failed
          | some (chans, r) => deserializeLoop fuel r net chans maxid made
        else .failed
      | _ => .failed

/-- Deserializes a network from the bytes `input` of the reader. Returns the
new network and the maximum node id it contains. `made` is the number of data
channels made before the call. -/
def deserialize (input : GoString) (made : Nat) : Outcome (network × nodeid) :=
  let r := NewReader input
  let r := skipEmptyLines r
  match Fscanf r "digraph network \x7b\n" with
  | none => .failed
  | some (_, r) =>
    match deserializeLoop (r.length + 1) r [] [] 0 made with
    | .failed => .failed
    | .blocked => .blocked
    | .ok (net, chans, maxid) =>
      match addChans net chans with
      | none => .blocked
      | some net => .ok (net, maxid)

/-! ## Serializer (serializer.go) -/

/-- The method `Milliseconds` of `time.Duration`. -/
def Milliseconds (d : Int) : Int := Int.tdiv d 1000000

/-- The text that the verb `%t` prints. -/
def formatBool (b : Bool) : GoString := if b then bytes "true" else bytes "false"

/-- The lines `<id> -> <dst>` of the outgoing channels of a node. -/
def serializeOuts (id : nodeid) (outs : List chaninfo) : GoString :=
  match outs with
  | [] => []
  | o :: rest => itoa id ++ bytes " -> " ++ itoa o.dst ++ bytes "\n" ++ serializeOuts id rest

/-- What `n.serialize(w)` writes: the line of the node, then its channels. -/
def node.serialize (n : node) : GoString :=
  itoa n.id ++ bytes " [label=\"" ++ n.name ++ bytes "\"] // \"" ++ n.sendText ++ bytes "\" "
    ++ itoa (Milliseconds n.sendInterval) ++ bytes " " ++ itoa n.relayMode ++ bytes " "
    ++ formatBool n.paused ++ bytes " " ++ itoa n.x ++ bytes " " ++ itoa n.y ++ bytes "\n"
    ++ serializeOuts n.id n.outs

/-- The loop `for _, n := range net` of `network.serialize`. -/
def serializeNodes (net : network) : GoString :=
  match net with
  | [] => []
  | (_, n) :: rest => n.serialize ++ bytes "\n" ++ serializeNodes rest

/-- What `net.serialize(w)` writes. -/
def network.serialize (net : network) : GoString :=
  bytes "digraph network \x7b\n" ++ serializeNodes net ++ bytes "\x7d\n"

/-! ## Load handler (ui.go) -/

/-- The global variable `nextNodeId` and the field `net` of the game. -/
structure Game where
  net : network
  nextNodeId : Int
deriving DecidableEq

/-- The function that the load button runs on the content `file` of the chosen
file: stop all nodes, parse the file, and replace the network when the parsing
succeeded. `stopChan` holds the values that arrive on the stop channel;
`none` when the handler never returns. The map `g.net` is the one that
`stopAllAndWait` empties. -/
def loadHandler (g : Game) (file : GoString) (stopChan : List nodeid) (made : Nat) :
    Option Game :=
  match g.net.stopAllAndWait stopChan with
  | none => none
  | some (gnet, _) =>
    match deserialize file made with
    | .blocked => none
    | .failed => some { g with net := gnet }
    | .ok (net, maxid) => some { net := net, nextNodeId := wrap64 (maxid + 1) }

/-! ## Node actor (`nodeMain`, network.go) -/

/-- A channel operation performed by a node goroutine. -/
inductive Effect where
  /-- The send `o.ch <- s` of a data message. -/
  | send (ch : datachan) (s : GoString)
  /-- The send `reportChan <- r`. -/
  | report (r : sendreport)
  /-- The deferred send `stopChan <- id`. -/
  | stopped (id : nodeid)
deriving DecidableEq

/-- The local variables of `nodeMain`. `sendTicker` is `none` when the ticker
is stopped and `some d` when it fires every `d`; `inOrNil` is the input channel
when running and nil when paused. -/
structure ActorState where
  id : nodeid
  name : GoString
  sendText : GoString
  sendInterval : Int
  relayMode : relaymode
  inp : datachan
  outs : List nodeout
  sendTicker : Option Int
  nextOut : Nat
  inOrNil : datachan
deriving DecidableEq

/-- The state of `nodeMain` when it enters its loop. -/
def nodeMainInit (params : node) : ActorState :=
  { id := params.id, name := params.name, sendText := params.sendText,
    sendInterval := params.sendInterval, relayMode := params.relayMode,
    inp := params.inp, outs := [],
    sendTicker := if params.sendInterval > 0 then some params.sendInterval else none,
    nextOut := 0, inOrNil := params.inp }

/-- What the `select` statement of `nodeMain` receives. -/
inductive Event where
  /-- A message `c` from the control channel. -/
  | ctl (c : ctlmsg)
  /-- A message `s` from `inOrNil`. -/
  | data (s : GoString)
  /-- A tick from `sendTicker.C`. -/
  | tick
deriving DecidableEq

/-- The result of one iteration of the loop of `nodeMain`. -/
inductive Step where
  /-- The loop goes on in state `st` after the channel operations `out`. -/
  | next (st : ActorState) (out : List Effect)
  /-- The loop was left by `break loop`; the deferred sends are `out`. -/
  | quit (out : List Effect)
  /-- Run-time error in state `st`: index out of range (the deferred calls run
  and the program stops). -/
  | indexOutOfRange (st : ActorState)
  /-- The event cannot be received in this state (nil channel, stopped ticker). -/
  | notEnabled
  /-- The goroutine blocks forever in state `st` on the send `o.ch <- s` on a nil
  channel, after the channel operations `out`. -/
  | blocked (st : ActorState) (out : List Effect)
deriving DecidableEq

/-- The branch `case c := <-ctl` of `nodeMain`. -/
def ctlStep (st : ActorState) (c : ctlmsg) : Step :=
  match c with
  | .SET_NAME name => .next { st with name := name } []
  | .ADD_DEST o => .next { st with outs := st.outs ++ [o] } []
  | .DEL_DEST dst =>
    .next { st with outs := st.outs.filter (fun o => !decide (o.dst = dst)) } []
  | .SET_RELAY_MODE mode => .next { st with relayMode := mode } []
  | .SET_SEND_TEXT text => .next { st with sendText := text } []
  | .SET_SEND_INTERVAL d =>
    .next { st with sendInterval := d,
                    sendTicker := if d > 0 then some d else none } []
  | .TOGGLE_PAUSE =>
    if st.inOrNil = none then
      .next { st with inOrNil := st.inp,
                      sendTicker := if st.sendInterval > 0 then some st.sendInterval
                                    else st.sendTicker } []
    else
      .next { st with inOrNil := none, sendTicker := none } []
  | .QUIT => .quit [.stopped st.id]

/-- The loop `for _, o := range outs` that sends `s` on every output channel
and reports each send: the channel operations performed, and whether the loop
ends. The send `o.ch <- s` on a nil channel blocks forever: the loop stops
before it, without the report and without the later outputs. -/
def sendAll (id : nodeid) (outs : List nodeout) (s : GoString) : List Effect × Bool :=
  match outs with
  | [] => ([], true)
  | o :: rest =>
    if o.ch = none then ([], false)
    else
      (.send o.ch s :: .report { src := id, dst := o.dst } :: (sendAll id rest s).1,
        (sendAll id rest s).2)

/-- The branch `case s := <-inOrNil` of `nodeMain`. -/
def dataStep (st : ActorState) (s : GoString) : Step :=
  if st.inOrNil = none then .notEnabled
  else if st.outs.length = 0 then .next st []
  else if st.relayMode = ROUND_ROBIN then
    match st.outs.get? st.nextOut with
    | none => .indexOutOfRange st
    | some o =>
      -- the send on a nil channel never returns
      if o.ch = none then .blocked st []
      else
        .next { st with nextOut := (st.nextOut + 1) % st.outs.length }
          [.send o.ch s, .report { src := st.id, dst := o.dst }]
  else if st.relayMode = MULTICAST then
    if (sendAll st.id st.outs s).2 then .next st (sendAll st.id st.outs s).1
    else .blocked st (sendAll st.id st.outs s).1
  else .next st []

/-- The branch `case <-sendTicker.C` of `nodeMain`; a tick is received only
while the ticker runs (a tick that the ticker buffered before `Stop` is not
modelled). -/
def tickStep (st : ActorState) : Step :=
  match st.sendTicker with
  | none => .notEnabled
  | some _ =>
    if (sendAll st.id st.outs st.sendText).2 then
      .next st (sendAll st.id st.outs st.sendText).1
    else .blocked st (sendAll st.id st.outs st.sendText).1

/-- One iteration of the loop of `nodeMain`. -/
def nodeStep (st : ActorState) (e : Event) : Step :=
  match e with
  | .ctl c => ctlStep st c
  | .data s => dataStep st s
  | .tick => tickStep st

/-- The loop of `nodeMain` on a sequence of events: the channel operations
performed so far are accumulated in `acc`; the result is the last step taken
with all the operations of the run. -/
def runFrom (st : ActorState) (acc : List Effect) (es : List Event) : Step :=
  match es with
  | [] => .next st acc
  | e :: rest =>
    match nodeStep st e with
    | .next st1 out => runFrom st1 (acc ++ out) rest
    | .quit out => .quit (acc ++ out)
    | .indexOutOfRange st1 => .indexOutOfRange st1
    | .notEnabled => .notEnabled
    | .blocked st1 out => .blocked st1 (acc ++ out)

/-- The goroutine `nodeMain(params, ...)` on a sequence of events. -/
def nodeMain (params : node) (es : List Event) : Step :=
  runFrom (nodeMainInit params) [] es

/-! ## Sequences of registry operations -/

/-- A call of one of the functions of network.go that change the parameters of
a running node. -/
inductive RegOp where
  | setName (id : nodeid) (name : GoString)
  | setSendText (id : nodeid) (text : GoString)
  | setSendInterval (id : nodeid) (ms : Int)
  | setRelayMode (id : nodeid) (mode : relaymode)
  | togglePause (id : nodeid)
  | addOrDelChan (i j : nodeid)
deriving DecidableEq

/-- The node whose entry and control channel the call works on. -/
def RegOp.target : RegOp → nodeid
  | .setName id _ => id
  | .setSendText id _ => id
  | .setSendInterval id _ => id
  | .setRelayMode id _ => id
  | .togglePause id => id
  | .addOrDelChan i _ => i

/-- Perform one call on the registry. -/
def applyOp (net : network) : RegOp → Option network
  | .setName id name => net.setName id name
  | .setSendText id text => net.setSendText id text
  | .setSendInterval id ms => net.setSendInterval id ms
  | .setRelayMode id mode => net.setRelayMode id mode
  | .togglePause id => (net.togglePause id).map Prod.fst
  | .addOrDelChan i j => net.addOrDelChan i j

/-- Perform a sequence of calls, one after the other. -/
def applyOps (net : network) (ops : List RegOp) : Option network :=
  match ops with
  | [] => some net
  | op :: rest => (applyOp net op).bind (fun net => applyOps net rest)

/-- The control messages among the events that a node receives, in order. -/
def ctlsOf (es : List Event) : List ctlmsg :=
  match es with
  | [] => []
  | .ctl c :: rest => c :: ctlsOf rest
  | _ :: rest => ctlsOf rest

/-! ## Well-formed registries -/

/-- Every entry of the registry has a control channel made by `make`. -/
def allCtl (net : network) : Prop :=
  ∀ k n, net.find? k = some n → n.ctl ≠ none

/-! ## Registry and actor -/

/-- The state of `nodeMain` after the control message `c`, which is not QUIT. -/
def applyCtl (st : ActorState) (c : ctlmsg) : ActorState :=
  match ctlStep st c with
  | .next st1 _ => st1
  | _ => st

/-- The variables of `nodeMain` that only control messages change. -/
def ActorState.config (st : ActorState) :
    GoString × GoString × Int × relaymode × datachan × datachan × List nodeout :=
  (st.name, st.sendText, st.sendInterval, st.relayMode, st.inp, st.inOrNil, st.outs)

/-- The working copy of a node goroutine equals the entry of the registry:
same name, send text, send interval and relay mode, paused exactly when the
paused flag is set, and the same sequence of destinations. -/
def Agrees (st : ActorState) (n : node) : Prop :=
  st.name = n.name ∧ st.sendText = n.sendText ∧ st.sendInterval = n.sendInterval ∧
  st.relayMode = n.relayMode ∧ (st.inOrNil = none ↔ n.paused = true) ∧
  st.outs.map (fun o => o.dst) = n.outs.map (fun c => c.dst)

/-- The invariant that links the registry entry of a node with the state of its
goroutine once it has applied the control messages sent so far: they agree, the
input channel of the goroutine is not nil, and the registry holds at most one
channel per destination. -/
def Synced (st : ActorState) (n : node) : Prop :=
  Agrees st n ∧ st.inp ≠ none ∧ (n.outs.map (fun c => c.dst)).Nodup

/-! ## Sample data -/

/-- An actor state used to instantiate the theorems on relaying: node 5,
running, with the outputs 1, 2, 3 and the cursor on the second one. -/
def sampleActor : ActorState :=
  { id := 5, name := bytes "node", sendText := bytes "from 5", sendInterval := 0,
    relayMode := ROUND_ROBIN, inp := some 0,
    outs := [{ ch := some 1, dst := 1 }, { ch := some 2, dst := 2 }, { ch := some 3, dst := 3 }],
    sendTicker := none, nextOut := 1, inOrNil := some 0 }

/-- A registry used to instantiate the theorems on files: node 0 at (10, 20),
spawned by `spawnNodeWithID`. -/
def oneNode : network := network.spawnNodeWithID [] 0 10 20 0

/-- The registry `oneNode` after `setName(0, "a\"b")`: the name of node 0 is
the three bytes `a"b`. -/
def quoteNamed : network := (oneNode.setName 0 (bytes "a\"b")).getD []

/-- A file with a paused node 0 that sends "hi" every 1000 ms to node 1. -/
def pausedSender : GoString :=
  bytes ("digraph network \x7b\n" ++
    "0 [label=\"a\"] // \"hi\" 1000 0 true 0 0\n" ++
    "0 -> 1\n\n" ++
    "1 [label=\"b\"] // \"from 1\" 0 0 false 5 5\n\n" ++
    "\x7d\n")

/-- A file whose node 0, in ROUND_ROBIN mode and with a send interval of
1000 ms, has a channel line to the id 9, which no node line declares, before
the channel line to node 1. -/
def danglingEdge : GoString :=
  bytes ("digraph network \x7b\n" ++
    "0 [label=\"a\"] // \"hi\" 1000 0 false 0 0\n" ++
    "0 -> 9\n" ++ "0 -> 1\n\n" ++
    "1 [label=\"b\"] // \"from 1\" 0 0 false 5 5\n\n" ++
    "\x7d\n")

/-- The file `danglingEdge` with node 0 in MULTICAST mode. -/
def danglingMulticast : GoString :=
  bytes ("digraph network \x7b\n" ++
    "0 [label=\"a\"] // \"hi\" 1000 1 false 0 0\n" ++
    "0 -> 9\n" ++ "0 -> 1\n\n" ++
    "1 [label=\"b\"] // \"from 1\" 0 0 false 5 5\n\n" ++
    "\x7d\n")

/-- A sequence of registry operations on node 0 and node 1. -/
def sampleOps : List RegOp :=
  [.setName 0 (bytes "a"), .togglePause 0, .addOrDelChan 0 1, .addOrDelChan 0 0,
   .setSendInterval 0 250, .addOrDelChan 0 1, .setRelayMode 1 MULTICAST,
   .setSendText 0 (bytes "ping")]

/-! ## Reports and the node counter (main.go, network.go) -/

/-- The loop `for i := range n.outs` of `Game.Update`: set to 1 the usage of
the channels to `dst`. -/
def setUsage (outs : List chaninfo) (dst : nodeid) : List chaninfo :=
  match outs with
  | [] => []
  | c :: rest =>
    (if c.dst = dst then { c with usage := 1 } else c) :: setUsage rest dst

/-- What `Game.Update` does with one value `r` received from `reportChan`:
read the node `r.src`, set the usage of its channels to `r.dst`, and write the
node back. -/
def applyReport (net : network) (r : sendreport) : network :=
  let n := net.get r.src
  let n := { n with outs := setUsage n.outs r.dst }
  net.set r.src n

/-- Same as `spawnNodeWithID`, but the value of `nextNodeId` is used as id;
`inCh` is the data channel that is made. -/
def spawnNode (g : Game) (x y : Int) (inCh : Nat) : Game :=
  { net := g.net.spawnNodeWithID g.nextNodeId x y inCh,
    nextNodeId := wrap64 (g.nextNodeId + 1) }

/-- A registry with node 0 and node 1 and the channels 0 -> 1, which has been
used (usage 1), and 0 -> 0. -/
def twoNodes : network :=
  applyReport
    ((applyOps (network.spawnNodeWithID oneNode 1 30 40 1)
      [.addOrDelChan 0 1, .addOrDelChan 0 0]).getD [])
    { src := 0, dst := 1 }

/-! ## The entries of a file -/

/-- The fields of a node line: the id and the values read after it. -/
structure nodeDecl where
  id : nodeid
  name : GoString
  sendText : GoString
  sendInterval : Int
  relayMode : relaymode
  paused : Bool
  x : Int
  y : Int
deriving DecidableEq

/-- The part of `deserializeNode` that reads: the fields of the node line
after the id, and the reader after the line. -/
def parseNode (r : Reader) (id : nodeid) : Option (nodeDecl × Reader) :=
  match Fscanf r "[label=" with
  | none => none
  | some (_, r) =>
    match scanQuoted r with
    | (_, false, _) => none
    | (name, true, r) =>
      match Fscanf r "] // " with
      | none => none
      | some (_, r) =>
        match scanQuoted r with
        | (_, false, _) => none
        | (sendText, true, r) =>
          match Fscanf r "%d %d %t %d %d" with
          | some ([.int sendInterval, .int relayMode, .bool paused, .int x, .int y], r) =>
            some ({ id := id, name := name, sendText := sendText,
                    sendInterval := sendInterval, relayMode := relayMode, paused := paused,
                    x := x, y := y }, r)
          | _ => none

/-- The entry that `deserializeNode` leaves in the registry for a node line:
the fields read, no channel, and the control messages sent to the new node. -/
def declNode (d : nodeDecl) (inCh : Nat) : node :=
  { id := d.id, name := d.name,
    ctl := some ((if d.paused then [ctlmsg.TOGGLE_PAUSE] else []) ++
      [.SET_NAME d.name, .SET_SEND_TEXT d.sendText,
       .SET_SEND_INTERVAL (wrap64 (d.sendInterval * 1000000)), .SET_RELAY_MODE d.relayMode]),
    inp := some inCh, outs := [], sendText := d.sendText,
    sendInterval := wrap64 (d.sendInterval * 1000000), relayMode := d.relayMode,
    paused := d.paused, x := d.x, y := d.y }

/-- The registry after the node lines `ds`, in order, `made` data channels
having been made before. -/
def registerAll (net : network) (ds : List nodeDecl) (made : Nat) : network :=
  match ds with
  | [] => net
  | d :: rest => registerAll (network.set net d.id (declNode d made)) rest (made + 1)

/-- An entry of a file: a node line or a channel line. -/
inductive Entry where
  | node (d : nodeDecl)
  | chan (e : endpoints)
deriving DecidableEq

/-- The node lines among the entries, in order. -/
def nodesOf (es : List Entry) : List nodeDecl :=
  match es with
  | [] => []
  | .node d :: rest => d :: nodesOf rest
  | .chan _ :: rest => nodesOf rest

/-- The channel lines among the entries, in order. -/
def chansOf (es : List Entry) : List endpoints :=
  match es with
  | [] => []
  | .node _ :: rest => chansOf rest
  | .chan e :: rest => e :: chansOf rest

/-- The entries that the first loop of `deserialize` reads up to the closing
brace, `none` when the loop returns nil; `fuel` bounds their number. -/
def parseEntries (fuel : Nat) (r : Reader) : Option (List Entry) :=
  match fuel with
  | 0 => none
  | fuel + 1 =>
    if peek (skipEmptyLines r) (rune '\x7d') then some []
    else
      match Fscanf (skipEmptyLines r) "%d " with
      | some ([.int id], r) =>
        if peek r (rune '[') then
          match parseNode r id with
          | none => none
          | some (d, r) => (parseEntries fuel r).map (fun es => .node d :: es)
        else if peek r (rune '-') then
          match Fscanf r "-> %d" with
          | some ([.int dst], r) =>
            (parseEntries fuel r).map (fun es => .chan { src := id, dst := dst } :: es)
          | _ => none
        else none
      | _ => none

/-- The entries of the file with the bytes `input`: the lines between the
header and the closing brace; `none` when `deserialize` returns nil. -/
def fileEntries (input : GoString) : Option (List Entry) :=
  match Fscanf (skipEmptyLines (NewReader input)) "digraph network \x7b\n" with
  | none => none
  | some (_, r) => parseEntries (r.length + 1) r

/-- The node lines of a file, in order. -/
def nodeLines (input : GoString) : Option (List nodeDecl) := (fileEntries input).map nodesOf

/-- The channel lines of a file, in order. -/
def edgeLines (input : GoString) : Option (List endpoints) := (fileEntries input).map chansOf

/-- The greatest of `m` and the ids of the node lines. -/
def maxId (m : nodeid) (ds : List nodeDecl) : nodeid :=
  match ds with
  | [] => m
  | d :: rest => maxId (max m d.id) rest

/-! ## Channel lines -/

/-- What `addOrDelChan` does to the channel list of the source node. -/
def toggleChan (outs : List chaninfo) (j : nodeid) : List chaninfo :=
  match findChan outs j with
  | some k => outs.eraseIdx k
  | none => outs ++ [{ dst := j, usage := 0 }]

/-- The destinations of the channel lines whose source is `s`, in order. -/
def chansFrom (chans : List endpoints) (s : nodeid) : List nodeid :=
  match chans with
  | [] => []
  | c :: rest => if c.src = s then c.dst :: chansFrom rest s else chansFrom rest s

/-- The destinations among `l` that occur an odd number of times in `all`, each
at the place of its last occurrence in `l`. -/
def oddLast (all : List nodeid) (l : List nodeid) : List nodeid :=
  match l with
  | [] => []
  | d :: rest =>
    if d ∉ rest ∧ all.count d % 2 = 1 then d :: oddLast all rest else oddLast all rest
/-- Every ADD_DEST message sent so far carries the data channel that the
registry holds for its destination. -/
def handlesResolved (net : network) : Prop :=
  ∀ t q o, (network.get net t).ctl = some q → ctlmsg.ADD_DEST o ∈ q →
    o.ch = (network.get net o.dst).inp

/-- A file whose channel line `0 -> 1` comes before the lines of node 0 and
node 1. -/
def edgeFirst : GoString :=
  bytes ("digraph network \x7b\n" ++
    "0 -> 1\n" ++
    "0 [label=\"a\"] // \"hi\" 0 0 false 0 0\n\n" ++
    "1 [label=\"b\"] // \"yo\" 0 1 false 5 5\n\n" ++
    "\x7d\n")

/-- The file `edgeFirst` with the channel line after the node lines. -/
def edgeLast : GoString :=
  bytes ("digraph network \x7b\n" ++
    "0 [label=\"a\"] // \"hi\" 0 0 false 0 0\n\n" ++
    "1 [label=\"b\"] // \"yo\" 0 1 false 5 5\n" ++
    "0 -> 1\n\n" ++
    "\x7d\n")

/-- The registry that both files describe: node 0 has received ADD_DEST with
channel 1, the data channel of node 1. -/
def edgeNet : network :=
  [(0, { declNode ⟨0, bytes "a", bytes "hi", 0, 0, false, 0, 0⟩ 0 with
          outs := [{ dst := 1, usage := 0 }],
          ctl := some [.SET_NAME (bytes "a"), .SET_SEND_TEXT (bytes "hi"),
            .SET_SEND_INTERVAL 0, .SET_RELAY_MODE 0,
            .ADD_DEST { ch := some 1, dst := 1 }] }),
   (1, declNode ⟨1, bytes "b", bytes "yo", 0, 1, false, 5, 5⟩ 1)]

/-- A file whose only node has the id -5. -/
def negativeId : GoString :=
  bytes ("digraph network \x7b\n" ++
    "-5 [label=\"a\"] // \"hi\" 0 0 false 0 0\n\n" ++
    "\x7d\n")

/-- A file whose only node has the greatest 64-bit id. -/
def topId : GoString :=
  bytes ("digraph network \x7b\n" ++
    "9223372036854775807 [label=\"a\"] // \"hi\" 0 0 false 0 0\n\n" ++
    "\x7d\n")

/-- A file whose nodes have the relay modes 7 and -1. -/
def oddModes : GoString :=
  bytes ("digraph network \x7b\n" ++
    "0 [label=\"a\"] // \"hi\" 0 7 false 0 0\n\n" ++
    "1 [label=\"b\"] // \"yo\" 0 -1 false 5 5\n\n" ++
    "\x7d\n")

/-- A file with repeated channel lines: `0 -> 1` three times, `0 -> 0` once
and `1 -> 0` twice. -/
def toggled : GoString :=
  bytes ("digraph network \x7b\n" ++
    "0 [label=\"a\"] // \"hi\" 0 0 false 0 0\n" ++
    "0 -> 1\n" ++ "0 -> 0\n" ++ "0 -> 1\n" ++ "0 -> 1\n\n" ++
    "1 [label=\"b\"] // \"yo\" 0 1 false 5 5\n" ++
    "1 -> 0\n" ++ "1 -> 0\n\n" ++
    "\x7d\n")

/-- The registry that `deserialize` returns for the file `toggled`. -/
def toggledNet : network :=
  match deserialize toggled 0 with
  | .ok (net, _) => net
  | _ => []

/-! ## Files that are cut short or hold a malformed entry -/

/-- The line of a node after its id is malformed: one of the five reads of
`deserializeNode` fails. -/
inductive BadNode : Reader → Prop where
  /-- The text `[label=` is missing. -/
  | label (r : Reader) : Fscanf r "[label=" = none → BadNode r
  /-- The name is a bad quoted string. -/
  | name (r r1 : Reader) (v1 : List ScanVal) :
      Fscanf r "[label=" = some (v1, r1) → (scanQuoted r1).2.1 = false → BadNode r
  /-- The text `] // ` is missing. -/
  | separator (r r1 : Reader) (v1 : List ScanVal) :
      Fscanf r "[label=" = some (v1, r1) → (scanQuoted r1).2.1 = true →
      Fscanf (scanQuoted r1).2.2 "] // " = none → BadNode r
  /-- The send text is a bad quoted string. -/
  | sendText (r r1 r3 : Reader) (v1 v2 : List ScanVal) :
      Fscanf r "[label=" = some (v1, r1) → (scanQuoted r1).2.1 = true →
      Fscanf (scanQuoted r1).2.2 "] // " = some (v2, r3) →
      (scanQuoted r3).2.1 = false → BadNode r
  /-- A numeric or boolean field is bad. -/
  | fields (r r1 r3 : Reader) (v1 v2 : List ScanVal) :
      Fscanf r "[label=" = some (v1, r1) → (scanQuoted r1).2.1 = true →
      Fscanf (scanQuoted r1).2.2 "] // " = some (v2, r3) →
      (scanQuoted r3).2.1 = true →
      Fscanf (scanQuoted r3).2.2 "%d %d %t %d %d" = none → BadNode r

/-- The entries that start at `r` are cut short or hold a malformed entry: the
input ends, or an entry is malformed, before a closing brace at an entry
position. -/
inductive BadEntries : Reader → Prop where
  /-- End of input at an entry position. -/
  | eof (r : Reader) : skipEmptyLines r = [] → BadEntries r
  /-- No integer id where an entry starts. -/
  | noId (r : Reader) : peek (skipEmptyLines r) (rune '\x7d') = false →
      Fscanf (skipEmptyLines r) "%d " = none → BadEntries r
  /-- A character other than `[` or `-` after the id. -/
  | kind (r r1 : Reader) (id : nodeid) : peek (skipEmptyLines r) (rune '\x7d') = false →
      Fscanf (skipEmptyLines r) "%d " = some ([.int id], r1) →
      peek r1 (rune '[') = false → peek r1 (rune '-') = false → BadEntries r
  /-- A malformed node line. -/
  | node (r r1 : Reader) (id : nodeid) : peek (skipEmptyLines r) (rune '\x7d') = false →
      Fscanf (skipEmptyLines r) "%d " = some ([.int id], r1) →
      peek r1 (rune '[') = true → BadNode r1 → BadEntries r
  /-- A bad `-> <dst>`. -/
  | chan (r r1 : Reader) (id : nodeid) : peek (skipEmptyLines r) (rune '\x7d') = false →
      Fscanf (skipEmptyLines r) "%d " = some ([.int id], r1) →
      peek r1 (rune '[') = false → peek r1 (rune '-') = true →
      Fscanf r1 "-> %d" = none → BadEntries r
  /-- A node line, and the entries after it are bad. -/
  | afterNode (r r1 r2 : Reader) (id : nodeid) (d : nodeDecl) :
      peek (skipEmptyLines r) (rune '\x7d') = false →
      Fscanf (skipEmptyLines r) "%d " = some ([.int id], r1) →
      peek r1 (rune '[') = true → parseNode r1 id = some (d, r2) →
      BadEntries r2 → BadEntries r
  /-- A channel line, and the entries after it are bad. -/
  | afterChan (r r1 r2 : Reader) (id dst : nodeid) :
      peek (skipEmptyLines r) (rune '\x7d') = false →
      Fscanf (skipEmptyLines r) "%d " = some ([.int id], r1) →
      peek r1 (rune '[') = false → peek r1 (rune '-') = true →
      Fscanf r1 "-> %d" = some ([.int dst], r2) →
      BadEntries r2 → BadEntries r

/-- A file whose node line has the name `"\q"`, a backslash followed by a
character that forms no escape sequence. -/
def badEscape : GoString :=
  bytes ("digraph network \x7b\n" ++
    "0 [label=\"\\q\"] // \"hi\" 0 0 false 0 0\n\n" ++
    "\x7d\n")

/-- A file whose node line has the letter `x` in the paused field. -/
def badBool : GoString :=
  bytes ("digraph network \x7b\n" ++
    "0 [label=\"a\"] // \"hi\" 0 0 x 0 0\n\n" ++
    "\x7d\n")

/-! ## Plain text -/

/-- The bytes `s` are valid UTF-8: the encoding of a sequence of valid runes. -/
def ValidUTF8 (s : GoString) : Prop :=
  ∃ rs : List Nat, (∀ r ∈ rs, ValidRune r = true) ∧ s = rs.flatMap encodeRune

/-! ## Registries that a file records in full -/

/-- The string is valid UTF-8 and holds no double quote, no backslash and no
newline. -/
def Plain (s : GoString) : Prop := ValidUTF8 s ∧ 34 ∉ s ∧ 92 ∉ s ∧ 10 ∉ s

/-- The integer is a value of a 64-bit variable. -/
def isInt64 (i : Int) : Prop := -2 ^ 63 ≤ i ∧ i < 2 ^ 63

/-- The entry `n` under the key `k` is one that a file records in full: the
node is stored under its id, its name and send text are plain, its send
interval is a whole number of milliseconds, its channels go to different
destinations, and its integers are values of 64-bit variables. -/
def Writable (k : nodeid) (n : node) : Prop :=
  n.id = k ∧ Plain n.name ∧ Plain n.sendText ∧
    (∃ ms : Int, n.sendInterval = ms * 1000000) ∧ isInt64 n.sendInterval ∧
    (n.outs.map (fun c => c.dst)).Nodup ∧
    isInt64 n.id ∧ isInt64 n.relayMode ∧ isInt64 n.x ∧ isInt64 n.y ∧
    ∀ o ∈ n.outs, isInt64 o.dst

/-- The fields that `node.serialize` writes on the line of a node. -/
def lineOf (n : node) : nodeDecl :=
  { id := n.id, name := n.name, sendText := n.sendText,
    sendInterval := Milliseconds n.sendInterval, relayMode := n.relayMode,
    paused := n.paused, x := n.x, y := n.y }

/-- The lines that `node.serialize` writes for the channels `outs` of node `id`. -/
def chanLines (id : nodeid) (outs : List chaninfo) : List Entry :=
  outs.map (fun o => Entry.chan { src := id, dst := o.dst })

/-- The lines that `network.serialize` writes between the header and the
closing brace. -/
def entriesOf (net : network) : List Entry :=
  match net with
  | [] => []
  | (_, n) :: rest => .node (lineOf n) :: (chanLines n.id n.outs ++ entriesOf rest)

/-- The registry `oneNode` after the report (5, 1) of a node that is gone: the
key 5 holds the zero value of `node`, whose id is 0. -/
def strayKey : network := applyReport oneNode { src := 5, dst := 1 }

/-! # Theorems -/

/-! ## Node actor: relaying and timer -/

/-- When no output channel is nil, the loop over the outputs ends, having sent
on every channel and reported every send, in order. -/
theorem sendAll_live (id : nodeid) (outs : List nodeout) (s : GoString)
    (h : ∀ o ∈ outs, o.ch ≠ none) :
    sendAll id outs s =
      (outs.flatMap (fun o => [Effect.send o.ch s, Effect.report { src := id, dst := o.dst }]),
        true) := by
  induction outs with
  | nil => rfl
  | cons o rest ih =>
    have ho := h o (List.mem_cons_self _ _)
    have ih1 := ih (fun x hx => h x (List.mem_cons_of_mem _ hx))
    simp only [sendAll, if_neg ho, ih1, List.flatMap_cons, List.cons_append, List.nil_append]

/-- C2: a node spawned by `spawnNodeWithID` that receives ADD_DEST 1,
ADD_DEST 2, one data message and DEL_DEST 2 reaches a state whose output list is
not empty (length 1) while `nextOut` is 1, not a valid index; the next data
message makes `outs[nextOut]` fail with index out of range. -/
theorem C2_cursor_leaves_range :
    ∃ st out,
      nodeMain ((network.spawnNodeWithID [] 0 0 0 7).get 0)
        [.ctl (.ADD_DEST { ch := some 8, dst := 1 }),
         .ctl (.ADD_DEST { ch := some 9, dst := 2 }),
         .data (bytes "m"),
         .ctl (.DEL_DEST 2)] = .next st out ∧
      st.relayMode = ROUND_ROBIN ∧ st.outs.length = 1 ∧ st.nextOut = 1 ∧
      ¬ (st.outs = [] ∨ st.nextOut < st.outs.length) ∧
      nodeStep st (.data (bytes "m")) = .indexOutOfRange st := by
  refine ⟨_, _, rfl, ?_⟩
  decide

/-- Relaying the messages `msgs` in round-robin mode from a valid cursor: the
run goes on, the cursor advances by the number of messages, and the channel
operations are appended in order. -/
theorem runFrom_roundRobin (msgs : List GoString) :
    ∀ (st : ActorState) (acc : List Effect),
      st.inOrNil ≠ none → st.relayMode = ROUND_ROBIN → st.nextOut < st.outs.length →
      (∀ o ∈ st.outs, o.ch ≠ none) →
      ∃ out,
        runFrom st acc (msgs.map Event.data) =
          .next { st with nextOut := (st.nextOut + msgs.length) % st.outs.length }
            (acc ++ out) ∧
        out.length = 2 * msgs.length ∧
        ∀ i m, msgs.get? i = some m →
          ∃ o, st.outs.get? ((st.nextOut + i) % st.outs.length) = some o ∧
            out.get? (2 * i) = some (.send o.ch m) ∧
            out.get? (2 * i + 1) = some (.report { src := st.id, dst := o.dst }) := by
  induction msgs with
  | nil =>
    intro st acc _ _ hc _
    refine ⟨[], ?_, rfl, ?_⟩
    · simp [runFrom, Nat.mod_eq_of_lt hc]
    · intro i m h; simp at h
  | cons m rest ih =>
    intro st acc hrun hmode hc hlive
    have hlen : st.outs.length ≠ 0 := by omega
    obtain ⟨o, ho⟩ : ∃ o, st.outs.get? st.nextOut = some o :=
      ⟨_, List.get?_eq_get hc⟩
    have hoch : ¬ o.ch = none := hlive o (List.get?_mem ho)
    have hpos : 0 < st.outs.length := by omega
    have hc1 : (st.nextOut + 1) % st.outs.length < st.outs.length := Nat.mod_lt _ hpos
    obtain ⟨out, hout, hl, hidx⟩ :=
      ih { st with nextOut := (st.nextOut + 1) % st.outs.length }
        (acc ++ [.send o.ch m, .report { src := st.id, dst := o.dst }]) hrun hmode hc1 hlive
    refine ⟨.send o.ch m :: .report { src := st.id, dst := o.dst } :: out, ?_, ?_, ?_⟩
    · simp only [List.map_cons, runFrom, nodeStep, dataStep, if_neg hrun, if_neg hlen,
        if_pos hmode, ho, if_neg hoch]
      rw [hout]
      simp only [List.length_cons, Nat.mod_add_mod, List.append_assoc, List.cons_append,
        List.nil_append]
      congr 2
      rw [Nat.add_assoc, Nat.add_comm 1]
    · simp [hl]; omega
    · intro i m1 hi
      cases i with
      | zero =>
        simp only [List.get?_cons_zero, Option.some.injEq] at hi
        subst hi
        refine ⟨o, ?_, by simp, by simp⟩
        simpa [Nat.mod_eq_of_lt hc] using ho
      | succ j =>
        simp only [List.get?_cons_succ] at hi
        obtain ⟨o1, h1, h2, h3⟩ := hidx j m1 hi
        refine ⟨o1, ?_, ?_, ?_⟩
        · simp only [Nat.mod_add_mod] at h1
          rw [← h1]; congr 2; omega
        · have : 2 * (j + 1) = (2 * j) + 1 + 1 := by omega
          rw [this]; simpa using h2
        · have : 2 * (j + 1) + 1 = (2 * j + 1) + 1 + 1 := by omega
          rw [this]; simpa using h3

/-- C8 (amended): round-robin fairness. A running node in ROUND_ROBIN mode
whose cursor `c` is a valid index of its `k` outputs, none of which has a nil
channel, receiving the data messages `m_0 .. m_(N-1)` with no control message
in between, performs exactly `2 * N` channel operations: for each `i` the send
of `m_i` to `outs[(c + i) mod k]` followed by the report
`(id, outs[(c + i) mod k].dst)`; the cursor ends at `(c + N) mod k` and nothing
else of the state changes. -/
theorem C8_round_robin_fairness (st : ActorState) (msgs : List GoString)
    (hrun : st.inOrNil ≠ none) (hmode : st.relayMode = ROUND_ROBIN)
    (hc : st.nextOut < st.outs.length) (hlive : ∀ o ∈ st.outs, o.ch ≠ none) :
    ∃ out,
      runFrom st [] (msgs.map Event.data) =
        .next { st with nextOut := (st.nextOut + msgs.length) % st.outs.length } out ∧
      out.length = 2 * msgs.length ∧
      ∀ i m, msgs.get? i = some m →
        ∃ o, st.outs.get? ((st.nextOut + i) % st.outs.length) = some o ∧
          out.get? (2 * i) = some (.send o.ch m) ∧
          out.get? (2 * i + 1) = some (.report { src := st.id, dst := o.dst }) := by
  obtain ⟨out, h1, h2, h3⟩ := runFrom_roundRobin msgs st [] hrun hmode hc hlive
  exact ⟨out, by simpa using h1, h2, h3⟩

theorem C8_round_robin_fairness_witness :
    sampleActor.inOrNil ≠ none ∧ sampleActor.relayMode = ROUND_ROBIN ∧
    sampleActor.nextOut < sampleActor.outs.length ∧
    (∀ o ∈ sampleActor.outs, o.ch ≠ none) ∧
    ∃ out,
      runFrom sampleActor [] ([bytes "a", bytes "b", bytes "c", bytes "d"].map Event.data) =
        .next { sampleActor with
                nextOut := (sampleActor.nextOut + [bytes "a", bytes "b", bytes "c", bytes "d"].length)
                  % sampleActor.outs.length } out ∧
      out.length = 2 * [bytes "a", bytes "b", bytes "c", bytes "d"].length ∧
      ∀ i m, [bytes "a", bytes "b", bytes "c", bytes "d"].get? i = some m →
        ∃ o, sampleActor.outs.get? ((sampleActor.nextOut + i) % sampleActor.outs.length) = some o ∧
          out.get? (2 * i) = some (.send o.ch m) ∧
          out.get? (2 * i + 1) = some (.report { src := sampleActor.id, dst := o.dst }) :=
  ⟨by decide, by decide, by decide, by decide,
    C8_round_robin_fairness sampleActor [bytes "a", bytes "b", bytes "c", bytes "d"]
      (by decide) (by decide) (by decide) (by decide)⟩

/-- C9 (amended): multicast completeness. A running node in MULTICAST mode
with the outputs `outs` (of any length, zero included), none of which has a nil
channel, that receives the data message `s` sends `s` once on every output
channel, in list order, each send being followed by the report `(id, dst)` of
that output, and performs no other channel operation; the state, with the
output list and the cursor, is unchanged. -/
theorem C9_multicast_completeness (st : ActorState) (s : GoString)
    (hrun : st.inOrNil ≠ none) (hmode : st.relayMode = MULTICAST)
    (hlive : ∀ o ∈ st.outs, o.ch ≠ none) :
    nodeStep st (.data s) =
      .next st (st.outs.flatMap
        (fun o => [Effect.send o.ch s, Effect.report { src := st.id, dst := o.dst }])) := by
  have hne : ¬ st.relayMode = ROUND_ROBIN := by rw [hmode]; decide
  by_cases hl : st.outs.length = 0
  · have : st.outs = [] := List.length_eq_zero.mp hl
    simp [nodeStep, dataStep, hrun, this]
  · simp only [nodeStep, dataStep, if_neg hrun, if_neg hl, if_neg hne, if_pos hmode,
      sendAll_live st.id st.outs s hlive, if_true]

theorem C9_multicast_completeness_witness :
    ({ sampleActor with relayMode := MULTICAST } : ActorState).inOrNil ≠ none ∧
    ({ sampleActor with relayMode := MULTICAST } : ActorState).relayMode = MULTICAST ∧
    (∀ o ∈ ({ sampleActor with relayMode := MULTICAST } : ActorState).outs, o.ch ≠ none) ∧
    nodeStep { sampleActor with relayMode := MULTICAST } (.data (bytes "hello")) =
      .next { sampleActor with relayMode := MULTICAST }
        (({ sampleActor with relayMode := MULTICAST } : ActorState).outs.flatMap
          (fun o => [Effect.send o.ch (bytes "hello"),
            Effect.report { src := ({ sampleActor with relayMode := MULTICAST } : ActorState).id,
                            dst := o.dst }])) :=
  ⟨by decide, by decide, by decide,
    C9_multicast_completeness { sampleActor with relayMode := MULTICAST } (bytes "hello")
      (by decide) (by decide) (by decide)⟩

/-- C10 (amended): the timer ignores the relay mode. Whatever the relay mode
`mode`, one firing of a running send ticker of a node none of whose outputs has
a nil channel sends the current `sendText` once on every output channel, in
list order, each send being followed by the report `(id, dst)` of that output,
and nothing else; the operations do not depend on `mode`, and the state, with
the cursor, is unchanged. -/
theorem C10_timer_ignores_relay_mode (st : ActorState) (mode : relaymode) (d : Int)
    (hticker : st.sendTicker = some d) (hlive : ∀ o ∈ st.outs, o.ch ≠ none) :
    nodeStep { st with relayMode := mode } .tick =
      .next { st with relayMode := mode } (st.outs.flatMap
        (fun o => [Effect.send o.ch st.sendText,
          Effect.report { src := st.id, dst := o.dst }])) := by
  simp only [nodeStep, tickStep, hticker, sendAll_live st.id st.outs st.sendText hlive, if_true]

theorem C10_timer_ignores_relay_mode_witness :
    ({ sampleActor with sendTicker := some 1000000000 } : ActorState).sendTicker
        = some 1000000000 ∧
    (∀ o ∈ ({ sampleActor with sendTicker := some 1000000000 } : ActorState).outs,
      o.ch ≠ none) ∧
    nodeStep { ({ sampleActor with sendTicker := some 1000000000 } : ActorState) with
               relayMode := DISCARD } .tick =
      .next { ({ sampleActor with sendTicker := some 1000000000 } : ActorState) with
              relayMode := DISCARD }
        (({ sampleActor with sendTicker := some 1000000000 } : ActorState).outs.flatMap
          (fun o => [Effect.send o.ch
              ({ sampleActor with sendTicker := some 1000000000 } : ActorState).sendText,
            Effect.report
              { src := ({ sampleActor with sendTicker := some 1000000000 } : ActorState).id,
                dst := o.dst }])) :=
  ⟨rfl, by decide,
    C10_timer_ignores_relay_mode { sampleActor with sendTicker := some 1000000000 }
      DISCARD 1000000000 rfl (by decide)⟩

/-! ## Files: quoted strings, round trip, loading -/

set_option maxRecDepth 20000

/-- C1: the registry with the single node 0 named `a"b` (made by
`spawnNodeWithID` and `setName`) is written by `serialize` as a file whose node
line is `0 [label="a"b"] // "from 0" 0 0 false 10 20`, the name not being
escaped; `scanQuoted` reads the name `a` and stops before `b`, the next
`Fscanf` does not find `] // `, and `deserialize` fails on that file: the round
trip does not reproduce the registry. -/
theorem C1_round_trip_fails_on_quote :
    quoteNamed.find? 0 ≠ none ∧ (quoteNamed.get 0).name = bytes "a\"b" ∧
    quoteNamed.serialize =
      bytes ("digraph network \x7b\n" ++
        "0 [label=\"a\"b\"] // \"from 0\" 0 0 false 10 20\n\n" ++ "\x7d\n") ∧
    scanQuoted (NewReader (bytes "\"a\"b\"] // \"from 0\" 0 0 false 10 20\n\n\x7d\n")) =
      (bytes "a", true, NewReader (bytes "b\"] // \"from 0\" 0 0 false 10 20\n\n\x7d\n")) ∧
    Fscanf (NewReader (bytes "b\"] // \"from 0\" 0 0 false 10 20\n\n\x7d\n")) "] // " = none ∧
    deserialize quoteNamed.serialize 0 = .failed := by
  decide

/-- C3: on the file `pausedSender`, `deserialize` registers node 0 as paused
and sends it TOGGLE_PAUSE, then SET_SEND_INTERVAL with a positive interval; a
node goroutine that has applied these control messages, in send order, is
paused (`inOrNil` is nil) while its send ticker runs, and a tick makes it send
its text "hi" to node 1 and report the send. -/
theorem C3_paused_node_ticks :
    ∃ net maxid q st out d,
      deserialize pausedSender 0 = .ok (net, maxid) ∧
      (net.get 0).paused = true ∧ (net.get 0).ctl = some q ∧
      q = [.TOGGLE_PAUSE, .SET_NAME (bytes "a"), .SET_SEND_TEXT (bytes "hi"),
           .SET_SEND_INTERVAL 1000000000, .SET_RELAY_MODE 0,
           .ADD_DEST { ch := some 1, dst := 1 }] ∧
      nodeMain ((network.spawnNodeWithID [] 0 0 0 0).get 0) (q.map Event.ctl) = .next st [] ∧
      st.inOrNil = none ∧ st.sendTicker = some d ∧
      nodeStep st .tick = .next st out ∧
      out = [.send (some 1) (bytes "hi"), .report { src := 0, dst := 1 }] := by
  refine ⟨_, _, _, _, _, _, rfl, ?_, rfl, ?_, rfl, ?_, rfl, rfl, ?_⟩ <;> decide

/-- C4: on the input `"a\"b"` (a quote, a, a backslash, a quote, b, a quote)
`scanQuoted` fails and returns the empty string, and on the input `"a\nb"` (with
a backslash and the letter n) it returns the three letters `anb`: the backslash
is dropped before the literal is given to `Unquote`. -/
theorem C4_escapes_not_decoded :
    scanQuoted (NewReader (bytes "\"a\\\"b\"")) = ([], false, []) ∧
    scanQuoted (NewReader (bytes "\"a\\nb\"")) = (bytes "anb", true, []) := by
  decide

/-- C5: on the input `"\q"`, whose backslash is followed by a character that
forms no escape sequence, `scanQuoted` succeeds and returns the string `q`. -/
theorem C5_invalid_escape_accepted :
    scanQuoted (NewReader (bytes "\"\\q\"")) = (bytes "q", true, []) := by
  decide

/-! ## A channel to an id that no node line declares -/

/-- C8 (counterexample): `deserialize` accepts the file `danglingEdge` and
sends node 0 an ADD_DEST for the id 9 with a nil channel, no node 9 being
registered. A goroutine that has applied the control messages sent to node 0 is
running, in ROUND_ROBIN mode, with two outputs and the cursor 0 on the output
to 9; the data message `m` makes it block forever on the send on the nil
channel: nothing is delivered, no report is emitted and the cursor stays
at 0. -/
theorem C8_nil_handle_blocks :
    ∃ net maxid q st,
      deserialize danglingEdge 0 = .ok (net, maxid) ∧
      (net.get 0).ctl = some q ∧
      q = [.SET_NAME (bytes "a"), .SET_SEND_TEXT (bytes "hi"),
           .SET_SEND_INTERVAL 1000000000, .SET_RELAY_MODE 0,
           .ADD_DEST { ch := none, dst := 9 }, .ADD_DEST { ch := some 1, dst := 1 }] ∧
      nodeMain ((network.spawnNodeWithID [] 0 0 0 0).get 0) (q.map Event.ctl) = .next st [] ∧
      st.inOrNil ≠ none ∧ st.relayMode = ROUND_ROBIN ∧
      st.outs = [{ ch := none, dst := 9 }, { ch := some 1, dst := 1 }] ∧
      st.nextOut = 0 ∧ st.nextOut < st.outs.length ∧
      runFrom st [] ([bytes "m"].map Event.data) = .blocked st [] := by
  refine ⟨_, _, _, _, rfl, rfl, ?_, rfl, ?_, ?_, ?_, ?_, ?_, ?_⟩ <;> decide

/-- C9 (counterexample): `deserialize` accepts the file `danglingMulticast`
and sends node 0 an ADD_DEST for the id 9 with a nil channel. A goroutine that
has applied the control messages sent to node 0 is running, in MULTICAST mode,
with the outputs to 9 and to 1; the data message `m` makes it block forever on
the send on the nil channel: nothing is delivered to node 1 and no report is
emitted. -/
theorem C9_nil_handle_blocks :
    ∃ net maxid q st,
      deserialize danglingMulticast 0 = .ok (net, maxid) ∧
      (net.get 0).ctl = some q ∧
      q = [.SET_NAME (bytes "a"), .SET_SEND_TEXT (bytes "hi"),
           .SET_SEND_INTERVAL 1000000000, .SET_RELAY_MODE 1,
           .ADD_DEST { ch := none, dst := 9 }, .ADD_DEST { ch := some 1, dst := 1 }] ∧
      nodeMain ((network.spawnNodeWithID [] 0 0 0 0).get 0) (q.map Event.ctl) = .next st [] ∧
      st.inOrNil ≠ none ∧ st.relayMode = MULTICAST ∧
      st.outs = [{ ch := none, dst := 9 }, { ch := some 1, dst := 1 }] ∧
      nodeStep st (.data (bytes "m")) = .blocked st [] := by
  refine ⟨_, _, _, _, rfl, rfl, ?_, rfl, ?_, ?_, ?_, ?_⟩ <;> decide

/-- C10 (counterexample): a goroutine that has applied the control messages
that `deserialize` sends to node 0 for the file `danglingEdge` has a running
send ticker and the outputs to 9, with a nil channel, and to 1; one firing of
the ticker makes it block forever on the send on the nil channel: the send text
is delivered to no output and no report is emitted. -/
theorem C10_nil_handle_blocks :
    ∃ net maxid q st,
      deserialize danglingEdge 0 = .ok (net, maxid) ∧
      (net.get 0).ctl = some q ∧
      nodeMain ((network.spawnNodeWithID [] 0 0 0 0).get 0) (q.map Event.ctl) = .next st [] ∧
      st.sendTicker = some 1000000000 ∧
      st.outs = [{ ch := none, dst := 9 }, { ch := some 1, dst := 1 }] ∧
      nodeStep st .tick = .blocked st [] ∧
      nodeStep { st with relayMode := MULTICAST } .tick =
        .blocked { st with relayMode := MULTICAST } [] ∧
      nodeStep { st with relayMode := DISCARD } .tick =
        .blocked { st with relayMode := DISCARD } [] := by
  refine ⟨_, _, _, _, rfl, rfl, rfl, ?_, ?_, ?_, ?_, ?_⟩ <;> decide

/-! ## The registry as a map -/

theorem find?_set (net : network) (id k : nodeid) (n : node) :
    (net.set id n).find? k = if k = id then some n else net.find? k := by
  induction net with
  | nil =>
    by_cases h : k = id
    · simp [network.set, network.find?, h]
    · have h1 : ¬ id = k := fun e => h e.symm
      simp [network.set, network.find?, h, h1]
  | cons e rest ih =>
    obtain ⟨k0, m⟩ := e
    by_cases h0 : k0 = id
    · by_cases h : k = id
      · simp [network.set, network.find?, h0, h]
      · have h1 : ¬ id = k := fun e => h e.symm
        simp [network.set, network.find?, h0, h, h1]
    · by_cases h : k = id
      · subst h
        simp [network.set, network.find?, h0, ih]
      · by_cases h2 : k0 = k
        · subst h2
          simp [network.set, network.find?, h]
        · simp [network.set, network.find?, h0, h, h2, ih]

theorem get_set_same (net : network) (id : nodeid) (n : node) :
    (net.set id n).get id = n := by
  simp [network.get, find?_set]

theorem get_set_other (net : network) (id k : nodeid) (n : node) (h : k ≠ id) :
    (net.set id n).get k = net.get k := by
  simp [network.get, find?_set, h]

theorem find?_ne_none_of_mem_keys (net : network) (k : nodeid) (h : k ∈ net.keys) :
    net.find? k ≠ none := by
  induction net with
  | nil => simp [network.keys] at h
  | cons e rest ih =>
    obtain ⟨k0, m⟩ := e
    by_cases h0 : k0 = k
    · simp [network.find?, h0]
    · have : k ∈ network.keys rest := by
        simp only [network.keys, List.map_cons, List.mem_cons] at h
        rcases h with h | h
        · exact absurd h.symm h0
        · exact h
      simpa [network.find?, h0] using ih this

theorem keys_set_of_find? (net : network) (id : nodeid) (n : node)
    (h : net.find? id ≠ none) : (net.set id n).keys = net.keys := by
  induction net with
  | nil => simp [network.find?] at h
  | cons e rest ih =>
    obtain ⟨k0, m⟩ := e
    by_cases h0 : k0 = id
    · simp [network.set, network.keys, h0]
    · have h1 : network.find? rest id ≠ none := by simpa [network.find?, h0] using h
      have := ih h1
      simp only [network.keys] at this
      simp [network.set, network.keys, h0, this]

theorem sendCtl_spec (net : network) (t : nodeid) (m : ctlmsg) (q : List ctlmsg)
    (h : (network.get net t).ctl = some q) :
    network.sendCtl net t m =
      some (network.set net t { network.get net t with ctl := some (q ++ [m]) }) := by
  simp [network.sendCtl, h]

theorem find?_ne_none_of_ctl (net : network) (t : nodeid) (q : List ctlmsg)
    (h : (network.get net t).ctl = some q) : network.find? net t ≠ none := by
  intro hn
  simp [network.get, hn, zeroNode] at h

theorem allCtl_set (net : network) (t : nodeid) (n : node) (hall : allCtl net)
    (hn : n.ctl ≠ none) : allCtl (network.set net t n) := by
  intro k m hk
  rw [find?_set] at hk
  by_cases hkt : k = t
  · simp only [hkt, if_true, Option.some.injEq] at hk
    rw [← hk]; exact hn
  · simp only [hkt, if_false] at hk
    exact hall k m hk

theorem ctl_of_allCtl (net : network) (t : nodeid) (hall : allCtl net)
    (ht : network.find? net t ≠ none) : ∃ q, (network.get net t).ctl = some q := by
  cases hf : network.find? net t with
  | none => exact absurd hf ht
  | some n =>
    have := hall t n hf
    cases hc : n.ctl with
    | none => exact absurd hc this
    | some q => exact ⟨q, by simp [network.get, hf, hc]⟩

/-! ## Stopping all nodes, and the load handler -/

theorem stopEach_returns (ids : List nodeid) :
    ∀ net : network, allCtl net → (∀ id ∈ ids, network.find? net id ≠ none) →
      ∃ net1, stopEach net ids = some net1 ∧ network.keys net1 = network.keys net := by
  induction ids with
  | nil => intro net _ _; exact ⟨net, rfl, rfl⟩
  | cons id rest ih =>
    intro net hall hids
    have hid := hids id (List.mem_cons_self _ _)
    obtain ⟨q, hq⟩ := ctl_of_allCtl net id hall hid
    have hkeys := keys_set_of_find? net id { network.get net id with ctl := some (q ++ [.QUIT]) } hid
    have hall1 := allCtl_set net id { network.get net id with ctl := some (q ++ [.QUIT]) } hall
      (by simp)
    have hids1 : ∀ k ∈ rest, network.find? (network.set net id
        { network.get net id with ctl := some (q ++ [.QUIT]) }) k ≠ none := by
      intro k hk
      rw [find?_set]
      by_cases hki : k = id
      · simp [hki]
      · simpa [hki] using hids k (List.mem_cons_of_mem _ hk)
    obtain ⟨net1, h1, h2⟩ := ih _ hall1 hids1
    refine ⟨net1, ?_, by rw [h2, hkeys]⟩
    simp [stopEach, network.stop, sendCtl_spec net id .QUIT q hq, h1]

theorem waitEach_returns (ids : List nodeid) :
    ∀ (net : network) (stopChan : List nodeid), ids.length ≤ stopChan.length →
      waitEach net ids stopChan =
        some (ids.foldl network.delete net, stopChan.drop ids.length) := by
  induction ids with
  | nil => intro net stopChan _; simp [waitEach]
  | cons i rest ih =>
    intro net stopChan hlen
    cases stopChan with
    | nil => simp at hlen
    | cons v more =>
      have : rest.length ≤ more.length := by simpa using hlen
      simp [waitEach, ih _ _ this]

theorem foldl_delete_eq_nil (ids : List nodeid) :
    ∀ net : network, (∀ e ∈ net, e.1 ∈ ids) → ids.foldl network.delete net = [] := by
  induction ids with
  | nil =>
    intro net h
    cases net with
    | nil => rfl
    | cons e rest => exact absurd (h e (List.mem_cons_self _ _)) (List.not_mem_nil _)
  | cons i rest ih =>
    intro net h
    simp only [List.foldl_cons]
    apply ih
    intro e he
    simp only [network.delete, List.mem_filter, decide_eq_true_eq] at he
    have := h e he.1
    simp only [List.mem_cons] at this
    rcases this with h1 | h1
    · exact absurd h1 he.2
    · exact h1

/-- When every node has a control channel and at least as many values arrive
on the stop channel as there are nodes, `stopAllAndWait` returns and the
registry is empty. -/
theorem stopAllAndWait_empties (net : network) (stopChan : List nodeid)
    (hall : allCtl net) (hlen : net.length ≤ stopChan.length) :
    network.stopAllAndWait net stopChan = some ([], stopChan.drop net.length) := by
  obtain ⟨net1, h1, h2⟩ := stopEach_returns (network.keys net) net hall
    (fun id hid => find?_ne_none_of_mem_keys net id hid)
  have hl : (network.keys net1).length ≤ stopChan.length := by
    rw [h2]; simpa [network.keys] using hlen
  have hempty : (network.keys net1).foldl network.delete net1 = [] := by
    apply foldl_delete_eq_nil
    intro e he
    simp only [network.keys, List.mem_map]
    exact ⟨e, he, rfl⟩
  have hk : (network.keys net1).length = net.length := by
    rw [h2]; simp [network.keys]
  simp [network.stopAllAndWait, h1, waitEach_returns _ net1 stopChan hl, hempty, hk]

/-- C6 (counterexample): the registry holds node 0 and the file `garbage` does
not parse; after the load handler the registry is empty, so the entry of
node 0 is lost. -/
theorem C6_failed_load_loses_nodes :
    deserialize (bytes "garbage") 1 = .failed ∧
    network.find? oneNode 0 ≠ none ∧
    ∃ g, loadHandler { net := oneNode, nextNodeId := 1 } (bytes "garbage") [0] 1 = some g ∧
      network.find? g.net 0 = none ∧ g.net ≠ oneNode := by
  refine ⟨by decide, by decide, _, rfl, by decide, by decide⟩

/-- C6 (amended): a failed load empties the registry. When every registered
node has a control channel, at least as many values arrive on the stop channel
as there are nodes, and `deserialize` fails on the content of the file, the
load handler returns with `g.net` empty and `nextNodeId` unchanged. -/
theorem C6_failed_load_empties (g : Game) (file : GoString) (stopChan : List nodeid)
    (made : Nat) (hall : allCtl g.net) (hlen : g.net.length ≤ stopChan.length)
    (hfail : deserialize file made = .failed) :
    loadHandler g file stopChan made = some { net := [], nextNodeId := g.nextNodeId } := by
  simp [loadHandler, stopAllAndWait_empties g.net stopChan hall hlen, hfail]

theorem C6_failed_load_empties_witness :
    allCtl oneNode ∧ oneNode.length ≤ [(0 : nodeid)].length ∧
    deserialize (bytes "garbage") 1 = .failed ∧
    loadHandler { net := oneNode, nextNodeId := 1 } (bytes "garbage") [0] 1 =
      some { net := [], nextNodeId := 1 } :=
  have h : allCtl oneNode := by
    intro k n hk
    simp only [oneNode, network.spawnNodeWithID, network.set, network.find?] at hk
    split at hk
    · simp only [Option.some.injEq] at hk
      rw [← hk]; simp
    · simp at hk
  ⟨h, by decide, by decide,
    C6_failed_load_empties { net := oneNode, nextNodeId := 1 } (bytes "garbage") [0] 1 h
      (by decide) (by decide)⟩

/-! ## Registry and actor converge -/

theorem config_applyCtl (st1 st2 : ActorState) (c : ctlmsg)
    (h : st1.config = st2.config) : (applyCtl st1 c).config = (applyCtl st2 c).config := by
  simp only [ActorState.config, Prod.mk.injEq] at h
  obtain ⟨h1, h2, h3, h4, h5, h6, h7⟩ := h
  cases c <;> simp only [applyCtl, ctlStep, ActorState.config, h1, h2, h3, h4, h5, h6, h7]
  · by_cases hn : st2.inOrNil = none
    · simp [hn, h1, h2, h3, h4, h5, h7]
    · simp [hn, h1, h2, h3, h4, h5, h7]

theorem config_foldl_applyCtl (q : List ctlmsg) :
    ∀ st1 st2 : ActorState, st1.config = st2.config →
      (q.foldl applyCtl st1).config = (q.foldl applyCtl st2).config := by
  induction q with
  | nil => intro st1 st2 h; exact h
  | cons c rest ih =>
    intro st1 st2 h
    exact ih _ _ (config_applyCtl st1 st2 c h)

theorem config_dataStep (st st1 : ActorState) (s : GoString) (out : List Effect)
    (h : dataStep st s = .next st1 out) : st1.config = st.config := by
  unfold dataStep at h
  split at h
  · cases h
  · split at h
    · cases h; rfl
    · split at h
      · split at h
        · cases h
        · split at h
          · cases h
          · cases h; rfl
      · split at h
        · split at h
          · cases h; rfl
          · cases h
        · cases h; rfl

theorem config_tickStep (st st1 : ActorState) (out : List Effect)
    (h : tickStep st = .next st1 out) : st1.config = st.config := by
  unfold tickStep at h
  split at h
  · cases h
  · split at h
    · cases h; rfl
    · cases h

theorem ctlStep_next (st st1 : ActorState) (c : ctlmsg) (out : List Effect)
    (h : ctlStep st c = .next st1 out) : st1 = applyCtl st c := by
  simp [applyCtl, h]

/-- After a run that goes on, the variables that control messages determine are
those that the control messages of the run alone produce. -/
theorem config_runFrom (es : List Event) :
    ∀ (st : ActorState) (acc : List Effect) (st1 : ActorState) (out : List Effect),
      runFrom st acc es = .next st1 out →
      st1.config = ((ctlsOf es).foldl applyCtl st).config := by
  induction es with
  | nil =>
    intro st acc st1 out h
    simp only [runFrom, Step.next.injEq] at h
    simp [ctlsOf, h.1]
  | cons e rest ih =>
    intro st acc st1 out h
    cases e with
    | ctl c =>
      simp only [runFrom, nodeStep] at h
      cases hs : ctlStep st c with
      | next st2 o =>
        rw [hs] at h
        have h2 := ih st2 _ st1 out h
        rw [ctlStep_next st st2 c o hs] at h2
        simpa [ctlsOf] using h2
      | quit o => rw [hs] at h; cases h
      | indexOutOfRange s2 => rw [hs] at h; cases h
      | notEnabled => rw [hs] at h; cases h
      | blocked s2 o => rw [hs] at h; cases h
    | data s =>
      simp only [runFrom, nodeStep] at h
      cases hs : dataStep st s with
      | next st2 o =>
        rw [hs] at h
        have h2 := ih st2 _ st1 out h
        rw [h2]
        simpa [ctlsOf] using config_foldl_applyCtl _ st2 st (config_dataStep st st2 s o hs)
      | quit o => rw [hs] at h; cases h
      | indexOutOfRange s2 => rw [hs] at h; cases h
      | notEnabled => rw [hs] at h; cases h
      | blocked s2 o => rw [hs] at h; cases h
    | tick =>
      simp only [runFrom, nodeStep] at h
      cases hs : tickStep st with
      | next st2 o =>
        rw [hs] at h
        have h2 := ih st2 _ st1 out h
        rw [h2]
        simpa [ctlsOf] using config_foldl_applyCtl _ st2 st (config_tickStep st st2 o hs)
      | quit o => rw [hs] at h; cases h
      | indexOutOfRange s2 => rw [hs] at h; cases h
      | notEnabled => rw [hs] at h; cases h
      | blocked s2 o => rw [hs] at h; cases h

/-- A run of control messages without QUIT goes on and performs no channel
operation. -/
theorem runFrom_ctls (q : List ctlmsg) :
    ∀ (st : ActorState) (acc : List Effect), ctlmsg.QUIT ∉ q →
      runFrom st acc (q.map Event.ctl) = .next (q.foldl applyCtl st) acc := by
  induction q with
  | nil => intro st acc _; rfl
  | cons c rest ih =>
    intro st acc hq
    have hc : c ≠ .QUIT := fun e => hq (by simp [e])
    have hrest : ctlmsg.QUIT ∉ rest := fun e => hq (List.mem_cons_of_mem _ e)
    have hstep : ctlStep st c = .next (applyCtl st c) [] := by
      cases c <;> simp [applyCtl, ctlStep] at hc ⊢
      split <;> rfl
    simp only [List.map_cons, runFrom, nodeStep, hstep, List.append_nil, List.foldl_cons]
    exact ih _ _ hrest

theorem ctlsOf_map_ctl (q : List ctlmsg) : ctlsOf (q.map Event.ctl) = q := by
  induction q with
  | nil => rfl
  | cons c rest ih => simp [ctlsOf, ih]

theorem findChan_none_not_mem (outs : List chaninfo) (j : nodeid)
    (h : findChan outs j = none) : j ∉ outs.map (fun c => c.dst) := by
  induction outs with
  | nil => simp
  | cons c rest ih =>
    by_cases hc : c.dst = j
    · simp [findChan, hc] at h
    · have hr : findChan rest j = none := by simpa [findChan, hc] using h
      have hne : ¬ j = c.dst := fun e => hc e.symm
      simpa [hne] using ih hr

theorem eraseIdx_findChan (outs : List chaninfo) (j : nodeid) :
    ∀ k, findChan outs j = some k → (outs.map (fun c => c.dst)).Nodup →
      (outs.eraseIdx k).map (fun c => c.dst) =
        (outs.map (fun c => c.dst)).filter (fun d => !decide (d = j)) := by
  induction outs with
  | nil => intro k h; simp [findChan] at h
  | cons c rest ih =>
    intro k h hnd
    have hnd1 : (rest.map (fun c => c.dst)).Nodup := (List.nodup_cons.mp hnd).2
    by_cases hc : c.dst = j
    · have hk : k = 0 := by simpa [findChan, hc] using h.symm
      subst hk
      have hnot : j ∉ rest.map (fun c => c.dst) := by
        rw [← hc]; exact (List.nodup_cons.mp hnd).1
      have hfil : (rest.map (fun c => c.dst)).filter (fun d => !decide (d = j)) =
          rest.map (fun c => c.dst) := by
        apply List.filter_eq_self.mpr
        intro d hd
        have : d ≠ j := fun e => hnot (e ▸ hd)
        simp [this]
      simp [hc, hfil]
    · cases hr : findChan rest j with
      | none => simp [findChan, hc, hr] at h
      | some k1 =>
        have hk : k = k1 + 1 := by simpa [findChan, hc, hr] using h.symm
        subst hk
        simp [hc, ih k1 hr hnd1]

theorem map_dst_filter (outs : List nodeout) (j : nodeid) :
    (outs.filter (fun o => !decide (o.dst = j))).map (fun o => o.dst) =
      (outs.map (fun o => o.dst)).filter (fun d => !decide (d = j)) := by
  induction outs with
  | nil => rfl
  | cons o rest ih =>
    by_cases ho : o.dst = j
    · simp [ho, ih]
    · simp [ho, ih]

/-- Every registry operation writes an updated entry `n1` for its target and
then sends it one control message `m`; a goroutine that agrees with the entry
before the operation agrees with `n1` after `m`. -/
theorem applyOp_shape (net : network) (op : RegOp) :
    ∃ (n1 : node) (m : ctlmsg), n1.ctl = (network.get net op.target).ctl ∧ m ≠ .QUIT ∧
      applyOp net op = network.sendCtl (network.set net op.target n1) op.target m ∧
      ∀ st, Synced st (network.get net op.target) → Synced (applyCtl st m) n1 := by
  cases op with
  | setName id name =>
    refine ⟨{ network.get net id with name := name }, .SET_NAME name, rfl, by simp, rfl, ?_⟩
    rintro st ⟨⟨h1, h2, h3, h4, h5, h6⟩, h7, h8⟩
    exact ⟨⟨rfl, h2, h3, h4, h5, h6⟩, h7, h8⟩
  | setSendText id text =>
    refine ⟨{ network.get net id with sendText := text }, .SET_SEND_TEXT text, rfl, by simp,
      rfl, ?_⟩
    rintro st ⟨⟨h1, h2, h3, h4, h5, h6⟩, h7, h8⟩
    exact ⟨⟨h1, rfl, h3, h4, h5, h6⟩, h7, h8⟩
  | setSendInterval id ms =>
    refine ⟨{ network.get net id with sendInterval := wrap64 (ms * 1000000) },
      .SET_SEND_INTERVAL (wrap64 (ms * 1000000)), rfl, by simp, rfl, ?_⟩
    rintro st ⟨⟨h1, h2, h3, h4, h5, h6⟩, h7, h8⟩
    exact ⟨⟨h1, h2, rfl, h4, h5, h6⟩, h7, h8⟩
  | setRelayMode id mode =>
    refine ⟨{ network.get net id with relayMode := mode }, .SET_RELAY_MODE mode, rfl, by simp,
      rfl, ?_⟩
    rintro st ⟨⟨h1, h2, h3, h4, h5, h6⟩, h7, h8⟩
    exact ⟨⟨h1, h2, h3, rfl, h5, h6⟩, h7, h8⟩
  | togglePause id =>
    refine ⟨{ network.get net id with paused := !(network.get net id).paused }, .TOGGLE_PAUSE,
      rfl, by simp, ?_, ?_⟩
    · simp only [applyOp, network.togglePause, Option.map_map, RegOp.target]
      cases network.sendCtl (network.set net id
        { network.get net id with paused := !(network.get net id).paused }) id .TOGGLE_PAUSE <;> rfl
    · rintro st ⟨⟨h1, h2, h3, h4, h5, h6⟩, h7, h8⟩
      simp only [RegOp.target] at h1 h2 h3 h4 h5 h6 h8
      by_cases hn : st.inOrNil = none
      · have hp : (network.get net id).paused = true := h5.mp hn
        refine ⟨⟨?_, ?_, ?_, ?_, ?_, ?_⟩, ?_, h8⟩ <;>
          simp [applyCtl, ctlStep, hn, hp, h1, h2, h3, h4, h6, h7]
      · have hp : (network.get net id).paused = false := by
          cases hb : (network.get net id).paused with
          | false => rfl
          | true => exact absurd (h5.mpr hb) hn
        refine ⟨⟨?_, ?_, ?_, ?_, ?_, ?_⟩, ?_, h8⟩ <;>
          simp [applyCtl, ctlStep, hn, hp, h1, h2, h3, h4, h6, h7]
  | addOrDelChan i j =>
    cases hf : findChan (network.get net i).outs j with
    | some k =>
      refine ⟨{ network.get net i with outs := (network.get net i).outs.eraseIdx k },
        .DEL_DEST j, rfl, by simp, ?_, ?_⟩
      · simp [applyOp, network.addOrDelChan, hf, RegOp.target]
      · rintro st ⟨⟨h1, h2, h3, h4, h5, h6⟩, h7, h8⟩
        simp only [RegOp.target] at h1 h2 h3 h4 h5 h6 h8
        have he := eraseIdx_findChan _ j k hf h8
        refine ⟨⟨h1, h2, h3, h4, h5, ?_⟩, h7, ?_⟩
        · show ((st.outs.filter (fun o => !decide (o.dst = j))).map (fun o => o.dst)) = _
          rw [map_dst_filter, h6]; exact he.symm
        · show (((network.get net i).outs.eraseIdx k).map (fun c => c.dst)).Nodup
          rw [he]; exact h8.filter _
    | none =>
      refine ⟨{ network.get net i with
                outs := (network.get net i).outs ++ [{ dst := j, usage := 0 }] },
        .ADD_DEST { ch := (network.get (network.set net i { network.get net i with
                outs := (network.get net i).outs ++ [{ dst := j, usage := 0 }] }) j).inp,
                    dst := j }, rfl, by simp, ?_, ?_⟩
      · simp [applyOp, network.addOrDelChan, hf, RegOp.target]
      · rintro st ⟨⟨h1, h2, h3, h4, h5, h6⟩, h7, h8⟩
        simp only [RegOp.target] at h1 h2 h3 h4 h5 h6 h8
        have hnot := findChan_none_not_mem _ j hf
        refine ⟨⟨h1, h2, h3, h4, h5, ?_⟩, h7, ?_⟩
        · show (st.outs ++ [_]).map (fun (o : nodeout) => o.dst) = _
          simp [h6]
        · show (((network.get net i).outs ++ [_]).map (fun (c : chaninfo) => c.dst)).Nodup
          rw [List.map_append]
          refine List.Nodup.append h8 (by simp) ?_
          intro d hd hd2
          simp only [List.map_cons, List.map_nil, List.mem_singleton] at hd2
          exact hnot (hd2 ▸ hd)

theorem synced_of_ctl (st : ActorState) (n : node) (c : ctlchan) (h : Synced st n) :
    Synced st { n with ctl := c } := h

theorem agrees_of_config (st1 st2 : ActorState) (n : node) (hc : st1.config = st2.config)
    (h : Agrees st2 n) : Agrees st1 n := by
  simp only [ActorState.config, Prod.mk.injEq] at hc
  obtain ⟨c1, c2, c3, c4, _, c6, c7⟩ := hc
  obtain ⟨h1, h2, h3, h4, h5, h6⟩ := h
  exact ⟨c1.trans h1, c2.trans h2, c3.trans h3, c4.trans h4, by rw [c6]; exact h5,
    by rw [c7]; exact h6⟩

/-- A sequence of registry operations addressed to existing nodes returns, and
keeps the entry of node `id` in step with a goroutine that has applied the
control messages sent to `id`. -/
theorem applyOps_synced (id : nodeid) (init : ActorState) (ops : List RegOp) :
    ∀ net : network, allCtl net → (∀ op ∈ ops, network.find? net op.target ≠ none) →
      (∃ q, (network.get net id).ctl = some q ∧ ctlmsg.QUIT ∉ q ∧
        Synced (q.foldl applyCtl init) (network.get net id)) →
      ∃ net1 q, applyOps net ops = some net1 ∧ (network.get net1 id).ctl = some q ∧
        ctlmsg.QUIT ∉ q ∧ Synced (q.foldl applyCtl init) (network.get net1 id) := by
  induction ops with
  | nil =>
    rintro net _ _ ⟨q, h1, h2, h3⟩
    exact ⟨net, q, rfl, h1, h2, h3⟩
  | cons op rest ih =>
    rintro net hall hids ⟨q, hq, hquit, hsync⟩
    have ht := hids op (List.mem_cons_self _ _)
    obtain ⟨qt, hqt⟩ := ctl_of_allCtl net op.target hall ht
    obtain ⟨n1, m, hctl, hm, happ, hstep⟩ := applyOp_shape net op
    have hq1 : (network.get (network.set net op.target n1) op.target).ctl = some qt := by
      rw [get_set_same, hctl, hqt]
    have hres := sendCtl_spec (network.set net op.target n1) op.target m qt hq1
    rw [get_set_same] at hres
    have hall1 : allCtl (network.set (network.set net op.target n1) op.target
        { n1 with ctl := some (qt ++ [m]) }) := by
      apply allCtl_set
      · apply allCtl_set _ _ _ hall
        rw [hctl, hqt]; simp
      · simp
    have hids1 : ∀ o ∈ rest, network.find? (network.set (network.set net op.target n1)
        op.target { n1 with ctl := some (qt ++ [m]) }) o.target ≠ none := by
      intro o ho
      rw [find?_set, find?_set]
      by_cases hk : o.target = op.target
      · simp [hk]
      · simpa [hk] using hids o (List.mem_cons_of_mem _ ho)
    have hinv : ∃ q1, (network.get (network.set (network.set net op.target n1) op.target
          { n1 with ctl := some (qt ++ [m]) }) id).ctl = some q1 ∧ ctlmsg.QUIT ∉ q1 ∧
        Synced (q1.foldl applyCtl init) (network.get (network.set
          (network.set net op.target n1) op.target { n1 with ctl := some (qt ++ [m]) }) id) := by
      by_cases hid : id = op.target
      · subst hid
        have hqq : qt = q := by rw [hqt] at hq; exact Option.some.inj hq
        subst hqq
        refine ⟨qt ++ [m], by rw [get_set_same], ?_, ?_⟩
        · intro hmem
          rcases List.mem_append.mp hmem with h | h
          · exact hquit h
          · simp only [List.mem_singleton] at h
            exact hm h.symm
        · rw [get_set_same, List.foldl_append]
          exact synced_of_ctl _ _ _ (hstep _ hsync)
      · refine ⟨q, ?_, hquit, ?_⟩
        · rw [get_set_other _ _ _ _ hid, get_set_other _ _ _ _ hid]; exact hq
        · rw [get_set_other _ _ _ _ hid, get_set_other _ _ _ _ hid]; exact hsync
    obtain ⟨net2, q2, h1, h2, h3, h4⟩ := ih _ hall1 hids1 hinv
    refine ⟨net2, q2, ?_, h2, h3, h4⟩
    simp [applyOps, happ, hres, h1]

/-- C7: registry and actor converge. Take a registry whose nodes all have a
control channel, spawn node `id` in it with `spawnNodeWithID`, and perform any
sequence of `setName`, `setSendText`, `setSendInterval`, `setRelayMode`,
`togglePause` and `addOrDelChan` calls addressed to existing ids. Then all calls
return, the registry has sent node `id` a sequence `q` of control messages, a
goroutine started with the spawned record can apply them all, and in every
state it reaches after receiving exactly the control messages `q`, in send
order and interleaved with any data messages and ticks, its working copy equals
the entry of the registry: same name, send text, send interval and relay mode,
paused exactly when the paused flag is true, and the same sequence of
destination ids in `outs`. -/
theorem C7_registry_actor_convergence (net0 : network) (id : nodeid) (x y : Int)
    (inCh : Nat) (ops : List RegOp) (hwf : allCtl net0)
    (hids : ∀ op ∈ ops,
      network.find? (network.spawnNodeWithID net0 id x y inCh) op.target ≠ none) :
    ∃ net q,
      applyOps (network.spawnNodeWithID net0 id x y inCh) ops = some net ∧
      (network.get net id).ctl = some q ∧
      (∃ st, nodeMain (network.get (network.spawnNodeWithID net0 id x y inCh) id)
          (q.map Event.ctl) = .next st [] ∧ Agrees st (network.get net id)) ∧
      ∀ es st out, ctlsOf es = q →
        nodeMain (network.get (network.spawnNodeWithID net0 id x y inCh) id) es
          = .next st out →
        Agrees st (network.get net id) := by
  have hall : allCtl (network.spawnNodeWithID net0 id x y inCh) := by
    apply allCtl_set _ _ _ hwf
    simp
  have hget : network.get (network.spawnNodeWithID net0 id x y inCh) id =
      { id := id, name := bytes "node", ctl := some [], inp := some inCh, outs := [],
        sendText := bytes "from " ++ itoa id, sendInterval := 0,
        relayMode := ROUND_ROBIN, paused := false, x := x, y := y } := by
    simp [network.spawnNodeWithID, get_set_same]
  have hinit : ∃ q, (network.get (network.spawnNodeWithID net0 id x y inCh) id).ctl = some q ∧
      ctlmsg.QUIT ∉ q ∧
      Synced (q.foldl applyCtl
        (nodeMainInit (network.get (network.spawnNodeWithID net0 id x y inCh) id)))
        (network.get (network.spawnNodeWithID net0 id x y inCh) id) := by
    refine ⟨[], by rw [hget], by simp, ?_⟩
    rw [hget]
    refine ⟨⟨rfl, rfl, rfl, rfl, ?_, rfl⟩, ?_, ?_⟩
    · simp [nodeMainInit]
    · simp [nodeMainInit]
    · simp
  obtain ⟨net, q, h1, h2, h3, h4⟩ := applyOps_synced id _ ops _ hall hids hinit
  refine ⟨net, q, h1, h2, ⟨_, runFrom_ctls q _ [] h3, h4.1⟩, ?_⟩
  intro es st out hes hrun
  have hc := config_runFrom es _ [] st out hrun
  rw [hes] at hc
  exact agrees_of_config _ _ _ hc h4.1

theorem C7_registry_actor_convergence_witness :
    allCtl (network.spawnNodeWithID [] 1 0 0 6) ∧
    (∀ op ∈ sampleOps,
      network.find? (network.spawnNodeWithID (network.spawnNodeWithID [] 1 0 0 6) 0 3 4 7)
        op.target ≠ none) ∧
    ∃ net q,
      applyOps (network.spawnNodeWithID (network.spawnNodeWithID [] 1 0 0 6) 0 3 4 7)
        sampleOps = some net ∧
      (network.get net 0).ctl = some q ∧
      (∃ st, nodeMain (network.get
          (network.spawnNodeWithID (network.spawnNodeWithID [] 1 0 0 6) 0 3 4 7) 0)
          (q.map Event.ctl) = .next st [] ∧ Agrees st (network.get net 0)) ∧
      ∀ es st out, ctlsOf es = q →
        nodeMain (network.get
          (network.spawnNodeWithID (network.spawnNodeWithID [] 1 0 0 6) 0 3 4 7) 0) es
          = .next st out →
        Agrees st (network.get net 0) :=
  have h0 : allCtl [] := fun k n h => by simp [network.find?] at h
  have h1 : allCtl (network.spawnNodeWithID [] 1 0 0 6) :=
    allCtl_set _ _ _ h0 (by simp)
  ⟨h1, by decide,
    C7_registry_actor_convergence (network.spawnNodeWithID [] 1 0 0 6) 0 3 4 7 sampleOps h1
      (by decide)⟩

/-! ## Readers only move forward -/

theorem skipBlanks_length (r : Reader) : (skipBlanks r).length ≤ r.length := by
  induction r with
  | nil => simp [skipBlanks]
  | cons c rest ih =>
    simp only [skipBlanks]
    split
    · exact Nat.le_succ_of_le ih
    · exact Nat.le_refl _

theorem SkipSpace_length (r : Reader) : ∀ r1, SkipSpace r = some r1 → r1.length ≤ r.length := by
  induction r with
  | nil => intro r1 h; simp [SkipSpace] at h; subst h; simp
  | cons c rest ih =>
    intro r1 h
    simp only [SkipSpace] at h
    split at h
    · cases h
    · split at h
      · exact Nat.le_succ_of_le (ih _ h)
      · cases h; exact Nat.le_refl _

theorem scanDigits_length (r : Reader) : ∀ acc, (scanDigits r acc).2.length ≤ r.length := by
  induction r with
  | nil => intro acc; simp [scanDigits]
  | cons c rest ih =>
    intro acc
    simp only [scanDigits]
    split
    · exact Nat.le_succ_of_le (ih _)
    · exact Nat.le_refl _

theorem scanInt_length (r r1 : Reader) (i : Int) (h : scanInt r = some (i, r1)) :
    r1.length < r.length := by
  unfold scanInt at h
  split at h
  · cases h
  · cases h
  · rename_i c rest hs
    have hle := SkipSpace_length r _ hs
    simp only [List.length_cons] at hle
    simp only at h
    generalize hR : (if c = 43 ∨ c = 45 then rest else c :: rest) = R at h
    have hRl : R.length ≤ rest.length + 1 := by
      rw [← hR]; split <;> simp
    cases R with
    | nil => simp at h
    | cons d r2 =>
      simp only at h
      by_cases hd : 48 ≤ d ∧ d ≤ 57
      · have hstrict : (scanDigits (d :: r2) 0).2.length < r.length := by
          simp only [scanDigits, hd, and_self, if_true]
          have := scanDigits_length r2 (0 * 10 + (d - 48))
          simp only [List.length_cons] at hRl
          omega
        rw [if_pos hd] at h
        split at h <;> split at h
        · simp only [Option.some.injEq, Prod.mk.injEq] at h
          rw [← h.2]; exact hstrict
        · cases h
        · simp only [Option.some.injEq, Prod.mk.injEq] at h
          rw [← h.2]; exact hstrict
        · cases h
      · rw [if_neg hd] at h; cases h

theorem accept_length (a b : Nat) (r : Reader) : (accept a b r).2.length ≤ r.length := by
  cases r with
  | nil => simp [accept]
  | cons c rest =>
    simp only [accept]
    split <;> simp

theorem accept_length_of_eq (a b : Nat) (r r1 : Reader) (ok : Bool)
    (h : accept a b r = (ok, r1)) : r1.length ≤ r.length := by
  have := accept_length a b r
  rw [h] at this
  exact this

theorem scanBool_length (r r1 : Reader) (b : Bool) (h : scanBool r = some (b, r1)) :
    r1.length ≤ r.length := by
  unfold scanBool at h
  split at h
  · cases h
  · cases h
  · rename_i c rest hs
    have hle := SkipSpace_length r _ hs
    simp only [List.length_cons] at hle
    split at h
    · simp only [Option.some.injEq, Prod.mk.injEq] at h
      rw [← h.2]; omega
    · split at h
      · simp only [Option.some.injEq, Prod.mk.injEq] at h
        rw [← h.2]; omega
      · split at h
        · split at h
          · rename_i x1 h1
            have l1 := accept_length_of_eq _ _ _ _ _ h1
            simp only [Option.some.injEq, Prod.mk.injEq] at h
            rw [← h.2]; omega
          · rename_i x1 h1
            have l1 := accept_length_of_eq _ _ _ _ _ h1
            split at h
            · cases h
            · rename_i x2 h2
              have l2 := accept_length_of_eq _ _ _ _ _ h2
              split at h
              · cases h
              · rename_i x3 h3
                have l3 := accept_length_of_eq _ _ _ _ _ h3
                simp only [Option.some.injEq, Prod.mk.injEq] at h
                rw [← h.2]; omega
        · split at h
          · split at h
            · rename_i x1 h1
              have l1 := accept_length_of_eq _ _ _ _ _ h1
              simp only [Option.some.injEq, Prod.mk.injEq] at h
              rw [← h.2]; omega
            · rename_i x1 h1
              have l1 := accept_length_of_eq _ _ _ _ _ h1
              split at h
              · cases h
              · rename_i x2 h2
                have l2 := accept_length_of_eq _ _ _ _ _ h2
                split at h
                · cases h
                · rename_i x3 h3
                  have l3 := accept_length_of_eq _ _ _ _ _ h3
                  split at h
                  · cases h
                  · rename_i x4 h4
                    have l4 := accept_length_of_eq _ _ _ _ _ h4
                    simp only [Option.some.injEq, Prod.mk.injEq] at h
                    rw [← h.2]; omega
          · simp only [Option.some.injEq, Prod.mk.injEq] at h
            rw [← h.2]; omega

theorem matchSpaces_length (n : Nat) (t : Bool) :
    ∀ r r1 : Reader, matchSpaces n t r = some r1 → r1.length ≤ r.length := by
  induction n with
  | zero =>
    intro r r1 h
    simp only [matchSpaces] at h
    split at h
    · cases h; exact skipBlanks_length r
    · cases h; exact Nat.le_refl _
  | succ n ih =>
    intro r r1 h
    simp only [matchSpaces] at h
    have hb := skipBlanks_length r
    split at h
    · rename_i he
      have := ih _ _ h
      simp only [List.length_nil] at this
      omega
    · rename_i c rest he
      rw [he] at hb
      simp only [List.length_cons] at hb
      split at h
      · have := ih _ _ h
        omega
      · cases h

theorem advanceSpaces_length (n : Nat) (t : Bool) (r r1 : Reader)
    (h : advanceSpaces n t r = some r1) : r1.length ≤ r.length := by
  unfold advanceSpaces at h
  split at h
  · split at h
    · cases h; simp
    · split at h
      · cases h
        rename_i c rest _
        have := skipBlanks_length rest
        simp only [List.length_cons]; omega
      · cases h
  · exact matchSpaces_length n t r r1 h

theorem matchLiteral_length (c : Nat) (r r1 : Reader) (h : matchLiteral c r = some r1) :
    r1.length < r.length := by
  cases r with
  | nil => simp [matchLiteral] at h
  | cons x rest =>
    simp only [matchLiteral] at h
    split at h
    · cases h; simp
    · cases h

theorem scanVerb_length (v : Nat) (r r1 : Reader) (val : Option ScanVal)
    (h : scanVerb v r = some (val, r1)) : r1.length ≤ r.length := by
  unfold scanVerb at h
  split at h
  · cases hm : matchLiteral (rune '%') r with
    | none => simp [hm] at h
    | some r2 =>
      simp only [hm, Option.map_some', Option.some.injEq, Prod.mk.injEq] at h
      have := matchLiteral_length _ _ _ hm
      rw [← h.2]; omega
  · split at h
    · split at h
      · cases h
      · cases h; simp
    · split at h
      · cases hs : SkipSpace r with
        | none => simp [hs] at h
        | some r2 =>
          have l1 := SkipSpace_length _ _ hs
          cases hi : scanInt r2 with
          | none => simp [hs, hi] at h
          | some p =>
            have l2 := scanInt_length r2 p.2 p.1 hi
            simp only [hs, hi, Option.some_bind, Option.map_some', Option.some.injEq,
              Prod.mk.injEq] at h
            rw [← h.2]; omega
      · split at h
        · cases hs : SkipSpace r with
          | none => simp [hs] at h
          | some r2 =>
            have l1 := SkipSpace_length _ _ hs
            cases hi : scanBool r2 with
            | none => simp [hs, hi] at h
            | some p =>
              have l2 := scanBool_length r2 p.2 p.1 hi
              simp only [hs, hi, Option.some_bind, Option.map_some', Option.some.injEq,
                Prod.mk.injEq] at h
              rw [← h.2]; omega
        · cases h

theorem doScanf_length (fuel : Nat) :
    ∀ (format : List Nat) (r : Reader) (vals vals1 : List ScanVal) (r1 : Reader),
      doScanf fuel format r vals = some (vals1, r1) → r1.length ≤ r.length := by
  induction fuel with
  | zero => intro format r vals vals1 r1 h; simp [doScanf] at h
  | succ fuel ih =>
    intro format r vals vals1 r1 h
    cases format with
    | nil => simp only [doScanf, Option.some.injEq, Prod.mk.injEq] at h; rw [h.2]
    | cons c rest =>
      simp only [doScanf] at h
      split at h
      · cases ha : advanceSpaces (spaceRun (c :: rest) 0 false).1
            (spaceRun (c :: rest) 0 false).2.1 r with
        | none => simp [ha] at h
        | some r2 =>
          have l1 := advanceSpaces_length _ _ _ _ ha
          simp only [ha, Option.some_bind] at h
          have := ih _ _ _ _ _ h
          omega
      · split at h
        · cases rest with
          | nil => simp at h
          | cons v rest =>
            simp only at h
            cases hv : scanVerb v r with
            | none => simp [hv] at h
            | some p =>
              have l1 := scanVerb_length v r p.2 p.1 hv
              simp only [hv, Option.some_bind] at h
              have := ih _ _ _ _ _ h
              omega
        · cases hm : matchLiteral c r with
          | none => simp [hm] at h
          | some r2 =>
            have l1 := matchLiteral_length _ _ _ hm
            simp only [hm, Option.some_bind] at h
            have := ih _ _ _ _ _ h
            omega

theorem Fscanf_length (r r1 : Reader) (format : String) (vals : List ScanVal)
    (h : Fscanf r format = some (vals, r1)) : r1.length ≤ r.length :=
  doScanf_length _ _ _ _ _ _ h


theorem scanVerb_d_length (r r1 : Reader) (val : Option ScanVal)
    (h : scanVerb (rune 'd') r = some (val, r1)) : r1.length < r.length := by
  have h1 : ¬ rune 'd' = rune '%' := by decide
  have h2 : ¬ rune 'd' = rune 'c' := by decide
  simp only [scanVerb, if_neg h1, if_neg h2, if_true] at h
  cases hs : SkipSpace r with
  | none => simp [hs] at h
  | some r2 =>
    have l1 := SkipSpace_length _ _ hs
    cases hi : scanInt r2 with
    | none => simp [hs, hi] at h
    | some p =>
      have l2 := scanInt_length r2 p.2 p.1 hi
      simp only [hs, hi, Option.some_bind, Option.map_some', Option.some.injEq,
        Prod.mk.injEq] at h
      rw [← h.2]; omega

theorem doScanf_verb (fuel : Nat) (v : Nat) (rest : List Nat) (r : Reader)
    (vals : List ScanVal) :
    doScanf (fuel + 1) (rune '%' :: v :: rest) r vals =
      (scanVerb v r).bind (fun p => doScanf fuel rest p.2 (vals ++ p.1.toList)) := by
  have hsp : isSpace (rune '%') = false := by decide
  rw [doScanf]
  simp only [hsp, if_true]
  rfl

/-- The call `Fscanf(r, "%d ", &id)` of `deserialize` reads at least one rune. -/
theorem Fscanf_id_length (r r1 : Reader) (vals : List ScanVal)
    (h : Fscanf r "%d " = some (vals, r1)) : r1.length < r.length := by
  have hf : runes "%d " = [rune '%', rune 'd', 32] := by decide
  unfold Fscanf at h
  rw [hf] at h
  simp only [List.length_cons, List.length_nil] at h
  rw [doScanf_verb] at h
  cases hv : scanVerb (rune 'd') r with
  | none => simp [hv] at h
  | some p =>
    have l1 := scanVerb_d_length r p.2 p.1 hv
    simp only [hv, Option.some_bind] at h
    have l2 := doScanf_length _ _ _ _ _ _ h
    omega

theorem skipEmptyLines_length (r : Reader) : (skipEmptyLines r).length ≤ r.length := by
  induction r with
  | nil => simp [skipEmptyLines]
  | cons c rest ih =>
    simp only [skipEmptyLines]
    split
    · exact Nat.le_succ_of_le ih
    · exact Nat.le_refl _

theorem scanQuotedLoop_length (r : Reader) :
    ∀ (s : GoString) (escape : Bool), (scanQuotedLoop r s escape).2.2.length ≤ r.length := by
  induction r with
  | nil => intro s escape; simp [scanQuotedLoop]
  | cons c rest ih =>
    intro s escape
    simp only [scanQuotedLoop]
    split
    · exact Nat.le_succ_of_le (ih _ _)
    · split
      · split <;> simp
      · exact Nat.le_succ_of_le (ih _ _)

theorem scanQuoted_length (r : Reader) : (scanQuoted r).2.2.length ≤ r.length := by
  unfold scanQuoted
  split
  · rename_i r1 hc
    simp only [consume] at hc
    split at hc
    · cases hc
    · cases hc; exact Nat.le_refl _
  · rename_i r1 hc
    simp only [consume] at hc
    split at hc
    · cases hc
      have := scanQuotedLoop_length r.tail (bytes "\"") false
      have h2 : r.tail.length ≤ r.length := by simp
      omega
    · cases hc

theorem scanQuoted_length_of_eq (r r1 : Reader) (s : GoString) (ok : Bool)
    (h : scanQuoted r = (s, ok, r1)) : r1.length ≤ r.length := by
  have := scanQuoted_length r
  rw [h] at this
  exact this

theorem deserializeNode_length (r r1 : Reader) (net net1 : network) (id : nodeid) (inCh : Nat)
    (h : deserializeNode r net id inCh = .ok (net1, r1)) : r1.length ≤ r.length := by
  unfold deserializeNode at h
  split at h
  · cases h
  · rename_i v1 ra h1
    have l1 := Fscanf_length _ _ _ _ h1
    split at h
    · cases h
    · rename_i name rb h2
      have l2 := scanQuoted_length_of_eq _ _ _ _ h2
      split at h
      · cases h
      · rename_i v3 rc h3
        have l3 := Fscanf_length _ _ _ _ h3
        split at h
        · cases h
        · rename_i sendText rd h4
          have l4 := scanQuoted_length_of_eq _ _ _ _ h4
          split at h
          · rename_i sendInterval relayMode paused x y re h5
            have l5 := Fscanf_length _ _ _ _ h5
            simp only at h
            split at h
            · cases h
            · simp only [Outcome.ok.injEq, Prod.mk.injEq] at h
              rw [← h.2]; omega
          · cases h

theorem deserializeChan_length (r r1 : Reader) (chans chans1 : List endpoints) (src : nodeid)
    (h : deserializeChan r chans src = some (chans1, r1)) : r1.length ≤ r.length := by
  unfold deserializeChan at h
  split at h
  · rename_i dst r2 hf
    have := Fscanf_length _ _ _ _ hf
    simp only [Option.some.injEq, Prod.mk.injEq] at h
    rw [← h.2]; exact this
  · cases h

/-- The loop of `deserialize` reads at least one rune in every iteration: with
more iterations allowed than the reader has runes, the bound is never
reached and the result does not depend on it. -/
theorem deserializeLoop_fuel (fuel : Nat) :
    ∀ (r : Reader) (net : network) (chans : List endpoints) (maxid : nodeid) (made k : Nat),
      r.length < fuel →
      deserializeLoop (fuel + k) r net chans maxid made =
        deserializeLoop fuel r net chans maxid made := by
  induction fuel with
  | zero => intro r net chans maxid made k h; omega
  | succ fuel ih =>
    intro r net chans maxid made k hlen
    have hk : fuel + 1 + k = (fuel + k) + 1 := by omega
    rw [hk]
    simp only [deserializeLoop]
    have l0 := skipEmptyLines_length r
    cases hc : consume (skipEmptyLines r) (rune '\x7d') with
    | mk ok r0 =>
      cases ok with
      | true => rfl
      | false =>
        have hr0 : r0 = skipEmptyLines r := by
          simp only [consume] at hc
          split at hc
          · cases hc
          · cases hc; rfl
        subst hr0
        simp only
        cases hf : Fscanf (skipEmptyLines r) "%d " with
        | none => rfl
        | some p =>
          obtain ⟨vals, r1⟩ := p
          have l1 := Fscanf_id_length _ _ _ hf
          cases vals with
          | nil => rfl
          | cons v vs =>
            cases v with
            | bool b => rfl
            | char c => rfl
            | int id =>
              cases vs with
              | cons v2 vs2 => rfl
              | nil =>
                simp only
                by_cases hp : peek r1 (rune '[') = true
                · simp only [hp, if_true]
                  cases hn : deserializeNode r1 net id made with
                  | failed => rfl
                  | blocked => rfl
                  | ok q =>
                    obtain ⟨net1, r2⟩ := q
                    have l2 := deserializeNode_length _ _ _ _ _ _ hn
                    simp only
                    exact ih _ _ _ _ _ _ (by omega)
                · simp only [hp]
                  by_cases hm : peek r1 (rune '-') = true
                  · simp only [hm, if_true]
                    cases hd : deserializeChan r1 chans id with
                    | none => rfl
                    | some q =>
                      obtain ⟨chans1, r2⟩ := q
                      have l2 := deserializeChan_length _ _ _ _ _ hd
                      simp only
                      exact ih _ _ _ _ _ _ (by omega)
                  · simp only [hm]
                    rfl


/-! ## The bounds on the number of iterations are never reached -/

theorem spaceRun_length (format : List Nat) :
    ∀ (n : Nat) (t : Bool), (spaceRun format n t).2.2.length ≤ format.length := by
  induction format with
  | nil => intro n t; simp [spaceRun]
  | cons c rest ih =>
    intro n t
    simp only [spaceRun]
    split
    · split
      · exact Nat.le_succ_of_le (ih _ _)
      · exact Nat.le_succ_of_le (ih _ _)
    · exact Nat.le_refl _

theorem spaceRun_length_lt (c : Nat) (rest : List Nat) (h : isSpace c = true) :
    (spaceRun (c :: rest) 0 false).2.2.length < (c :: rest).length := by
  simp only [spaceRun, h, if_true]
  split
  · have := spaceRun_length rest (0 + 1) false
    simp only [List.length_cons]; omega
  · have := spaceRun_length rest 0 true
    simp only [List.length_cons]; omega

/-- The format is read to its end: `doScanf` gives the same result with any
bound above the length of the format. -/
theorem doScanf_fuel (fuel : Nat) :
    ∀ (format : List Nat) (r : Reader) (vals : List ScanVal) (k : Nat),
      format.length < fuel →
      doScanf (fuel + k) format r vals = doScanf fuel format r vals := by
  induction fuel with
  | zero => intro format r vals k h; omega
  | succ fuel ih =>
    intro format r vals k hlen
    have hk : fuel + 1 + k = (fuel + k) + 1 := by omega
    rw [hk]
    cases format with
    | nil => simp only [doScanf]
    | cons c rest =>
      simp only [doScanf]
      simp only [List.length_cons] at hlen
      by_cases hs : isSpace c = true
      · have hl := spaceRun_length_lt c rest hs
        simp only [List.length_cons] at hl
        rw [if_pos hs, if_pos hs]
        congr 1
        funext r1
        exact ih _ _ _ _ (by omega)
      · rw [if_neg hs, if_neg hs]
        by_cases hp : c = rune '%'
        · rw [if_pos hp, if_pos hp]
          cases rest with
          | nil => rfl
          | cons v rest2 =>
            simp only
            simp only [List.length_cons] at hlen
            congr 1
            funext p
            exact ih _ _ _ _ (by omega)
        · rw [if_neg hp, if_neg hp]
          congr 1
          funext r1
          exact ih _ _ _ _ (by omega)

theorem decodeRune_length (bs rest : List Nat) (r : Nat)
    (h : decodeRune bs = some (r, rest)) : rest.length < bs.length := by
  unfold decodeRune at h
  repeat' split at h
  all_goals first
    | (cases h; done)
    | (simp only [Option.some.injEq, Prod.mk.injEq] at h
       rw [← h.2]
       simp only [List.length_cons]
       omega)

/-- Every byte of the input is decoded: `decodeRunes` gives the same runes with
any bound not below the number of bytes. -/
theorem decodeRunes_fuel (fuel : Nat) :
    ∀ (bs : List Nat) (k : Nat), bs.length ≤ fuel →
      decodeRunes (fuel + k) bs = decodeRunes fuel bs := by
  induction fuel with
  | zero =>
    intro bs k h
    have : bs = [] := List.length_eq_zero.mp (Nat.le_zero.mp h)
    subst this
    cases k with
    | zero => rfl
    | succ k => simp [decodeRunes, decodeRune]
  | succ fuel ih =>
    intro bs k hlen
    have hk : fuel + 1 + k = (fuel + k) + 1 := by omega
    rw [hk]
    simp only [decodeRunes]
    cases hd : decodeRune bs with
    | none => rfl
    | some p =>
      obtain ⟨r, rest⟩ := p
      have := decodeRune_length _ _ _ hd
      simp only
      rw [ih _ _ (by omega)]

theorem natDigits_fuel (fuel : Nat) :
    ∀ (n k : Nat), n < fuel → natDigits (fuel + k) n = natDigits fuel n := by
  induction fuel with
  | zero => intro n k h; omega
  | succ fuel ih =>
    intro n k hlen
    have hk : fuel + 1 + k = (fuel + k) + 1 := by omega
    rw [hk]
    simp only [natDigits]
    split
    · rfl
    · rw [ih _ _ (by omega)]


theorem hexValue_length (n : Nat) :
    ∀ (s : GoString) (v x : Nat) (tail : GoString),
      hexValue n s v = some (x, tail) → tail.length ≤ s.length := by
  induction n with
  | zero =>
    intro s v x tail h
    rw [hexValue] at h
    simp only [Option.some.injEq, Prod.mk.injEq] at h
    rw [h.2]
  | succ n ih =>
    intro s v x tail h
    cases s with
    | nil => rw [hexValue] at h; cases h
    | cons b rest =>
      rw [hexValue] at h
      split at h
      · cases h
      · exact Nat.le_succ_of_le (ih _ _ _ _ h)

theorem unquoteEscape_length (e : Nat) (s bs tail : GoString)
    (h : unquoteEscape e s = some (bs, tail)) : tail.length ≤ s.length := by
  have fin : ∀ {v : GoString}, some (v, s) = some (bs, tail) → tail.length ≤ s.length := by
    intro v he
    simp only [Option.some.injEq, Prod.mk.injEq] at he
    rw [← he.2]
  unfold unquoteEscape at h
  by_cases h1 : e = rune 'a'
  · rw [if_pos h1] at h; exact fin h
  rw [if_neg h1] at h
  by_cases h2 : e = rune 'b'
  · rw [if_pos h2] at h; exact fin h
  rw [if_neg h2] at h
  by_cases h3 : e = rune 'f'
  · rw [if_pos h3] at h; exact fin h
  rw [if_neg h3] at h
  by_cases h4 : e = rune 'n'
  · rw [if_pos h4] at h; exact fin h
  rw [if_neg h4] at h
  by_cases h5 : e = rune 'r'
  · rw [if_pos h5] at h; exact fin h
  rw [if_neg h5] at h
  by_cases h6 : e = rune 't'
  · rw [if_pos h6] at h; exact fin h
  rw [if_neg h6] at h
  by_cases h7 : e = rune 'v'
  · rw [if_pos h7] at h; exact fin h
  rw [if_neg h7] at h
  by_cases h8 : e = rune 'x'
  · rw [if_pos h8] at h
    cases hh : hexValue 2 s 0 with
    | none => simp [hh] at h
    | some p =>
      have := hexValue_length _ _ _ _ _ hh
      simp only [hh, Option.map_some', Option.some.injEq, Prod.mk.injEq] at h
      rw [← h.2]; exact this
  rw [if_neg h8] at h
  by_cases h9 : e = rune 'u' ∨ e = rune 'U'
  · rw [if_pos h9] at h
    cases hh : hexValue (if e = rune 'u' then 4 else 8) s 0 with
    | none => simp [hh] at h
    | some p =>
      have := hexValue_length _ _ _ _ _ hh
      simp only [hh, Option.some_bind] at h
      split at h
      · simp only [Option.some.injEq, Prod.mk.injEq] at h
        rw [← h.2]; exact this
      · cases h
  rw [if_neg h9] at h
  by_cases h10 : rune '0' ≤ e ∧ e ≤ rune '7'
  · rw [if_pos h10] at h
    split at h
    · split at h
      · split at h
        · cases h
        · simp only [Option.some.injEq, Prod.mk.injEq] at h
          rw [← h.2]; simp only [List.length_cons]; omega
      · cases h
    · cases h
  rw [if_neg h10] at h
  by_cases h11 : e = rune '\\'
  · rw [if_pos h11] at h; exact fin h
  rw [if_neg h11] at h
  by_cases h12 : e = rune '"'
  · rw [if_pos h12] at h; exact fin h
  rw [if_neg h12] at h
  cases h

theorem UnquoteChar_length (s bs tail : GoString)
    (h : UnquoteChar s = some (bs, tail)) : tail.length < s.length := by
  cases s with
  | nil => simp [UnquoteChar] at h
  | cons c rest =>
    simp only [UnquoteChar] at h
    by_cases h1 : c = rune '"'
    · rw [if_pos h1] at h; cases h
    rw [if_neg h1] at h
    by_cases h2 : c ≥ 0x80
    · rw [if_pos h2] at h
      cases hd : decodeRune (c :: rest) with
      | none => simp [hd] at h
      | some p =>
        have := decodeRune_length _ _ _ hd
        simp only [hd, Option.map_some', Option.some.injEq, Prod.mk.injEq] at h
        rw [← h.2]; exact this
    rw [if_neg h2] at h
    by_cases h3 : c ≠ rune '\\'
    · rw [if_pos h3] at h
      simp only [Option.some.injEq, Prod.mk.injEq] at h
      rw [← h.2]; simp
    rw [if_neg h3] at h
    cases rest with
    | nil => cases h
    | cons e s1 =>
      have := unquoteEscape_length _ _ _ _ h
      simp only [List.length_cons]; omega

/-- The literal is read to its end: `unquoteLoop` gives the same result with any
bound above the number of bytes. -/
theorem unquoteLoop_fuel (fuel : Nat) :
    ∀ (s buf : GoString) (k : Nat), s.length < fuel →
      unquoteLoop (fuel + k) s buf = unquoteLoop fuel s buf := by
  induction fuel with
  | zero => intro s buf k h; omega
  | succ fuel ih =>
    intro s buf k hlen
    have hk : fuel + 1 + k = (fuel + k) + 1 := by omega
    rw [hk]
    cases s with
    | nil => simp only [unquoteLoop]
    | cons c rest =>
      simp only [unquoteLoop]
      split
      · rfl
      · split
        · rfl
        · cases hu : UnquoteChar (c :: rest) with
          | none => rfl
          | some p =>
            have := UnquoteChar_length _ _ _ hu
            simp only [List.length_cons] at this hlen
            simp only
            exact ih _ _ _ (by omega)

/-! ## The documented failures of `scanQuoted` that the code detects -/

/-- When the first byte in the reader is not a double quote, `scanQuoted`
fails and consumes nothing. -/
theorem scanQuoted_first_not_quote (r : Reader) (h : peek r (rune '"') = false) :
    scanQuoted r = ([], false, r) := by
  simp [scanQuoted, consume, h]

theorem scanQuotedLoop_unterminated (r : Reader) :
    ∀ (s : GoString) (escape : Bool), hasClosingQuote r escape = false →
      (scanQuotedLoop r s escape).2.1 = false := by
  induction r with
  | nil => intro s escape _; rfl
  | cons c rest ih =>
    intro s escape h
    simp only [hasClosingQuote] at h
    simp only [scanQuotedLoop]
    split
    · rename_i hc
      rw [if_pos hc] at h
      exact ih _ _ h
    · rename_i hc
      rw [if_neg hc] at h
      split
      · rename_i hq
        rw [if_pos hq] at h
        cases h
      · rename_i hq
        rw [if_neg hq] at h
        exact ih _ _ h

/-- When the input ends before an unescaped closing double quote,
`scanQuoted` fails. -/
theorem scanQuoted_unterminated (r : Reader) (h : hasClosingQuote r.tail false = false) :
    (scanQuoted r).2.1 = false := by
  unfold scanQuoted
  split
  · rfl
  · rename_i r1 hc
    simp only [consume] at hc
    split at hc
    · cases hc
      exact scanQuotedLoop_unterminated _ _ _ h
    · cases hc

/-! ## Toggling a channel -/

theorem findChan_none_of_not_mem (outs : List chaninfo) (j : nodeid)
    (h : j ∉ outs.map (fun c => c.dst)) : findChan outs j = none := by
  induction outs with
  | nil => rfl
  | cons c rest ih =>
    simp only [List.map_cons, List.mem_cons, not_or] at h
    have hc : c.dst ≠ j := fun e => h.1 e.symm
    simp [findChan, hc, ih h.2]

theorem findChan_some_of_mem (outs : List chaninfo) (j : nodeid)
    (h : j ∈ outs.map (fun c => c.dst)) : ∃ k, findChan outs j = some k := by
  cases hf : findChan outs j with
  | none => exact absurd h (findChan_none_not_mem outs j hf)
  | some k => exact ⟨k, rfl⟩

theorem filter_eraseIdx_findChan (outs : List chaninfo) (j : nodeid) :
    ∀ k, findChan outs j = some k →
      (outs.eraseIdx k).filter (fun c => !decide (c.dst = j)) =
        outs.filter (fun c => !decide (c.dst = j)) := by
  induction outs with
  | nil => intro k h; simp [findChan] at h
  | cons c rest ih =>
    intro k h
    by_cases hc : c.dst = j
    · have hk : k = 0 := by simpa [findChan, hc] using h.symm
      subst hk
      simp [hc]
    · cases hr : findChan rest j with
      | none => simp [findChan, hc, hr] at h
      | some k1 =>
        have hk : k = k1 + 1 := by simpa [findChan, hc, hr] using h.symm
        subst hk
        simp [hc, ih k1 hr]

theorem findChan_append_new (outs : List chaninfo) (j : nodeid) (u : Rat)
    (h : findChan outs j = none) :
    findChan (outs ++ [{ dst := j, usage := u }]) j = some outs.length := by
  induction outs with
  | nil => simp [findChan]
  | cons c rest ih =>
    by_cases hc : c.dst = j
    · simp [findChan, hc] at h
    · have hr : findChan rest j = none := by simpa [findChan, hc] using h
      simp [findChan, hc, ih hr]

theorem eraseIdx_append_length (outs : List chaninfo) (c : chaninfo) :
    (outs ++ [c]).eraseIdx outs.length = outs := by
  induction outs with
  | nil => rfl
  | cons d rest ih => simp [ih]

theorem filter_of_not_mem (outs : List chaninfo) (j : nodeid)
    (h : j ∉ outs.map (fun c => c.dst)) :
    outs.filter (fun c => !decide (c.dst = j)) = outs := by
  apply List.filter_eq_self.mpr
  intro c hc
  have : c.dst ≠ j := fun e => h (List.mem_map.mpr ⟨c, hc, e⟩)
  simp [this]

/-- What `addOrDelChan` does when the channel exists: the entry of `i` loses its
first channel to `j`, and `i` is sent DEL_DEST. -/
theorem addOrDelChan_del (net : network) (i j : nodeid) (k : Nat) (q : List ctlmsg)
    (hf : findChan (network.get net i).outs j = some k)
    (hq : (network.get net i).ctl = some q) :
    ∃ net1, network.addOrDelChan net i j = some net1 ∧
      network.get net1 i = { network.get net i with
        outs := (network.get net i).outs.eraseIdx k, ctl := some (q ++ [.DEL_DEST j]) } ∧
      (∀ t, t ≠ i → network.find? net1 t = network.find? net t) ∧
      network.keys net1 = network.keys net := by
  have hex := find?_ne_none_of_ctl net i q hq
  refine ⟨network.set (network.set net i { network.get net i with
      outs := (network.get net i).outs.eraseIdx k }) i
      { network.get net i with
        outs := (network.get net i).outs.eraseIdx k, ctl := some (q ++ [.DEL_DEST j]) },
    ?_, ?_, ?_, ?_⟩
  · simp only [network.addOrDelChan, hf]
    rw [sendCtl_spec _ _ _ q (by rw [get_set_same]; exact hq), get_set_same]
  · rw [get_set_same]
  · intro t ht
    rw [find?_set, find?_set]
    simp [ht]
  · rw [keys_set_of_find?, keys_set_of_find? _ _ _ hex]
    rw [find?_set]; simp

/-- What `addOrDelChan` does when there is no channel: the entry of `i` gets a
new last channel to `j` with usage 0, and `i` is sent ADD_DEST with the input
channel of `j`. -/
theorem addOrDelChan_add (net : network) (i j : nodeid) (q : List ctlmsg)
    (hf : findChan (network.get net i).outs j = none)
    (hq : (network.get net i).ctl = some q) :
    ∃ net1, network.addOrDelChan net i j = some net1 ∧
      network.get net1 i = { network.get net i with
        outs := (network.get net i).outs ++ [{ dst := j, usage := 0 }],
        ctl := some (q ++ [.ADD_DEST { ch := (network.get net j).inp, dst := j }]) } ∧
      (∀ t, t ≠ i → network.find? net1 t = network.find? net t) ∧
      network.keys net1 = network.keys net := by
  have hex := find?_ne_none_of_ctl net i q hq
  have hinp : (network.get (network.set net i { network.get net i with
      outs := (network.get net i).outs ++ [{ dst := j, usage := 0 }] }) j).inp =
      (network.get net j).inp := by
    by_cases hji : j = i
    · subst hji; rw [get_set_same]
    · rw [get_set_other _ _ _ _ hji]
  refine ⟨network.set (network.set net i { network.get net i with
      outs := (network.get net i).outs ++ [{ dst := j, usage := 0 }] }) i
      { network.get net i with
        outs := (network.get net i).outs ++ [{ dst := j, usage := 0 }],
        ctl := some (q ++ [.ADD_DEST { ch := (network.get net j).inp, dst := j }]) },
    ?_, ?_, ?_, ?_⟩
  · simp only [network.addOrDelChan, hf]
    rw [sendCtl_spec _ _ _ q (by rw [get_set_same]; exact hq), get_set_same, hinp]
  · rw [get_set_same]
  · intro t ht
    rw [find?_set, find?_set]
    simp [ht]
  · rw [keys_set_of_find?, keys_set_of_find? _ _ _ hex]
    rw [find?_set]; simp

/-- C11: toggling an edge twice undoes itself. In a registry in which node `i`
exists (with its control channel, on which `q` has been sent) and holds at most
one channel per destination, two calls of `addOrDelChan(i, j)` in succession
return; the channel `i -> j` is present afterwards iff it was present before;
the other channels of `i` keep their destination, usage and relative order;
every other field of node `i`, every other node and the key set are unchanged;
node `i` has been sent exactly two more control messages, DEL_DEST `j` then
ADD_DEST `j` when the channel was present and ADD_DEST `j` then DEL_DEST `j`
when it was not; and a channel to `j` that is present afterwards has been
re-created last in the list with usage 0. -/
theorem C11_toggle_twice (net : network) (i j : nodeid) (q : List ctlmsg)
    (hq : (network.get net i).ctl = some q)
    (hnd : ((network.get net i).outs.map (fun c => c.dst)).Nodup) :
    ∃ net1 net2 m1 m2,
      network.addOrDelChan net i j = some net1 ∧
      network.addOrDelChan net1 i j = some net2 ∧
      (j ∈ (network.get net2 i).outs.map (fun c => c.dst) ↔
        j ∈ (network.get net i).outs.map (fun c => c.dst)) ∧
      (network.get net2 i).outs.filter (fun c => !decide (c.dst = j)) =
        (network.get net i).outs.filter (fun c => !decide (c.dst = j)) ∧
      network.get net2 i = { network.get net i with
        outs := (network.get net2 i).outs, ctl := some (q ++ [m1, m2]) } ∧
      (∀ t, t ≠ i → network.find? net2 t = network.find? net t) ∧
      network.keys net2 = network.keys net ∧
      (j ∈ (network.get net i).outs.map (fun c => c.dst) →
        m1 = .DEL_DEST j ∧ m2 = .ADD_DEST { ch := (network.get net j).inp, dst := j } ∧
        (network.get net2 i).outs =
          (network.get net i).outs.filter (fun c => !decide (c.dst = j)) ++
            [{ dst := j, usage := 0 }]) ∧
      (j ∉ (network.get net i).outs.map (fun c => c.dst) →
        m1 = .ADD_DEST { ch := (network.get net j).inp, dst := j } ∧ m2 = .DEL_DEST j ∧
        (network.get net2 i).outs = (network.get net i).outs) := by
  by_cases hmem : j ∈ (network.get net i).outs.map (fun c => c.dst)
  · -- the channel exists: delete, then create
    obtain ⟨k, hf⟩ := findChan_some_of_mem _ j hmem
    obtain ⟨net1, h1, g1, o1, k1⟩ := addOrDelChan_del net i j k q hf hq
    have herase := eraseIdx_findChan _ j k hf hnd
    have hnot : j ∉ ((network.get net i).outs.eraseIdx k).map (fun c => c.dst) := by
      rw [herase]; simp
    have hf1 : findChan (network.get net1 i).outs j = none := by
      rw [g1]; exact findChan_none_of_not_mem _ j hnot
    have hq1 : (network.get net1 i).ctl = some (q ++ [.DEL_DEST j]) := by rw [g1]
    obtain ⟨net2, h2, g2, o2, k2⟩ := addOrDelChan_add net1 i j _ hf1 hq1
    have hinp : (network.get net1 j).inp = (network.get net j).inp := by
      by_cases hji : j = i
      · subst hji; rw [g1]
      · simp only [network.get, o1 j hji]
    have houts : (network.get net2 i).outs =
        (network.get net i).outs.filter (fun c => !decide (c.dst = j)) ++
          [{ dst := j, usage := 0 }] := by
      rw [g2, g1]
      show (network.get net i).outs.eraseIdx k ++ [_] = _
      rw [← filter_eraseIdx_findChan _ j k hf, filter_of_not_mem _ j hnot]
    refine ⟨net1, net2, .DEL_DEST j, .ADD_DEST { ch := (network.get net j).inp, dst := j },
      h1, h2, ?_, ?_, ?_, ?_, ?_, ?_, ?_⟩
    · rw [houts]; simp [hmem]
    · rw [houts]; simp [List.filter_append, List.filter_filter]
    · rw [g2, g1, hinp]; simp
    · intro t ht; rw [o2 t ht, o1 t ht]
    · rw [k2, k1]
    · intro _; exact ⟨rfl, rfl, houts⟩
    · intro hn; exact absurd hmem hn
  · -- no channel: create, then delete
    have hf := findChan_none_of_not_mem _ j hmem
    obtain ⟨net1, h1, g1, o1, k1⟩ := addOrDelChan_add net i j q hf hq
    have hf1 : findChan (network.get net1 i).outs j = some (network.get net i).outs.length := by
      rw [g1]; exact findChan_append_new _ j 0 hf
    have hq1 : (network.get net1 i).ctl =
        some (q ++ [.ADD_DEST { ch := (network.get net j).inp, dst := j }]) := by rw [g1]
    obtain ⟨net2, h2, g2, o2, k2⟩ := addOrDelChan_del net1 i j _ _ hf1 hq1
    have houts : (network.get net2 i).outs = (network.get net i).outs := by
      rw [g2, g1]
      exact eraseIdx_append_length _ _
    refine ⟨net1, net2, .ADD_DEST { ch := (network.get net j).inp, dst := j }, .DEL_DEST j,
      h1, h2, ?_, ?_, ?_, ?_, ?_, ?_, ?_⟩
    · rw [houts]
    · rw [houts]
    · rw [g2, g1]
      simp [eraseIdx_append_length]
    · intro t ht; rw [o2 t ht, o1 t ht]
    · rw [k2, k1]
    · intro hn; exact absurd hn hmem
    · intro _; exact ⟨rfl, rfl, houts⟩

theorem C11_toggle_twice_witness :
    (network.get twoNodes 0).ctl = some
      [.ADD_DEST { ch := some 1, dst := 1 }, .ADD_DEST { ch := some 0, dst := 0 }] ∧
    ((network.get twoNodes 0).outs.map (fun c => c.dst)).Nodup ∧
    ∃ net1 net2 m1 m2,
      network.addOrDelChan twoNodes 0 1 = some net1 ∧
      network.addOrDelChan net1 0 1 = some net2 ∧
      (1 ∈ (network.get net2 0).outs.map (fun c => c.dst) ↔
        1 ∈ (network.get twoNodes 0).outs.map (fun c => c.dst)) ∧
      (network.get net2 0).outs.filter (fun c => !decide (c.dst = 1)) =
        (network.get twoNodes 0).outs.filter (fun c => !decide (c.dst = 1)) ∧
      network.get net2 0 = { network.get twoNodes 0 with
        outs := (network.get net2 0).outs,
        ctl := some ([.ADD_DEST { ch := some 1, dst := 1 },
          .ADD_DEST { ch := some 0, dst := 0 }] ++ [m1, m2]) } ∧
      (∀ t, t ≠ 0 → network.find? net2 t = network.find? twoNodes t) ∧
      network.keys net2 = network.keys twoNodes ∧
      (1 ∈ (network.get twoNodes 0).outs.map (fun c => c.dst) →
        m1 = .DEL_DEST 1 ∧ m2 = .ADD_DEST { ch := (network.get twoNodes 1).inp, dst := 1 } ∧
        (network.get net2 0).outs =
          (network.get twoNodes 0).outs.filter (fun c => !decide (c.dst = 1)) ++
            [{ dst := 1, usage := 0 }]) ∧
      (1 ∉ (network.get twoNodes 0).outs.map (fun c => c.dst) →
        m1 = .ADD_DEST { ch := (network.get twoNodes 1).inp, dst := 1 } ∧ m2 = .DEL_DEST 1 ∧
        (network.get net2 0).outs = (network.get twoNodes 0).outs) :=
  ⟨by decide, by decide, C11_toggle_twice twoNodes 0 1 _ (by decide) (by decide)⟩

/-! ## Reports -/

theorem setUsage_map_dst (outs : List chaninfo) (dst : nodeid) :
    (setUsage outs dst).map (fun c => c.dst) = outs.map (fun c => c.dst) := by
  induction outs with
  | nil => rfl
  | cons c rest ih =>
    simp only [setUsage, List.map_cons, ih]
    split <;> rfl

theorem setUsage_get? (outs : List chaninfo) (dst : nodeid) :
    ∀ p, (setUsage outs dst).get? p =
      (outs.get? p).map (fun c => if c.dst = dst then { c with usage := 1 } else c) := by
  induction outs with
  | nil => intro p; rfl
  | cons c rest ih =>
    intro p
    cases p with
    | zero => rfl
    | succ p => simpa [setUsage] using ih p

theorem mem_keys_set (net : network) (id k : nodeid) (n : node) :
    k ∈ network.keys (network.set net id n) ↔ k = id ∨ k ∈ network.keys net := by
  induction net with
  | nil => simp [network.set, network.keys]
  | cons e rest ih =>
    obtain ⟨k0, m⟩ := e
    by_cases h0 : k0 = id
    · subst h0
      simp [network.set, network.keys]
    · simp only [network.keys] at ih
      simp only [network.set, h0, if_false, network.keys, List.map_cons, List.mem_cons, ih]
      tauto

/-- A report whose source is a key of the registry only sets usages: the keys
and every other entry are unchanged, and the entry of the source keeps all its
fields and the destinations of its channels, the usage of every channel to
`r.dst` being 1 and the usage of the others unchanged. -/
theorem applyReport_of_key (net : network) (r : sendreport)
    (h : network.find? net r.src ≠ none) :
    network.keys (applyReport net r) = network.keys net ∧
    (∀ t, t ≠ r.src → network.find? (applyReport net r) t = network.find? net t) ∧
    network.get (applyReport net r) r.src =
      { network.get net r.src with outs := (network.get (applyReport net r) r.src).outs } ∧
    ∀ p, (network.get (applyReport net r) r.src).outs.get? p =
      ((network.get net r.src).outs.get? p).map
        (fun c => if c.dst = r.dst then { c with usage := 1 } else c) := by
  refine ⟨keys_set_of_find? _ _ _ h, ?_, ?_, ?_⟩
  · intro t ht
    simp [applyReport, find?_set, ht]
  · simp [applyReport, get_set_same]
  · intro p
    simp only [applyReport, get_set_same]
    exact setUsage_get? _ _ p

/-- C12: the registry `oneNode` has the single key 0; the report (5, 1), whose
source is not a key, makes `Game.Update` write the zero value of `node` under
the key 5: the registry gets a second key, whose entry has a nil control
channel, so that `stopAllAndWait` never returns afterwards. -/
theorem C12_report_adds_key :
    network.keys oneNode = [0] ∧ network.find? oneNode 5 = none ∧
    network.keys (applyReport oneNode { src := 5, dst := 1 }) = [0, 5] ∧
    network.find? (applyReport oneNode { src := 5, dst := 1 }) 5 = some zeroNode ∧
    applyReport oneNode { src := 5, dst := 1 } ≠ oneNode ∧
    network.stopAllAndWait (applyReport oneNode { src := 5, dst := 1 }) [0, 5] = none := by
  decide

/-! ## Shutdown -/

theorem find?_eq_none_of_not_mem_keys (net : network) (k : nodeid)
    (h : k ∉ network.keys net) : network.find? net k = none := by
  cases hf : network.find? net k with
  | none => rfl
  | some n =>
    exfalso
    apply h
    clear h
    induction net with
    | nil => simp [network.find?] at hf
    | cons e rest ih =>
      obtain ⟨k0, m⟩ := e
      by_cases h0 : k0 = k
      · simp [network.keys, h0]
      · have : network.find? rest k = some n := by simpa [network.find?, h0] using hf
        have := ih this
        simp only [network.keys] at this
        simp [network.keys, this]

/-- The first loop of `stopAllAndWait` on distinct keys of a registry whose
nodes all have a control channel: it returns, every node of `ids` has been sent
one QUIT after the messages sent before, and nothing else has changed. -/
theorem stopEach_spec (ids : List nodeid) :
    ∀ net : network, allCtl net → ids.Nodup → (∀ id ∈ ids, network.find? net id ≠ none) →
      ∃ net1, stopEach net ids = some net1 ∧ network.keys net1 = network.keys net ∧
        (∀ k, k ∉ ids → network.find? net1 k = network.find? net k) ∧
        (∀ k n, k ∈ ids → network.find? net k = some n →
          ∃ q, n.ctl = some q ∧
            network.find? net1 k = some { n with ctl := some (q ++ [.QUIT]) }) := by
  induction ids with
  | nil =>
    intro net _ _ _
    exact ⟨net, rfl, rfl, fun _ _ => rfl, fun k n hk => absurd hk (List.not_mem_nil _)⟩
  | cons id rest ih =>
    intro net hall hnd hids
    have hid := hids id (List.mem_cons_self _ _)
    obtain ⟨q, hq⟩ := ctl_of_allCtl net id hall hid
    have hkeys := keys_set_of_find? net id
      { network.get net id with ctl := some (q ++ [.QUIT]) } hid
    have hall1 := allCtl_set net id { network.get net id with ctl := some (q ++ [.QUIT]) } hall
      (by simp)
    have hids1 : ∀ k ∈ rest, network.find? (network.set net id
        { network.get net id with ctl := some (q ++ [.QUIT]) }) k ≠ none := by
      intro k hk
      rw [find?_set]
      by_cases hki : k = id
      · simp [hki]
      · simpa [hki] using hids k (List.mem_cons_of_mem _ hk)
    have hnd1 : rest.Nodup := (List.nodup_cons.mp hnd).2
    have hnotin : id ∉ rest := (List.nodup_cons.mp hnd).1
    obtain ⟨net1, h1, h2, h3, h4⟩ := ih _ hall1 hnd1 hids1
    refine ⟨net1, ?_, by rw [h2, hkeys], ?_, ?_⟩
    · simp [stopEach, network.stop, sendCtl_spec net id .QUIT q hq, h1]
    · intro k hk
      simp only [List.mem_cons, not_or] at hk
      rw [h3 k hk.2, find?_set]
      simp [hk.1]
    · intro k n hk hn
      by_cases hki : k = id
      · subst hki
        have hg : network.get net k = n := by simp [network.get, hn]
        rw [hg] at hq
        refine ⟨q, hq, ?_⟩
        rw [h3 k hnotin, find?_set, hg]
        simp
      · have hkr : k ∈ rest := by
          simp only [List.mem_cons] at hk
          rcases hk with h | h
          · exact absurd h hki
          · exact h
        have hn1 : network.find? (network.set net id
            { network.get net id with ctl := some (q ++ [.QUIT]) }) k = some n := by
          rw [find?_set]; simp [hki, hn]
        exact h4 k n hkr hn1

theorem waitEach_blocks (ids : List nodeid) :
    ∀ (net : network) (stopChan : List nodeid), stopChan.length < ids.length →
      waitEach net ids stopChan = none := by
  induction ids with
  | nil => intro net stopChan h; simp at h
  | cons i rest ih =>
    intro net stopChan hlen
    cases stopChan with
    | nil => rfl
    | cons v more =>
      simp only [waitEach]
      exact ih _ _ (by simpa using hlen)

theorem delete_of_not_mem_keys (net : network) (k : nodeid) (h : k ∉ network.keys net) :
    network.delete net k = net := by
  apply List.filter_eq_self.mpr
  intro e he
  have : e.1 ≠ k := fun hk => h (List.mem_map.mpr ⟨e, he, hk⟩)
  simp [this]

/-- Deleting the first `j` keys of a registry with distinct keys leaves the
entries after the first `j`. -/
theorem foldl_delete_take (net : network) :
    ∀ j, (network.keys net).Nodup →
      ((network.keys net).take j).foldl network.delete net = net.drop j := by
  induction net with
  | nil => intro j _; simp [network.keys]
  | cons e rest ih =>
    intro j hnd
    cases j with
    | zero => rfl
    | succ j =>
      obtain ⟨k, n⟩ := e
      have hnd' : k ∉ network.keys rest ∧ (network.keys rest).Nodup := by
        simpa [network.keys] using hnd
      have hdel : network.delete ((k, n) :: rest) k = rest := by
        have := delete_of_not_mem_keys rest k hnd'.1
        simp only [network.delete] at this ⊢
        rw [List.filter_cons]
        simpa using this
      show (List.take (j + 1) (k :: network.keys rest)).foldl network.delete ((k, n) :: rest) = _
      simp only [List.take_succ_cons, List.foldl_cons, hdel, List.drop_succ_cons]
      exact ih j hnd'.2

/-- C13 (counterexample): the registry `strayKey` has two entries with
distinct keys, the entry under the key 5 being the zero value of `node`, whose
control channel is nil. The send of QUIT to the key 5 never returns: the first
loop of `stopAllAndWait` does not end, whether it visits the key 5 first (node
0 then gets no QUIT) or last, and the call never returns, whatever arrives on
the stop channel. -/
theorem C13_stray_entry_never_stops :
    strayKey.length = 2 ∧ (network.keys strayKey).Nodup ∧
      network.find? strayKey 5 = some zeroNode ∧
      network.stop strayKey 5 = none ∧
      stopEach strayKey [5, 0] = none ∧
      stopEach strayKey (network.keys strayKey) = none ∧
      network.stopAllAndWait strayKey [0, 5, 7] = none := by
  decide

/-- C13 (amended): shutdown completeness. For a registry with `N` entries
(distinct keys) each of which has a control channel: the first loop of
`stopAllAndWait` returns having sent exactly one QUIT to every registered
node, after the messages sent before, and nothing else; when fewer than `N`
values arrive on
the stop channel the call never returns; otherwise the second loop holds
`N - j` entries after `j` values, whatever they are, and the call returns with
an empty registry, exactly `N` values having been taken from the stop
channel. -/
theorem C13_shutdown_completeness (net : network) (stopChan : List nodeid)
    (hkeys : (network.keys net).Nodup) (hall : allCtl net) :
    ∃ net1, stopEach net (network.keys net) = some net1 ∧
      network.keys net1 = network.keys net ∧
      (∀ k n, network.find? net k = some n →
        ∃ q, n.ctl = some q ∧
          network.find? net1 k = some { n with ctl := some (q ++ [.QUIT]) }) ∧
      (stopChan.length < net.length → network.stopAllAndWait net stopChan = none) ∧
      (net.length ≤ stopChan.length →
        (∀ j, j ≤ net.length →
          ∃ netj, waitEach net1 ((network.keys net1).take j) stopChan =
              some (netj, stopChan.drop j) ∧ netj.length = net.length - j) ∧
        network.stopAllAndWait net stopChan = some ([], stopChan.drop net.length)) := by
  obtain ⟨net1, h1, h2, _, h4⟩ := stopEach_spec (network.keys net) net hall hkeys
    (fun id hid => find?_ne_none_of_mem_keys net id hid)
  have hlen1 : net1.length = net.length := by
    have := congrArg List.length h2
    simpa [network.keys] using this
  refine ⟨net1, h1, h2, ?_, ?_, ?_⟩
  · intro k n hn
    have hk : k ∈ network.keys net := by
      by_contra hk
      rw [find?_eq_none_of_not_mem_keys net k hk] at hn
      cases hn
    exact h4 k n hk hn
  · intro hlt
    simp only [network.stopAllAndWait, h1, Option.some_bind]
    apply waitEach_blocks
    rw [h2]; simpa [network.keys] using hlt
  · intro hle
    refine ⟨?_, stopAllAndWait_empties net stopChan hall hle⟩
    intro j hj
    have hl : ((network.keys net1).take j).length ≤ stopChan.length := by
      simp only [List.length_take, network.keys, List.length_map]
      omega
    have hlj : ((network.keys net1).take j).length = j := by
      simp only [List.length_take, network.keys, List.length_map]
      omega
    refine ⟨_, waitEach_returns _ net1 stopChan hl |>.trans (by rw [hlj]), ?_⟩
    rw [foldl_delete_take net1 j (by rw [h2]; exact hkeys)]
    simp only [List.length_drop]
    omega

theorem C13_shutdown_completeness_witness :
    (network.keys twoNodes).Nodup ∧ allCtl twoNodes ∧
    ∃ net1, stopEach twoNodes (network.keys twoNodes) = some net1 ∧
      network.keys net1 = network.keys twoNodes ∧
      (∀ k n, network.find? twoNodes k = some n →
        ∃ q, n.ctl = some q ∧
          network.find? net1 k = some { n with ctl := some (q ++ [.QUIT]) }) ∧
      ([(1 : nodeid), 0, 7].length < twoNodes.length →
        network.stopAllAndWait twoNodes [1, 0, 7] = none) ∧
      (twoNodes.length ≤ [(1 : nodeid), 0, 7].length →
        (∀ j, j ≤ twoNodes.length →
          ∃ netj, waitEach net1 ((network.keys net1).take j) [1, 0, 7] =
              some (netj, [(1 : nodeid), 0, 7].drop j) ∧ netj.length = twoNodes.length - j) ∧
        network.stopAllAndWait twoNodes [1, 0, 7] =
          some ([], [(1 : nodeid), 0, 7].drop twoNodes.length)) :=
  have h : allCtl twoNodes := by
    intro k n hk
    have hkeys : k ∈ network.keys twoNodes := by
      by_contra hc
      rw [find?_eq_none_of_not_mem_keys _ _ hc] at hk
      cases hk
    have h01 : k = 0 ∨ k = 1 := by
      have : network.keys twoNodes = [0, 1] := by decide
      rw [this] at hkeys
      simpa using hkeys
    rcases h01 with h0 | h1
    · subst h0
      have : network.find? twoNodes 0 = some (network.get twoNodes 0) := by decide
      rw [this] at hk
      cases hk
      decide
    · subst h1
      have : network.find? twoNodes 1 = some (network.get twoNodes 1) := by decide
      rw [this] at hk
      cases hk
      decide
  ⟨by decide, h, C13_shutdown_completeness twoNodes [1, 0, 7] (by decide) h⟩
/-! ## Spawning a node -/

theorem wrap64_of_range (i : Int) (hlo : -2 ^ 63 ≤ i) (hhi : i < 2 ^ 63) : wrap64 i = i := by
  unfold wrap64
  have h1 : (i + 2 ^ 63) % 2 ^ 64 = i + 2 ^ 63 := by
    apply Int.emod_eq_of_lt <;> omega
  omega

/-- C17 (counterexample): with `nextNodeId` at the greatest 64-bit integer,
`spawnNode` registers the node and `nextNodeId += 1` wraps around to the least
integer: every key was below `nextNodeId` before the call and none is after. -/
theorem C17_counter_wraps :
    (∀ k ∈ network.keys oneNode, k < (9223372036854775807 : Int)) ∧
    (spawnNode { net := oneNode, nextNodeId := 9223372036854775807 } 1 2 3).nextNodeId
      = -9223372036854775808 ∧
    (spawnNode { net := oneNode, nextNodeId := 9223372036854775807 } 1 2 3).nextNodeId
      ≠ 9223372036854775807 + 1 ∧
    ¬ (∀ k ∈ network.keys
        (spawnNode { net := oneNode, nextNodeId := 9223372036854775807 } 1 2 3).net,
      k < (spawnNode { net := oneNode, nextNodeId := 9223372036854775807 } 1 2 3).nextNodeId) := by
  decide

/-- C17 (amended): spawn defaults and id assignment. For every registry and
counter value `n = nextNodeId` below the greatest 64-bit integer, `spawnNode(x,
y)` registers under key `n` a node with id `n`, name "node", send text
"from n", relay mode ROUND_ROBIN, send interval 0, paused = false, an empty
edge list, fresh channels and position `(x, y)`, leaves every other entry
unchanged, and sets `nextNodeId` to `n + 1`; consequently, if every key is below
`nextNodeId` before the call, `n` was not a key and every key is below
`nextNodeId` after the call. -/
theorem C17_spawn_defaults (g : Game) (x y : Int) (inCh : Nat)
    (hlo : -2 ^ 63 ≤ g.nextNodeId) (hhi : g.nextNodeId < 2 ^ 63 - 1) :
    network.find? (spawnNode g x y inCh).net g.nextNodeId =
      some { id := g.nextNodeId, name := bytes "node", ctl := some [], inp := some inCh,
             outs := [], sendText := bytes "from " ++ itoa g.nextNodeId, sendInterval := 0,
             relayMode := ROUND_ROBIN, paused := false, x := x, y := y } ∧
    (∀ k, k ≠ g.nextNodeId →
      network.find? (spawnNode g x y inCh).net k = network.find? g.net k) ∧
    (spawnNode g x y inCh).nextNodeId = g.nextNodeId + 1 ∧
    ((∀ k ∈ network.keys g.net, k < g.nextNodeId) →
      g.nextNodeId ∉ network.keys g.net ∧
      ∀ k ∈ network.keys (spawnNode g x y inCh).net, k < (spawnNode g x y inCh).nextNodeId) := by
  have hnext : (spawnNode g x y inCh).nextNodeId = g.nextNodeId + 1 := by
    simp only [spawnNode]
    exact wrap64_of_range (g.nextNodeId + 1) (by omega) (by omega)
  refine ⟨?_, ?_, hnext, ?_⟩
  · simp [spawnNode, network.spawnNodeWithID, find?_set]
  · intro k hk
    simp [spawnNode, network.spawnNodeWithID, find?_set, hk]
  · intro hbelow
    refine ⟨fun hmem => absurd (hbelow _ hmem) (lt_irrefl _), ?_⟩
    intro k hk
    rw [hnext]
    simp only [spawnNode, network.spawnNodeWithID] at hk
    rcases (mem_keys_set _ _ _ _).mp hk with h | h
    · rw [h]; exact lt_add_one _
    · exact lt_trans (hbelow k h) (lt_add_one _)

theorem C17_spawn_defaults_witness :
    (-2 ^ 63 ≤ ({ net := oneNode, nextNodeId := 1 } : Game).nextNodeId) ∧
    (({ net := oneNode, nextNodeId := 1 } : Game).nextNodeId < 2 ^ 63 - 1) ∧
    network.find? (spawnNode { net := oneNode, nextNodeId := 1 } 7 8 1).net
        ({ net := oneNode, nextNodeId := 1 } : Game).nextNodeId =
      some { id := ({ net := oneNode, nextNodeId := 1 } : Game).nextNodeId,
             name := bytes "node", ctl := some [], inp := some 1,
             outs := [],
             sendText := bytes "from " ++ itoa ({ net := oneNode, nextNodeId := 1 } : Game).nextNodeId,
             sendInterval := 0,
             relayMode := ROUND_ROBIN, paused := false, x := 7, y := 8 } ∧
    (∀ k, k ≠ ({ net := oneNode, nextNodeId := 1 } : Game).nextNodeId →
      network.find? (spawnNode { net := oneNode, nextNodeId := 1 } 7 8 1).net k =
        network.find? ({ net := oneNode, nextNodeId := 1 } : Game).net k) ∧
    (spawnNode { net := oneNode, nextNodeId := 1 } 7 8 1).nextNodeId =
      ({ net := oneNode, nextNodeId := 1 } : Game).nextNodeId + 1 ∧
    ((∀ k ∈ network.keys ({ net := oneNode, nextNodeId := 1 } : Game).net,
        k < ({ net := oneNode, nextNodeId := 1 } : Game).nextNodeId) →
      ({ net := oneNode, nextNodeId := 1 } : Game).nextNodeId ∉
        network.keys ({ net := oneNode, nextNodeId := 1 } : Game).net ∧
      ∀ k ∈ network.keys (spawnNode { net := oneNode, nextNodeId := 1 } 7 8 1).net,
        k < (spawnNode { net := oneNode, nextNodeId := 1 } 7 8 1).nextNodeId) :=
  ⟨by decide, by decide,
    C17_spawn_defaults { net := oneNode, nextNodeId := 1 } 7 8 1 (by decide) (by decide)⟩

/-! ## Reading and registering are separate -/

theorem set_set (net : network) (k : nodeid) (a b : node) :
    network.set (network.set net k a) k b = network.set net k b := by
  induction net with
  | nil => simp [network.set]
  | cons e rest ih =>
    obtain ⟨k0, m⟩ := e
    by_cases h0 : k0 = k
    · simp [network.set, h0]
    · simp [network.set, h0, ih]

/-- The calls of `deserializeNode` after the reading never block, and leave the
entry `declNode` under the id of the line. -/
theorem registerNode_eq (net : network) (d : nodeDecl) (inCh : Nat) :
    (((((if d.paused then
        ((network.spawnNodeWithID net d.id d.x d.y inCh).togglePause d.id).map Prod.fst
        else some (network.spawnNodeWithID net d.id d.x d.y inCh)).bind
      (fun net => net.setName d.id d.name)).bind
      (fun net => net.setSendText d.id d.sendText)).bind
      (fun net => net.setSendInterval d.id d.sendInterval)).bind
      (fun net => net.setRelayMode d.id d.relayMode)) =
    some (network.set net d.id (declNode d inCh)) := by
  cases hp : d.paused <;>
    simp [network.spawnNodeWithID, network.togglePause, network.setName, network.setSendText,
      network.setSendInterval, network.setRelayMode, network.sendCtl, get_set_same, set_set,
      declNode, hp, ROUND_ROBIN]

theorem deserializeNode_eq (r : Reader) (net : network) (id : nodeid) (inCh : Nat) :
    deserializeNode r net id inCh =
      match parseNode r id with
      | none => .failed
      | some (d, r1) => .ok (network.set net d.id (declNode d inCh), r1) := by
  unfold deserializeNode parseNode
  cases h1 : Fscanf r "[label=" with
  | none => rfl
  | some p1 =>
    simp only
    rcases h2 : scanQuoted p1.2 with ⟨name, ok2, r2⟩
    cases ok2 with
    | false => rfl
    | true =>
      simp only
      cases h3 : Fscanf r2 "] // " with
      | none => rfl
      | some p3 =>
        simp only
        rcases h4 : scanQuoted p3.2 with ⟨text, ok4, r4⟩
        cases ok4 with
        | false => rfl
        | true =>
          simp only
          cases h5 : Fscanf r4 "%d %d %t %d %d" with
          | none => rfl
          | some p5 =>
            obtain ⟨vals, r5⟩ := p5
            cases vals with
            | nil => rfl
            | cons v1 t1 =>
            cases v1 with
            | bool _ => rfl
            | char _ => rfl
            | int sendInterval =>
            cases t1 with
            | nil => rfl
            | cons v2 t2 =>
            cases v2 with
            | bool _ => rfl
            | char _ => rfl
            | int relayMode =>
            cases t2 with
            | nil => rfl
            | cons v3 t3 =>
            cases v3 with
            | int _ => rfl
            | char _ => rfl
            | bool paused =>
            cases t3 with
            | nil => rfl
            | cons v4 t4 =>
            cases v4 with
            | bool _ => rfl
            | char _ => rfl
            | int x =>
            cases t4 with
            | nil => rfl
            | cons v5 t5 =>
            cases v5 with
            | bool _ => rfl
            | char _ => rfl
            | int y =>
            cases t5 with
            | cons _ _ => rfl
            | nil =>
              simp only
              have := registerNode_eq net ⟨id, name, text, sendInterval, relayMode, paused, x, y⟩ inCh
              simp only at this
              rw [this]
theorem parseNode_length (r r1 : Reader) (id : nodeid) (d : nodeDecl)
    (h : parseNode r id = some (d, r1)) : r1.length ≤ r.length := by
  have := deserializeNode_eq r [] id 0
  rw [h] at this
  exact deserializeNode_length _ _ _ _ _ _ this

theorem parseNode_id (r r1 : Reader) (id : nodeid) (d : nodeDecl)
    (h : parseNode r id = some (d, r1)) : d.id = id := by
  unfold parseNode at h
  repeat' split at h
  all_goals first
    | (cases h; done)
    | (simp only [Option.some.injEq, Prod.mk.injEq] at h; rw [← h.1])

theorem consume_eq (r : Reader) (c : Nat) :
    consume r c = if peek r c then (true, r.tail) else (false, r) := rfl

/-- The first loop of `deserialize` reads the entries and registers the nodes
as it goes: its result is determined by the entries read. -/
theorem deserializeLoop_eq (fuel : Nat) :
    ∀ (r : Reader) (net : network) (chans : List endpoints) (maxid : nodeid) (made : Nat),
      deserializeLoop fuel r net chans maxid made =
        match parseEntries fuel r with
        | none => .failed
        | some es =>
          .ok (registerAll net (nodesOf es) made, chans ++ chansOf es,
            maxId maxid (nodesOf es)) := by
  induction fuel with
  | zero => intro r net chans maxid made; rfl
  | succ fuel ih =>
    intro r net chans maxid made
    simp only [deserializeLoop, parseEntries, consume_eq]
    by_cases hc : peek (skipEmptyLines r) (rune '\x7d') = true
    · simp [hc, nodesOf, chansOf, registerAll, maxId]
    · have hc' : peek (skipEmptyLines r) (rune '\x7d') = false := by simpa using hc
      simp only [hc', Bool.false_eq_true, ↓reduceIte]
      cases hf : Fscanf (skipEmptyLines r) "%d " with
      | none => rfl
      | some p =>
        obtain ⟨vals, r1⟩ := p
        cases vals with
        | nil => rfl
        | cons v vs =>
          cases v with
          | bool b => rfl
          | char c => rfl
          | int id =>
            cases vs with
            | cons v2 vs2 => rfl
            | nil =>
              simp only
              by_cases hp : peek r1 (rune '[') = true
              · simp only [hp, if_true]
                rw [deserializeNode_eq]
                cases hn : parseNode r1 id with
                | none => rfl
                | some q =>
                  obtain ⟨d, r2⟩ := q
                  have hid := parseNode_id _ _ _ _ hn
                  simp only
                  rw [ih]
                  cases parseEntries fuel r2 with
                  | none => rfl
                  | some es => simp [nodesOf, chansOf, registerAll, maxId, hid]
              · have hp' : peek r1 (rune '[') = false := by simpa using hp
                simp only [hp', Bool.false_eq_true, ↓reduceIte]
                by_cases hm : peek r1 (rune '-') = true
                · simp only [hm, if_true, deserializeChan]
                  cases hd : Fscanf r1 "-> %d" with
                  | none => rfl
                  | some q =>
                    obtain ⟨vals2, r2⟩ := q
                    cases vals2 with
                    | nil => rfl
                    | cons w ws =>
                      cases w with
                      | bool b => rfl
                      | char c => rfl
                      | int dst =>
                        cases ws with
                        | cons w2 ws2 => rfl
                        | nil =>
                          simp only
                          rw [ih]
                          cases parseEntries fuel r2 with
                          | none => rfl
                          | some es => simp [nodesOf, chansOf]
                · have hm' : peek r1 (rune '-') = false := by simpa using hm
                  simp only [hm', Bool.false_eq_true, ↓reduceIte]

/-- What `deserialize` does, in terms of the entries of the file: it returns
nil when the entries cannot be read; otherwise it registers the nodes, then
adds the channels, and returns the registry with the greatest of 0 and the ids
read. -/
theorem deserialize_eq (input : GoString) (made : Nat) :
    deserialize input made =
      match fileEntries input with
      | none => .failed
      | some es =>
        match addChans (registerAll [] (nodesOf es) made) (chansOf es) with
        | none => .blocked
        | some net => .ok (net, maxId 0 (nodesOf es)) := by
  unfold deserialize fileEntries
  simp only
  cases hh : Fscanf (skipEmptyLines (NewReader input)) "digraph network \x7b\n" with
  | none => rfl
  | some p =>
    obtain ⟨v, r⟩ := p
    simp only
    rw [deserializeLoop_eq]
    cases parseEntries (r.length + 1) r with
    | none => rfl
    | some es => rfl

/-- The entries are read to the closing brace: `parseEntries` gives the same
result with any bound above the length of the reader. -/
theorem parseEntries_fuel (fuel : Nat) :
    ∀ (r : Reader) (k : Nat), r.length < fuel →
      parseEntries (fuel + k) r = parseEntries fuel r := by
  induction fuel with
  | zero => intro r k h; omega
  | succ fuel ih =>
    intro r k hlen
    have hk : fuel + 1 + k = (fuel + k) + 1 := by omega
    rw [hk]
    simp only [parseEntries]
    have l0 := skipEmptyLines_length r
    by_cases hc : peek (skipEmptyLines r) (rune '\x7d') = true
    · simp [hc]
    · have hc' : peek (skipEmptyLines r) (rune '\x7d') = false := by simpa using hc
      simp only [hc', Bool.false_eq_true, ↓reduceIte]
      cases hf : Fscanf (skipEmptyLines r) "%d " with
      | none => rfl
      | some p =>
        obtain ⟨vals, r1⟩ := p
        have l1 := Fscanf_id_length _ _ _ hf
        cases vals with
        | nil => rfl
        | cons v vs =>
          cases v with
          | bool b => rfl
          | char c => rfl
          | int id =>
            cases vs with
            | cons v2 vs2 => rfl
            | nil =>
              simp only
              by_cases hp : peek r1 (rune '[') = true
              · simp only [hp, if_true]
                cases hn : parseNode r1 id with
                | none => rfl
                | some q =>
                  obtain ⟨d, r2⟩ := q
                  have l2 := parseNode_length _ _ _ _ hn
                  simp only
                  rw [ih _ _ (by omega)]
              · have hp' : peek r1 (rune '[') = false := by simpa using hp
                simp only [hp', Bool.false_eq_true, ↓reduceIte]
                by_cases hm : peek r1 (rune '-') = true
                · simp only [hm, if_true]
                  cases hd : Fscanf r1 "-> %d" with
                  | none => rfl
                  | some q =>
                    obtain ⟨vals2, r2⟩ := q
                    have l2 := Fscanf_length _ _ _ _ hd
                    cases vals2 with
                    | nil => rfl
                    | cons w ws =>
                      cases w with
                      | bool b => rfl
                      | char c => rfl
                      | int dst =>
                        cases ws with
                        | cons w2 ws2 => rfl
                        | nil =>
                          simp only
                          rw [ih _ _ (by omega)]
                · have hm' : peek r1 (rune '-') = false := by simpa using hm
                  simp only [hm', Bool.false_eq_true, ↓reduceIte]

/-! ## The registry that a file describes -/

theorem mem_keys_registerAll (ds : List nodeDecl) :
    ∀ (net : network) (made : Nat) (k : nodeid),
      k ∈ network.keys (registerAll net ds made) ↔
        k ∈ network.keys net ∨ k ∈ ds.map (fun d => d.id) := by
  induction ds with
  | nil => intro net made k; simp [registerAll]
  | cons d rest ih =>
    intro net made k
    rw [registerAll, ih, mem_keys_set]
    simp only [List.map_cons, List.mem_cons]
    tauto

theorem allCtl_registerAll (ds : List nodeDecl) :
    ∀ (net : network) (made : Nat), allCtl net → allCtl (registerAll net ds made) := by
  induction ds with
  | nil => intro net made h; exact h
  | cons d rest ih =>
    intro net made h
    rw [registerAll]
    exact ih _ _ (allCtl_set net d.id _ h (by simp [declNode]))

theorem find?_registerAll (ds : List nodeDecl) :
    ∀ (net : network) (made : Nat) (k : nodeid) (n : node),
      network.find? (registerAll net ds made) k = some n →
        network.find? net k = some n ∨ ∃ d p, d ∈ ds ∧ d.id = k ∧ n = declNode d p := by
  induction ds with
  | nil => intro net made k n h; exact Or.inl h
  | cons d rest ih =>
    intro net made k n h
    rw [registerAll] at h
    rcases ih _ _ _ _ h with h1 | ⟨e, p, he, hk, hn⟩
    · rw [find?_set] at h1
      by_cases hkd : k = d.id
      · rw [if_pos hkd] at h1
        right
        exact ⟨d, made, List.mem_cons_self _ _, hkd.symm, (Option.some.inj h1).symm⟩
      · rw [if_neg hkd] at h1
        exact Or.inl h1
    · right
      exact ⟨e, p, List.mem_cons_of_mem _ he, hk, hn⟩

theorem get_of_find? (net : network) (k : nodeid) (n : node)
    (h : network.find? net k = some n) : network.get net k = n := by
  simp [network.get, h]

theorem find?_of_mem_keys (net : network) (k : nodeid) (h : k ∈ network.keys net) :
    network.find? net k = some (network.get net k) := by
  have := find?_ne_none_of_mem_keys net k h
  cases hf : network.find? net k with
  | none => exact absurd hf this
  | some n => simp [network.get, hf]

theorem addOrDelChan_ctl (net net1 : network) (i j : nodeid)
    (h : network.addOrDelChan net i j = some net1) :
    ∃ q, (network.get net i).ctl = some q := by
  cases hq : (network.get net i).ctl with
  | some q => exact ⟨q, rfl⟩
  | none =>
    exfalso
    unfold network.addOrDelChan at h
    cases hf : findChan (network.get net i).outs j with
    | none =>
      simp only [hf] at h
      unfold network.sendCtl at h
      rw [get_set_same] at h
      simp [hq] at h
    | some k =>
      simp only [hf] at h
      unfold network.sendCtl at h
      rw [get_set_same] at h
      simp [hq] at h

theorem addOrDelChan_toggle (net net1 : network) (i j : nodeid)
    (h : network.addOrDelChan net i j = some net1) :
    network.keys net1 = network.keys net ∧
      (∀ t, t ≠ i → network.find? net1 t = network.find? net t) ∧
      network.get net1 i = { network.get net i with
        outs := toggleChan (network.get net i).outs j, ctl := (network.get net1 i).ctl } := by
  obtain ⟨q, hq⟩ := addOrDelChan_ctl net net1 i j h
  cases hf : findChan (network.get net i).outs j with
  | none =>
    obtain ⟨net2, h2, hget, hoth, hkeys⟩ := addOrDelChan_add net i j q hf hq
    rw [h] at h2
    cases h2
    refine ⟨hkeys, hoth, ?_⟩
    rw [hget]
    simp [toggleChan, hf]
  | some k =>
    obtain ⟨net2, h2, hget, hoth, hkeys⟩ := addOrDelChan_del net i j k q hf hq
    rw [h] at h2
    cases h2
    refine ⟨hkeys, hoth, ?_⟩
    rw [hget]
    simp [toggleChan, hf]

theorem addChans_toggle (chans : List endpoints) :
    ∀ (net net1 : network), addChans net chans = some net1 →
      network.keys net1 = network.keys net ∧
      ∀ t, network.get net1 t = { network.get net t with
        outs := (chansFrom chans t).foldl toggleChan (network.get net t).outs,
        ctl := (network.get net1 t).ctl } := by
  induction chans with
  | nil =>
    intro net net1 h
    simp only [addChans, Option.some.injEq] at h
    subst h
    exact ⟨rfl, fun t => rfl⟩
  | cons c rest ih =>
    intro net net1 h
    rw [addChans] at h
    cases h1 : network.addOrDelChan net c.src c.dst with
    | none => simp [h1] at h
    | some net2 =>
      rw [h1] at h
      simp only [Option.some_bind] at h
      obtain ⟨hk2, hoth, hget⟩ := addOrDelChan_toggle net net2 c.src c.dst h1
      obtain ⟨hk1, hrest⟩ := ih net2 net1 h
      refine ⟨hk1.trans hk2, fun t => ?_⟩
      rw [hrest t]
      by_cases ht : c.src = t
      · subst ht
        rw [hget]
        simp [chansFrom]
      · have : network.get net2 t = network.get net t := by
          unfold network.get
          rw [hoth t (fun e => ht e.symm)]
        rw [this]
        simp [chansFrom, ht]

theorem addOrDelChan_returns (net : network) (i j : nodeid) (hall : allCtl net)
    (hi : i ∈ network.keys net) :
    ∃ net1, network.addOrDelChan net i j = some net1 ∧ allCtl net1 ∧
      network.keys net1 = network.keys net := by
  obtain ⟨q, hq⟩ := ctl_of_allCtl net i hall (find?_ne_none_of_mem_keys net i hi)
  have key : ∀ net1 m (outs : List chaninfo),
      network.get net1 i = { network.get net i with outs := outs, ctl := some (q ++ [m]) } →
      (∀ t, t ≠ i → network.find? net1 t = network.find? net t) → allCtl net1 := by
    intro net1 m outs hget hoth k n hk
    by_cases hki : k = i
    · subst hki
      have := get_of_find? net1 k n hk
      rw [hget] at this
      rw [← this]
      simp
    · rw [hoth k hki] at hk
      exact hall k n hk
  cases hf : findChan (network.get net i).outs j with
  | none =>
    obtain ⟨net2, h2, hget, hoth, hkeys⟩ := addOrDelChan_add net i j q hf hq
    exact ⟨net2, h2, key net2 _ _ hget hoth, hkeys⟩
  | some k =>
    obtain ⟨net2, h2, hget, hoth, hkeys⟩ := addOrDelChan_del net i j k q hf hq
    exact ⟨net2, h2, key net2 _ _ hget hoth, hkeys⟩

theorem addChans_returns (chans : List endpoints) :
    ∀ (net : network), allCtl net → (∀ c ∈ chans, c.src ∈ network.keys net) →
      ∃ net1, addChans net chans = some net1 := by
  induction chans with
  | nil => intro net _ _; exact ⟨net, rfl⟩
  | cons c rest ih =>
    intro net hall hsrc
    obtain ⟨net2, h2, hall2, hk2⟩ :=
      addOrDelChan_returns net c.src c.dst hall (hsrc c (List.mem_cons_self _ _))
    obtain ⟨net1, h1⟩ := ih net2 hall2 (fun e he => by
      rw [hk2]; exact hsrc e (List.mem_cons_of_mem _ he))
    exact ⟨net1, by rw [addChans, h2]; exact h1⟩

theorem addChans_sources (chans : List endpoints) :
    ∀ (net net1 : network), addChans net chans = some net1 →
      ∀ c ∈ chans, c.src ∈ network.keys net := by
  induction chans with
  | nil => intro net net1 _ c hc; cases hc
  | cons c rest ih =>
    intro net net1 h e he
    rw [addChans] at h
    cases h1 : network.addOrDelChan net c.src c.dst with
    | none => simp [h1] at h
    | some net2 =>
      rw [h1] at h
      simp only [Option.some_bind] at h
      obtain ⟨q, hq⟩ := addOrDelChan_ctl net net2 c.src c.dst h1
      obtain ⟨hk2, _, _⟩ := addOrDelChan_toggle net net2 c.src c.dst h1
      rcases List.mem_cons.1 he with rfl | he1
      · by_contra hn
        have := find?_eq_none_of_not_mem_keys net e.src hn
        have h0 : (network.get net e.src).ctl = none := by simp [network.get, this, zeroNode]
        rw [h0] at hq
        cases hq
      · rw [← hk2]
        exact ih net2 net1 h e he1
/-! ## Forward references -/

theorem addOrDelChan_handles (net net1 : network) (i j : nodeid)
    (h : network.addOrDelChan net i j = some net1) (hr : handlesResolved net) :
    handlesResolved net1 := by
  obtain ⟨q, hq⟩ := addOrDelChan_ctl net net1 i j h
  obtain ⟨_, hoth, hget⟩ := addOrDelChan_toggle net net1 i j h
  have hinp : ∀ t, (network.get net1 t).inp = (network.get net t).inp := by
    intro t
    by_cases ht : t = i
    · subst ht; rw [hget]
    · unfold network.get; rw [hoth t ht]
  have hctl : ∃ m, (network.get net1 i).ctl = some (q ++ [m]) ∧
      ∀ o, m = ctlmsg.ADD_DEST o → o.ch = (network.get net o.dst).inp := by
    cases hf : findChan (network.get net i).outs j with
    | none =>
      obtain ⟨net2, h2, hg, _, _⟩ := addOrDelChan_add net i j q hf hq
      rw [h] at h2
      cases h2
      refine ⟨_, by rw [hg], ?_⟩
      intro o ho
      cases ho
      rfl
    | some k =>
      obtain ⟨net2, h2, hg, _, _⟩ := addOrDelChan_del net i j k q hf hq
      rw [h] at h2
      cases h2
      refine ⟨_, by rw [hg], ?_⟩
      intro o ho
      cases ho
  obtain ⟨m, hm, hmo⟩ := hctl
  intro t q1 o hq1 ho
  rw [hinp]
  by_cases ht : t = i
  · subst ht
    rw [hm] at hq1
    cases hq1
    rcases List.mem_append.1 ho with h1 | h1
    · exact hr t q o hq h1
    · exact hmo o (List.mem_singleton.1 h1).symm
  · have : network.get net1 t = network.get net t := by
      unfold network.get; rw [hoth t ht]
    rw [this] at hq1
    exact hr t q1 o hq1 ho

theorem addChans_handles (chans : List endpoints) :
    ∀ (net net1 : network), addChans net chans = some net1 → handlesResolved net →
      handlesResolved net1 := by
  induction chans with
  | nil =>
    intro net net1 h hr
    simp only [addChans, Option.some.injEq] at h
    subst h
    exact hr
  | cons c rest ih =>
    intro net net1 h hr
    rw [addChans] at h
    cases h1 : network.addOrDelChan net c.src c.dst with
    | none => simp [h1] at h
    | some net2 =>
      rw [h1] at h
      exact ih net2 net1 h (addOrDelChan_handles net net2 c.src c.dst h1 hr)

theorem registerAll_handles (ds : List nodeDecl) (made : Nat) :
    handlesResolved (registerAll [] ds made) := by
  intro t q o hq ho
  exfalso
  cases hf : network.find? (registerAll [] ds made) t with
  | none =>
    simp [network.get, hf, zeroNode] at hq
  | some n =>
    rcases find?_registerAll ds [] made t n hf with h0 | ⟨d, p, _, _, hn⟩
    · simp [network.find?] at h0
    · rw [get_of_find? _ _ _ hf, hn] at hq
      simp only [declNode, Option.some.injEq] at hq
      subst hq
      cases hp : d.paused <;> simp [hp] at ho

/-- C15: the registry that `deserialize` returns depends only on the sequence
of node lines and on the sequence of channel lines. When `deserialize` accepts
`input1` and `input2` has the same node lines and the same channel lines, in
any interleaving, `deserialize` returns the same registry (with the same
control messages sent, hence the same channels with the same handles) and the
same id for `input2`; and every ADD_DEST message sent carries the data channel
that the returned registry holds for the destination, wherever the channel line
stood, the channels being added after the last node is created. -/
theorem C15_forward_references (input1 input2 : GoString) (made : Nat)
    (res : network × nodeid)
    (h1 : deserialize input1 made = .ok res)
    (hn : nodeLines input1 = nodeLines input2)
    (he : edgeLines input1 = edgeLines input2) :
    deserialize input2 made = .ok res ∧ handlesResolved res.1 := by
  rw [deserialize_eq] at h1
  rw [deserialize_eq]
  unfold nodeLines at hn
  unfold edgeLines at he
  cases hf1 : fileEntries input1 with
  | none => simp [hf1] at h1
  | some es1 =>
    cases hf2 : fileEntries input2 with
    | none => simp [hf1, hf2] at hn
    | some es2 =>
      simp only [hf1, hf2, Option.map_some', Option.some.injEq] at hn he h1 ⊢
      rw [← hn, ← he]
      refine ⟨h1, ?_⟩
      cases ha : addChans (registerAll [] (nodesOf es1) made) (chansOf es1) with
      | none => simp [ha] at h1
      | some net =>
        simp only [ha, Outcome.ok.injEq] at h1
        subst h1
        exact addChans_handles _ _ _ ha (registerAll_handles _ _)

theorem C15_forward_references_witness :
    deserialize edgeFirst 0 = .ok (edgeNet, 1) ∧
      nodeLines edgeFirst = nodeLines edgeLast ∧
      edgeLines edgeFirst = edgeLines edgeLast ∧
      (deserialize edgeLast 0 = .ok (edgeNet, 1) ∧ handlesResolved (edgeNet, (1 : nodeid)).1) :=
  ⟨by decide, by decide, by decide,
    C15_forward_references edgeFirst edgeLast 0 (edgeNet, 1) (by decide) (by decide)
      (by decide)⟩

/-! ## The id that `deserialize` returns -/

theorem le_maxId (ds : List nodeDecl) : ∀ m : nodeid, m ≤ maxId m ds := by
  induction ds with
  | nil => intro m; exact le_refl _
  | cons d rest ih => intro m; rw [maxId]; exact le_trans (le_max_left _ _) (ih _)

theorem id_le_maxId (ds : List nodeDecl) :
    ∀ (m : nodeid) (d : nodeDecl), d ∈ ds → d.id ≤ maxId m ds := by
  induction ds with
  | nil => intro m d h; cases h
  | cons e rest ih =>
    intro m d h
    rw [maxId]
    rcases List.mem_cons.1 h with rfl | h1
    · exact le_trans (le_max_right _ _) (le_maxId rest _)
    · exact ih _ d h1

theorem maxId_mem (ds : List nodeDecl) :
    ∀ m : nodeid, maxId m ds = m ∨ maxId m ds ∈ ds.map (fun d => d.id) := by
  induction ds with
  | nil => intro m; exact Or.inl rfl
  | cons e rest ih =>
    intro m
    rw [maxId]
    rcases ih (max m e.id) with h | h
    · rw [h]
      rcases max_choice m e.id with hm | hm
      · exact Or.inl hm
      · right; rw [hm]; simp
    · right
      simp only [List.map_cons, List.mem_cons]
      exact Or.inr h

/-- What an accepted file gives: its entries, the registry and the id. -/
theorem deserialize_ok (input : GoString) (made : Nat) (net : network) (maxid : nodeid)
    (h : deserialize input made = .ok (net, maxid)) :
    ∃ es, fileEntries input = some es ∧
      addChans (registerAll [] (nodesOf es) made) (chansOf es) = some net ∧
      maxid = maxId 0 (nodesOf es) := by
  rw [deserialize_eq] at h
  cases hf : fileEntries input with
  | none => simp [hf] at h
  | some es =>
    simp only [hf] at h
    cases ha : addChans (registerAll [] (nodesOf es) made) (chansOf es) with
    | none => simp [ha] at h
    | some net1 =>
      simp only [ha, Outcome.ok.injEq, Prod.mk.injEq] at h
      exact ⟨es, rfl, by rw [ha, h.1], h.2.symm⟩

theorem mem_keys_deserialize (input : GoString) (made : Nat) (net : network)
    (maxid : nodeid) (es : List Entry) (hf : fileEntries input = some es)
    (h : deserialize input made = .ok (net, maxid)) (k : nodeid) :
    k ∈ network.keys net ↔ k ∈ (nodesOf es).map (fun d => d.id) := by
  obtain ⟨es1, hf1, ha, _⟩ := deserialize_ok input made net maxid h
  rw [hf] at hf1
  cases hf1
  rw [(addChans_toggle _ _ _ ha).1, mem_keys_registerAll]
  simp [network.keys]

/-- C16: for the file `negativeId`, whose only node has the id -5,
`deserialize` returns a registry whose only key is -5 together with the id 0:
the id returned is not the maximum node id that the registry contains, which
is -5. -/
theorem C16_max_id_not_maximum :
    deserialize negativeId 0 =
        .ok ([(-5, declNode ⟨-5, bytes "a", bytes "hi", 0, 0, false, 0, 0⟩ 0)], 0) ∧
      network.keys [(-5, declNode ⟨-5, bytes "a", bytes "hi", 0, 0, false, 0, 0⟩ 0)] = [-5] ∧
      (0 : nodeid) ∉ network.keys
        [(-5, declNode ⟨-5, bytes "a", bytes "hi", 0, 0, false, 0, 0⟩ 0)] ∧
      (-5 : nodeid) < 0 := by
  refine ⟨by decide, by decide, by decide, by decide⟩

/-- For the file whose only node has the id 9223372036854775807 the load
handler sets `nextNodeId` to -9223372036854775808. -/
theorem loadHandler_wraps :
    loadHandler { net := [], nextNodeId := 0 } topId [] 0 =
      some { net := [(9223372036854775807,
               declNode ⟨9223372036854775807, bytes "a", bytes "hi", 0, 0, false, 0, 0⟩ 0)],
             nextNodeId := -9223372036854775808 } := by
  decide

/-- What the code computes: for every input that `deserialize` accepts, the
id returned is the greatest of 0 and the keys of the returned registry. When it
is below 9223372036854775807, a load handler that returns installs the registry
with `nextNodeId = maxid + 1`, greater than every key of the loaded
registry. -/
theorem maxid_of_deserialize (input : GoString) (made : Nat) (net : network) (maxid : nodeid)
    (h : deserialize input made = .ok (net, maxid)) :
    0 ≤ maxid ∧ (∀ k ∈ network.keys net, k ≤ maxid) ∧
      (maxid = 0 ∨ maxid ∈ network.keys net) ∧
      (maxid < 2 ^ 63 - 1 → ∀ (g g1 : Game) (stopChan : List nodeid),
        loadHandler g input stopChan made = some g1 →
          g1.net = net ∧ g1.nextNodeId = maxid + 1 ∧
            ∀ k ∈ network.keys g1.net, k < g1.nextNodeId) := by
  obtain ⟨es, hf, ha, hm⟩ := deserialize_ok input made net maxid h
  have hkeys := mem_keys_deserialize input made net maxid es hf h
  have h0 : 0 ≤ maxid := by rw [hm]; exact le_maxId _ _
  have hle : ∀ k ∈ network.keys net, k ≤ maxid := by
    intro k hk
    obtain ⟨d, hd, rfl⟩ := List.mem_map.1 ((hkeys k).1 hk)
    rw [hm]
    exact id_le_maxId _ _ d hd
  refine ⟨h0, hle, ?_, ?_⟩
  · rcases maxId_mem (nodesOf es) 0 with h1 | h1
    · left; rw [hm]; exact h1
    · right; rw [hkeys, hm]; exact h1
  · intro hlt g g1 stopChan hl
    unfold loadHandler at hl
    cases hs : network.stopAllAndWait g.net stopChan with
    | none => simp [hs] at hl
    | some p =>
      simp only [hs, h, Option.some.injEq] at hl
      subst hl
      have hw : wrap64 (maxid + 1) = maxid + 1 :=
        wrap64_of_range (maxid + 1) (by linarith) (by linarith)
      refine ⟨rfl, hw, ?_⟩
      intro k hk
      show k < wrap64 (maxid + 1)
      rw [hw]
      exact lt_of_le_of_lt (hle k hk) (lt_add_one _)

/-! ## The relay mode of a loaded node -/

/-- An entry of the registry after the node lines `ds` was there before and no
line has its id, or it is the entry of the last line with its id. -/
theorem find?_registerAll_last (ds : List nodeDecl) :
    ∀ (net : network) (made : Nat) (k : nodeid) (n : node),
      network.find? (registerAll net ds made) k = some n →
        (network.find? net k = some n ∧ ∀ e ∈ ds, e.id ≠ k) ∨
        ∃ pre d post, ds = pre ++ d :: post ∧ d.id = k ∧ (∀ e ∈ post, e.id ≠ k) ∧
          n = declNode d (made + pre.length) := by
  induction ds with
  | nil => intro net made k n h; exact Or.inl ⟨h, fun e he => by cases he⟩
  | cons d rest ih =>
    intro net made k n h
    rw [registerAll] at h
    rcases ih _ _ _ _ h with ⟨h1, hno⟩ | ⟨pre, e, post, hds, hk, hpost, hn⟩
    · rw [find?_set] at h1
      by_cases hkd : k = d.id
      · rw [if_pos hkd] at h1
        right
        exact ⟨[], d, rest, rfl, hkd.symm, hno, by simpa using (Option.some.inj h1).symm⟩
      · rw [if_neg hkd] at h1
        left
        refine ⟨h1, fun e he => ?_⟩
        rcases List.mem_cons.1 he with rfl | he1
        · exact fun hh => hkd hh.symm
        · exact hno e he1
    · right
      refine ⟨d :: pre, e, post, by rw [hds]; rfl, hk, hpost, ?_⟩
      rw [hn, List.length_cons]
      congr 1
      omega

/-- C19 (counterexample): the file whose node lines have 7 and -1 in the
relay mode field is accepted, and the nodes of the returned registry have the
relay modes 7 and -1. -/
theorem C19_relay_mode_not_validated :
    deserialize oddModes 0 =
        .ok ([(0, declNode ⟨0, bytes "a", bytes "hi", 0, 7, false, 0, 0⟩ 0),
              (1, declNode ⟨1, bytes "b", bytes "yo", 0, -1, false, 5, 5⟩ 1)], 1) ∧
      (declNode ⟨0, bytes "a", bytes "hi", 0, 7, false, 0, 0⟩ 0).relayMode = 7 ∧
      (declNode ⟨1, bytes "b", bytes "yo", 0, -1, false, 5, 5⟩ 1).relayMode = -1 := by
  refine ⟨by decide, rfl, rfl⟩

/-- C19 (amended): for every input that `deserialize` accepts, every node of
the returned registry has the relay mode that the last node line with its id
gives in its relay mode field, whatever integer that is. -/
theorem C19_relay_mode_as_written (input : GoString) (made : Nat) (net : network)
    (maxid : nodeid) (ds : List nodeDecl)
    (h : deserialize input made = .ok (net, maxid))
    (hl : nodeLines input = some ds) :
    ∀ k ∈ network.keys net, ∃ pre d post, ds = pre ++ d :: post ∧ d.id = k ∧
      (∀ e ∈ post, e.id ≠ k) ∧ (network.get net k).relayMode = d.relayMode := by
  obtain ⟨es, hf, ha, _⟩ := deserialize_ok input made net maxid h
  unfold nodeLines at hl
  simp only [hf, Option.map_some', Option.some.injEq] at hl
  subst hl
  obtain ⟨hkeys, hget⟩ := addChans_toggle _ _ _ ha
  intro k hk
  rw [hkeys] at hk
  have hfind := find?_of_mem_keys _ k hk
  rcases find?_registerAll_last _ _ _ _ _ hfind with ⟨h0, _⟩ | ⟨pre, d, post, hds, hid, hpost, hn⟩
  · simp [network.find?] at h0
  · refine ⟨pre, d, post, hds, hid, hpost, ?_⟩
    rw [hget k]
    show (network.get (registerAll [] (nodesOf es) made) k).relayMode = d.relayMode
    rw [hn]
    rfl

theorem C19_relay_mode_as_written_witness :
    deserialize oddModes 0 =
        .ok ([(0, declNode ⟨0, bytes "a", bytes "hi", 0, 7, false, 0, 0⟩ 0),
              (1, declNode ⟨1, bytes "b", bytes "yo", 0, -1, false, 5, 5⟩ 1)], 1) ∧
      nodeLines oddModes =
        some [⟨0, bytes "a", bytes "hi", 0, 7, false, 0, 0⟩,
              ⟨1, bytes "b", bytes "yo", 0, -1, false, 5, 5⟩] ∧
      ∀ k ∈ network.keys
          [(0, declNode ⟨0, bytes "a", bytes "hi", 0, 7, false, 0, 0⟩ 0),
           (1, declNode ⟨1, bytes "b", bytes "yo", 0, -1, false, 5, 5⟩ 1)],
        ∃ pre d post,
          [(⟨0, bytes "a", bytes "hi", 0, 7, false, 0, 0⟩ : nodeDecl),
            ⟨1, bytes "b", bytes "yo", 0, -1, false, 5, 5⟩] = pre ++ d :: post ∧ d.id = k ∧
          (∀ e ∈ post, e.id ≠ k) ∧
          (network.get
            [(0, declNode ⟨0, bytes "a", bytes "hi", 0, 7, false, 0, 0⟩ 0),
             (1, declNode ⟨1, bytes "b", bytes "yo", 0, -1, false, 5, 5⟩ 1)] k).relayMode =
            d.relayMode :=
  ⟨by decide, by decide,
    C19_relay_mode_as_written oddModes 0 _ 1 _ (by decide) (by decide)⟩

/-! ## Repeated channel lines -/

theorem mem_oddLast (all : List nodeid) (l : List nodeid) (x : nodeid) :
    x ∈ oddLast all l ↔ x ∈ l ∧ all.count x % 2 = 1 := by
  induction l with
  | nil => simp [oddLast]
  | cons d rest ih =>
    rw [oddLast]
    by_cases hc : d ∉ rest ∧ all.count d % 2 = 1
    · rw [if_pos hc, List.mem_cons, ih, List.mem_cons]
      constructor
      · rintro (rfl | ⟨h1, h2⟩)
        · exact ⟨Or.inl rfl, hc.2⟩
        · exact ⟨Or.inr h1, h2⟩
      · rintro ⟨rfl | h1, h2⟩
        · exact Or.inl rfl
        · exact Or.inr ⟨h1, h2⟩
    · rw [if_neg hc, ih, List.mem_cons]
      constructor
      · rintro ⟨h1, h2⟩
        exact ⟨Or.inr h1, h2⟩
      · rintro ⟨rfl | h1, h2⟩
        · have : x ∈ rest := by
            by_contra hn
            exact hc ⟨hn, h2⟩
          exact ⟨this, h2⟩
        · exact ⟨h1, h2⟩

theorem nodup_oddLast (all : List nodeid) (l : List nodeid) : (oddLast all l).Nodup := by
  induction l with
  | nil => simp [oddLast]
  | cons d rest ih =>
    rw [oddLast]
    by_cases hc : d ∉ rest ∧ all.count d % 2 = 1
    · rw [if_pos hc]
      refine List.nodup_cons.2 ⟨fun h => hc.1 ((mem_oddLast all rest d).1 h).1, ih⟩
    · rw [if_neg hc]
      exact ih

theorem oddLast_snoc (all : List nodeid) (d : nodeid) (l : List nodeid) :
    oddLast (all ++ [d]) (l ++ [d]) =
      (oddLast all l).filter (fun x => !decide (x = d)) ++
        (if (all ++ [d]).count d % 2 = 1 then [d] else []) := by
  induction l with
  | nil => simp [oddLast]
  | cons x rest ih =>
    rw [List.cons_append, oddLast, ih]
    by_cases hx : x = d
    · subst hx
      rw [if_neg (by simp)]
      rw [oddLast]
      by_cases hc : x ∉ rest ∧ all.count x % 2 = 1
      · rw [if_pos hc]; simp
      · rw [if_neg hc]
    · have hcount : (all ++ [d]).count x = all.count x := by
        rw [List.count_append]
        simp [List.count_cons, hx, Ne.symm hx]
      rw [oddLast, hcount]
      have hmem : x ∉ rest ++ [d] ↔ x ∉ rest := by simp [hx]
      by_cases hc : x ∉ rest ∧ all.count x % 2 = 1
      · rw [if_pos hc, if_pos ⟨hmem.2 hc.1, hc.2⟩]
        simp [hx]
      · rw [if_neg hc, if_neg (fun h => hc ⟨hmem.1 h.1, h.2⟩)]

theorem toggleChan_some (outs : List chaninfo) (j : nodeid) (k : Nat)
    (h : findChan outs j = some k) : toggleChan outs j = outs.eraseIdx k := by
  simp [toggleChan, h]

theorem toggleChan_none (outs : List chaninfo) (j : nodeid)
    (h : findChan outs j = none) :
    toggleChan outs j = outs ++ [{ dst := j, usage := 0 }] := by
  simp [toggleChan, h]

/-- The toggles of the destinations `ds`, one after the other from the empty
list, leave the destinations with an odd number of occurrences, in the order of
their last occurrences, each with usage 0. -/
theorem foldl_toggleChan (ds : List nodeid) :
    (ds.foldl toggleChan []).map (fun c => c.dst) = oddLast ds ds ∧
      ∀ c ∈ ds.foldl toggleChan [], c.usage = 0 := by
  induction ds using List.reverseRecOn with
  | nil => simp [oddLast]
  | append_singleton ds d ih =>
    obtain ⟨hmap, huse⟩ := ih
    rw [List.foldl_append, List.foldl_cons, List.foldl_nil, oddLast_snoc]
    have hnd : ((ds.foldl toggleChan []).map (fun c => c.dst)).Nodup := by
      rw [hmap]; exact nodup_oddLast _ _
    cases hf : findChan (ds.foldl toggleChan []) d with
    | some k =>
      have hmem : d ∈ oddLast ds ds := by
        rw [← hmap]
        by_contra hn
        rw [findChan_none_of_not_mem _ _ hn] at hf
        cases hf
      have hodd := ((mem_oddLast ds ds d).1 hmem).2
      have hev : ¬ (ds ++ [d]).count d % 2 = 1 := by
        rw [List.count_append]
        simp only [List.count_cons_self, List.count_nil]
        omega
      rw [toggleChan_some _ _ k hf, if_neg hev, List.append_nil,
        eraseIdx_findChan _ _ k hf hnd, hmap]
      exact ⟨rfl, fun c hc => huse c (List.mem_of_mem_eraseIdx hc)⟩
    | none =>
      have hnm : d ∉ oddLast ds ds := by
        rw [← hmap]; exact findChan_none_not_mem _ _ hf
      have hodd : (ds ++ [d]).count d % 2 = 1 := by
        rw [List.count_append]
        simp only [List.count_cons_self, List.count_nil]
        have : ¬ (d ∈ ds ∧ ds.count d % 2 = 1) := fun h => hnm ((mem_oddLast ds ds d).2 h)
        by_cases hd : d ∈ ds
        · have : ¬ ds.count d % 2 = 1 := fun h => this ⟨hd, h⟩
          omega
        · rw [List.count_eq_zero_of_not_mem hd]
      rw [toggleChan_none _ _ hf, if_pos hodd, List.map_append, hmap]
      refine ⟨?_, ?_⟩
      · congr 1
        symm
        rw [List.filter_eq_self]
        intro x hx
        have : x ≠ d := fun e => hnm (e ▸ hx)
        simpa using this
      · intro c hc
        rcases List.mem_append.1 hc with h1 | h1
        · exact huse c h1
        · rw [List.mem_singleton.1 h1]

theorem count_chansFrom (chans : List endpoints) (s d : nodeid) :
    (chansFrom chans s).count d = chans.count { src := s, dst := d } := by
  induction chans with
  | nil => rfl
  | cons c rest ih =>
    obtain ⟨cs, cd⟩ := c
    rw [chansFrom, List.count_cons, ← ih]
    by_cases hs : cs = s
    · rw [if_pos hs, List.count_cons]
      by_cases hd : cd = d
      · simp [hs, hd]
      · simp [hs, hd]
    · rw [if_neg hs]
      simp [hs]

theorem outs_registerAll (ds : List nodeDecl) (made : Nat) (s : nodeid) :
    (network.get (registerAll [] ds made) s).outs = [] := by
  cases hf : network.find? (registerAll [] ds made) s with
  | none => simp [network.get, hf, zeroNode]
  | some n =>
    rcases find?_registerAll ds [] made s n hf with h0 | ⟨d, p, _, _, hn⟩
    · simp [network.find?] at h0
    · rw [get_of_find? _ _ _ hf, hn]
      rfl

/-- C20: for every input that `deserialize` accepts, the channels of a node
`s` of the returned registry go to the destinations `d` whose line `s -> d`
occurs an odd number of times in the input, each once, in the order of the last
occurrences of these lines, and with usage 0. -/
theorem C20_repeated_edges_toggle (input : GoString) (made : Nat) (net : network)
    (maxid : nodeid) (chans : List endpoints)
    (h : deserialize input made = .ok (net, maxid))
    (he : edgeLines input = some chans) (s : nodeid) :
    (∀ d, d ∈ (network.get net s).outs.map (fun c => c.dst) ↔
        chans.count { src := s, dst := d } % 2 = 1) ∧
      (network.get net s).outs.map (fun c => c.dst) =
        oddLast (chansFrom chans s) (chansFrom chans s) ∧
      ((network.get net s).outs.map (fun c => c.dst)).Nodup ∧
      ∀ c ∈ (network.get net s).outs, c.usage = 0 := by
  obtain ⟨es, hf, ha, _⟩ := deserialize_ok input made net maxid h
  unfold edgeLines at he
  simp only [hf, Option.map_some', Option.some.injEq] at he
  subst he
  obtain ⟨_, hget⟩ := addChans_toggle _ _ _ ha
  have houts : (network.get net s).outs = (chansFrom (chansOf es) s).foldl toggleChan [] := by
    rw [hget s]
    show List.foldl toggleChan (network.get (registerAll [] (nodesOf es) made) s).outs _ = _
    rw [outs_registerAll]
  obtain ⟨hmap, huse⟩ := foldl_toggleChan (chansFrom (chansOf es) s)
  rw [houts]
  refine ⟨fun d => ?_, hmap, by rw [hmap]; exact nodup_oddLast _ _, huse⟩
  rw [hmap, mem_oddLast, count_chansFrom]
  constructor
  · exact fun hh => hh.2
  · intro hodd
    refine ⟨?_, hodd⟩
    by_contra hn
    rw [← count_chansFrom, List.count_eq_zero_of_not_mem hn] at hodd
    omega
theorem C20_repeated_edges_toggle_witness :
    deserialize toggled 0 = .ok (toggledNet, 1) ∧
      edgeLines toggled = some [⟨0, 1⟩, ⟨0, 0⟩, ⟨0, 1⟩, ⟨0, 1⟩, ⟨1, 0⟩, ⟨1, 0⟩] ∧
      (network.get toggledNet 0).outs = [⟨0, 0⟩, ⟨1, 0⟩] ∧
      (network.get toggledNet 1).outs = [] ∧
      ((∀ d, d ∈ (network.get toggledNet 0).outs.map (fun c => c.dst) ↔
          List.count ({ src := 0, dst := d } : endpoints)
            [⟨0, 1⟩, ⟨0, 0⟩, ⟨0, 1⟩, ⟨0, 1⟩, ⟨1, 0⟩, ⟨1, 0⟩] % 2 = 1) ∧
        (network.get toggledNet 0).outs.map (fun c => c.dst) =
          oddLast (chansFrom [⟨0, 1⟩, ⟨0, 0⟩, ⟨0, 1⟩, ⟨0, 1⟩, ⟨1, 0⟩, ⟨1, 0⟩] 0)
            (chansFrom [⟨0, 1⟩, ⟨0, 0⟩, ⟨0, 1⟩, ⟨0, 1⟩, ⟨1, 0⟩, ⟨1, 0⟩] 0) ∧
        ((network.get toggledNet 0).outs.map (fun c => c.dst)).Nodup ∧
        ∀ c ∈ (network.get toggledNet 0).outs, c.usage = 0) :=
  ⟨by decide, by decide, by decide, by decide,
    C20_repeated_edges_toggle toggled 0 toggledNet 1 _ (by decide) (by decide) 0⟩

/-! ## The files that the parser rejects, and malformed files that it accepts -/

theorem parseNode_of_bad (r : Reader) (id : nodeid) (h : BadNode r) :
    parseNode r id = none := by
  unfold parseNode
  cases h with
  | label h1 => simp only [h1]
  | name r1 v1 h1 h2 =>
    simp only [h1]
    rcases hq : scanQuoted r1 with ⟨s, b, r2⟩
    rw [hq] at h2
    simp only at h2
    subst h2
    rfl
  | separator r1 v1 h1 h2 h3 =>
    simp only [h1]
    rcases hq : scanQuoted r1 with ⟨s, b, r2⟩
    rw [hq] at h2 h3
    simp only at h2 h3
    subst h2
    simp only [h3]
  | sendText r1 r3 v1 v2 h1 h2 h3 h4 =>
    simp only [h1]
    rcases hq : scanQuoted r1 with ⟨s, b, r2⟩
    rw [hq] at h2 h3
    simp only at h2 h3
    subst h2
    simp only [h3]
    rcases hq2 : scanQuoted r3 with ⟨s2, b2, r4⟩
    rw [hq2] at h4
    simp only at h4
    subst h4
    rfl
  | fields r1 r3 v1 v2 h1 h2 h3 h4 h5 =>
    simp only [h1]
    rcases hq : scanQuoted r1 with ⟨s, b, r2⟩
    rw [hq] at h2 h3
    simp only at h2 h3
    subst h2
    simp only [h3]
    rcases hq2 : scanQuoted r3 with ⟨s2, b2, r4⟩
    rw [hq2] at h4 h5
    simp only at h4 h5
    subst h4
    simp only [h5]

theorem Fscanf_id_eof : Fscanf [] "%d " = none := by decide

theorem peek_nil (c : Nat) : peek [] c = false := rfl

theorem parseEntries_of_bad (r : Reader) (h : BadEntries r) :
    ∀ fuel, parseEntries fuel r = none := by
  induction h with
  | eof r h0 =>
    intro fuel
    cases fuel with
    | zero => rfl
    | succ fuel => simp only [parseEntries, h0, peek_nil, Fscanf_id_eof, Bool.false_eq_true, ↓reduceIte]
  | noId r hc hf =>
    intro fuel
    cases fuel with
    | zero => rfl
    | succ fuel => simp only [parseEntries, hc, hf, Bool.false_eq_true, ↓reduceIte]
  | kind r r1 id hc hf hp hm =>
    intro fuel
    cases fuel with
    | zero => rfl
    | succ fuel => simp only [parseEntries, hc, hf, hp, hm, Bool.false_eq_true, ↓reduceIte]
  | node r r1 id hc hf hp hb =>
    intro fuel
    cases fuel with
    | zero => rfl
    | succ fuel =>
      simp only [parseEntries, hc, hf, hp, parseNode_of_bad r1 id hb, Bool.false_eq_true,
        ↓reduceIte]
  | chan r r1 id hc hf hp hm hd =>
    intro fuel
    cases fuel with
    | zero => rfl
    | succ fuel =>
      simp only [parseEntries, hc, hf, hp, hm, hd, Bool.false_eq_true, ↓reduceIte]
  | afterNode r r1 r2 id d hc hf hp hn _ ih =>
    intro fuel
    cases fuel with
    | zero => rfl
    | succ fuel =>
      simp only [parseEntries, hc, hf, hp, hn, ih fuel, Bool.false_eq_true, ↓reduceIte,
        Option.map_none']
  | afterChan r r1 r2 id dst hc hf hp hm hd _ ih =>
    intro fuel
    cases fuel with
    | zero => rfl
    | succ fuel =>
      simp only [parseEntries, hc, hf, hp, hm, hd, ih fuel, Bool.false_eq_true, ↓reduceIte,
        Option.map_none']

/-- C14: `deserialize` accepts the file `badEscape`, whose node line has the
name `"\q"` with an invalid escape sequence, and returns a registry whose node
0 is named `q`; it accepts the file `badBool`, whose node line has `x` in the
paused field, and returns a registry whose node 0 is not paused. Neither
malformed entry makes it return the nil network. -/
theorem C14_malformed_entries_accepted :
    deserialize badEscape 0 =
        .ok ([(0, declNode ⟨0, bytes "q", bytes "hi", 0, 0, false, 0, 0⟩ 0)], 0) ∧
      deserialize badBool 0 =
        .ok ([(0, declNode ⟨0, bytes "a", bytes "hi", 0, 0, false, 0, 0⟩ 0)], 0) := by
  constructor <;> decide

/-! ## Decoding what was encoded -/

theorem decodeRune_encodeRune (r : Nat) (rest : List Nat) (h : ValidRune r = true) :
    decodeRune (encodeRune r ++ rest) = some (r, rest) := by
  simp only [ValidRune, Bool.or_eq_true, Bool.and_eq_true, decide_eq_true_eq] at h
  unfold encodeRune
  by_cases h1 : r < 0x80
  · simp [h1, decodeRune]
  · rw [if_neg h1]
    by_cases h2 : r < 0x800
    · rw [if_pos h2]
      have a1 : ¬ (0xC0 + r / 64 < 0x80) := by omega
      have a2 : inRange 0xC2 0xDF (0xC0 + r / 64) = true := by
        simp only [inRange, Bool.and_eq_true, decide_eq_true_eq]; omega
      have a3 : inRange 0x80 0xBF (0x80 + r % 64) = true := by
        simp only [inRange, Bool.and_eq_true, decide_eq_true_eq]; omega
      simp only [List.cons_append, List.nil_append, decodeRune, if_neg a1, a2, a3, if_true]
      congr 2
      omega
    · rw [if_neg h2]
      have h3 : ¬ (0xD800 ≤ r ∧ r < 0xE000) := by omega
      rw [if_neg h3]
      by_cases h4 : r < 0x10000
      · rw [if_pos h4]
        have a1 : ¬ (0xE0 + r / 4096 < 0x80) := by omega
        have a2 : inRange 0xC2 0xDF (0xE0 + r / 4096) = false := by
          simp only [inRange, Bool.and_eq_false_iff, decide_eq_false_iff_not]; omega
        have a3 : inRange 0xE0 0xEF (0xE0 + r / 4096) = true := by
          simp only [inRange, Bool.and_eq_true, decide_eq_true_eq]; omega
        have a4 : inRange (if 0xE0 + r / 4096 = 0xE0 then 0xA0 else 0x80)
            (if 0xE0 + r / 4096 = 0xED then 0x9F else 0xBF) (0x80 + r / 64 % 64) = true := by
          simp only [inRange, Bool.and_eq_true, decide_eq_true_eq]
          split <;> split <;> omega
        have a5 : inRange 0x80 0xBF (0x80 + r % 64) = true := by
          simp only [inRange, Bool.and_eq_true, decide_eq_true_eq]; omega
        simp only [List.cons_append, List.nil_append, decodeRune, if_neg a1, a2, a3, a4, a5,
          if_true, Bool.and_self, Bool.false_eq_true, if_false]
        congr 2
        omega
      · rw [if_neg h4]
        have h5 : r < 0x110000 := by omega
        rw [if_pos h5]
        have a1 : ¬ (0xF0 + r / 262144 < 0x80) := by omega
        have a2 : inRange 0xC2 0xDF (0xF0 + r / 262144) = false := by
          simp only [inRange, Bool.and_eq_false_iff, decide_eq_false_iff_not]; omega
        have a3 : inRange 0xE0 0xEF (0xF0 + r / 262144) = false := by
          simp only [inRange, Bool.and_eq_false_iff, decide_eq_false_iff_not]; omega
        have a3' : inRange 0xF0 0xF4 (0xF0 + r / 262144) = true := by
          simp only [inRange, Bool.and_eq_true, decide_eq_true_eq]; omega
        have a4 : inRange (if 0xF0 + r / 262144 = 0xF0 then 0x90 else 0x80)
            (if 0xF0 + r / 262144 = 0xF4 then 0x8F else 0xBF) (0x80 + r / 4096 % 64) = true := by
          simp only [inRange, Bool.and_eq_true, decide_eq_true_eq]
          split <;> split <;> omega
        have a5 : inRange 0x80 0xBF (0x80 + r / 64 % 64) = true := by
          simp only [inRange, Bool.and_eq_true, decide_eq_true_eq]; omega
        have a6 : inRange 0x80 0xBF (0x80 + r % 64) = true := by
          simp only [inRange, Bool.and_eq_true, decide_eq_true_eq]; omega
        simp only [List.cons_append, List.nil_append, decodeRune, if_neg a1, a2, a3, a3', a4, a5,
          a6, if_true, Bool.and_self, Bool.false_eq_true, if_false]
        congr 2
        omega

theorem Fscanf_id_eq (r : Reader) :
    Fscanf r "%d " =
      (scanVerb (rune 'd') r).bind (fun p =>
        (advanceSpaces 0 true p.2).bind (fun r1 => some ([] ++ p.1.toList, r1))) := by
  rfl

theorem Fscanf_label_eq (r : Reader) :
    Fscanf r "[label=" =
      (matchLiteral (rune '[') r).bind (fun r =>
      (matchLiteral (rune 'l') r).bind (fun r =>
      (matchLiteral (rune 'a') r).bind (fun r =>
      (matchLiteral (rune 'b') r).bind (fun r =>
      (matchLiteral (rune 'e') r).bind (fun r =>
      (matchLiteral (rune 'l') r).bind (fun r =>
      (matchLiteral (rune '=') r).bind (fun r => some ([], r)))))))) := by
  rfl

theorem Fscanf_fields_eq (r : Reader) :
    Fscanf r "%d %d %t %d %d" =
      (scanVerb (rune 'd') r).bind (fun p1 =>
      (advanceSpaces 0 true p1.2).bind (fun r1 =>
      (scanVerb (rune 'd') r1).bind (fun p2 =>
      (advanceSpaces 0 true p2.2).bind (fun r2 =>
      (scanVerb (rune 't') r2).bind (fun p3 =>
      (advanceSpaces 0 true p3.2).bind (fun r3 =>
      (scanVerb (rune 'd') r3).bind (fun p4 =>
      (advanceSpaces 0 true p4.2).bind (fun r4 =>
      (scanVerb (rune 'd') r4).bind (fun p5 =>
        some ((((([] ++ p1.1.toList) ++ p2.1.toList) ++ p3.1.toList) ++ p4.1.toList) ++ p5.1.toList,
          p5.2)))))))))) := by
  rfl

theorem Fscanf_sep_eq (r : Reader) :
    Fscanf r "] // " =
      (matchLiteral (rune ']') r).bind (fun r =>
      (advanceSpaces 0 true r).bind (fun r =>
      (matchLiteral (rune '/') r).bind (fun r =>
      (matchLiteral (rune '/') r).bind (fun r =>
      (advanceSpaces 0 true r).bind (fun r => some ([], r)))))) := by
  rfl

theorem Fscanf_chan_eq (r : Reader) :
    Fscanf r "-> %d" =
      (matchLiteral (rune '-') r).bind (fun r =>
      (matchLiteral (rune '>') r).bind (fun r =>
      (advanceSpaces 0 true r).bind (fun r =>
      (scanVerb (rune 'd') r).bind (fun p => some ([] ++ p.1.toList, p.2))))) := by
  rfl

theorem Fscanf_header_eq (r : Reader) :
    Fscanf r "digraph network \x7b\n" =
      (matchLiteral (rune 'd') r).bind (fun r =>
      (matchLiteral (rune 'i') r).bind (fun r =>
      (matchLiteral (rune 'g') r).bind (fun r =>
      (matchLiteral (rune 'r') r).bind (fun r =>
      (matchLiteral (rune 'a') r).bind (fun r =>
      (matchLiteral (rune 'p') r).bind (fun r =>
      (matchLiteral (rune 'h') r).bind (fun r =>
      (advanceSpaces 0 true r).bind (fun r =>
      (matchLiteral (rune 'n') r).bind (fun r =>
      (matchLiteral (rune 'e') r).bind (fun r =>
      (matchLiteral (rune 't') r).bind (fun r =>
      (matchLiteral (rune 'w') r).bind (fun r =>
      (matchLiteral (rune 'o') r).bind (fun r =>
      (matchLiteral (rune 'r') r).bind (fun r =>
      (matchLiteral (rune 'k') r).bind (fun r =>
      (advanceSpaces 0 true r).bind (fun r =>
      (matchLiteral (rune '\x7b') r).bind (fun r =>
      (advanceSpaces 1 false r).bind (fun r => some ([], r))))))))))))))))))) := by
  rfl

theorem encodeRune_ascii (b : Nat) (h : b < 128) : encodeRune b = [b] := by
  simp [encodeRune, h]

theorem ValidRune_ascii (b : Nat) (h : b < 128) : ValidRune b = true := by
  simp only [ValidRune, Bool.or_eq_true, Bool.and_eq_true, decide_eq_true_eq]
  omega

theorem encodeRune_length (r : Nat) : 1 ≤ (encodeRune r).length := by
  unfold encodeRune
  repeat' split
  all_goals simp

theorem NewReader_nil : NewReader [] = [] := rfl

theorem NewReader_encodeRune (r : Nat) (rest : List Nat) (h : ValidRune r = true) :
    NewReader (encodeRune r ++ rest) = r :: NewReader rest := by
  unfold NewReader
  have hl := encodeRune_length r
  obtain ⟨m, hm⟩ : ∃ m, (encodeRune r ++ rest).length = m + 1 :=
    ⟨(encodeRune r ++ rest).length - 1, by rw [List.length_append]; omega⟩
  rw [hm, decodeRunes, decodeRune_encodeRune r rest h]
  simp only
  have hle : rest.length ≤ m := by
    rw [List.length_append] at hm; omega
  obtain ⟨k, hk⟩ : ∃ k, m = rest.length + k := ⟨m - rest.length, by omega⟩
  rw [hk, decodeRunes_fuel rest.length rest k (le_refl _)]

theorem NewReader_cons_ascii (b : Nat) (rest : List Nat) (h : b < 128) :
    NewReader (b :: rest) = b :: NewReader rest := by
  have := NewReader_encodeRune b rest (ValidRune_ascii b h)
  rwa [encodeRune_ascii b h] at this

theorem NewReader_append_ascii (a rest : List Nat) (h : ∀ b ∈ a, b < 128) :
    NewReader (a ++ rest) = a ++ NewReader rest := by
  induction a with
  | nil => rfl
  | cons b t ih =>
    rw [List.cons_append, NewReader_cons_ascii _ _ (h b (List.mem_cons_self _ _)),
      ih (fun c hc => h c (List.mem_cons_of_mem _ hc)), List.cons_append]

theorem NewReader_append_valid (rs : List Nat) (rest : List Nat)
    (h : ∀ r ∈ rs, ValidRune r = true) :
    NewReader (rs.flatMap encodeRune ++ rest) = rs ++ NewReader rest := by
  induction rs with
  | nil => rfl
  | cons r t ih =>
    rw [List.flatMap_cons, List.append_assoc,
      NewReader_encodeRune _ _ (h r (List.mem_cons_self _ _)),
      ih (fun c hc => h c (List.mem_cons_of_mem _ hc)), List.cons_append]

/-! ## Reading the integers that `%d` prints -/

theorem natDigits_digits (fuel : Nat) :
    ∀ (n : Nat), ∀ b ∈ natDigits fuel n, 48 ≤ b ∧ b ≤ 57 := by
  induction fuel with
  | zero => intro n b hb; simp [natDigits] at hb
  | succ fuel ih =>
    intro n b hb
    rw [natDigits] at hb
    by_cases hn : n < 10
    · rw [if_pos hn] at hb
      rw [List.mem_singleton.1 hb]
      omega
    · rw [if_neg hn] at hb
      rcases List.mem_append.1 hb with h1 | h1
      · exact ih _ b h1
      · rw [List.mem_singleton.1 h1]
        omega

theorem natDigits_ne_nil (fuel : Nat) (n : Nat) : natDigits (fuel + 1) n ≠ [] := by
  rw [natDigits]
  split
  · simp
  · simp

theorem scanDigits_natDigits (fuel : Nat) :
    ∀ (n : Nat), n < fuel → ∃ k, ∀ (acc : Nat) (rest : Reader),
      scanDigits (natDigits fuel n ++ rest) acc = scanDigits rest (acc * k + n) := by
  induction fuel with
  | zero => intro n h; omega
  | succ fuel ih =>
    intro n hn
    rw [natDigits]
    by_cases h10 : n < 10
    · rw [if_pos h10]
      refine ⟨10, fun acc rest => ?_⟩
      have hd : 48 ≤ 48 + n ∧ 48 + n ≤ 57 := by omega
      rw [List.singleton_append, scanDigits, if_pos hd]
      congr 1
      omega
    · rw [if_neg h10]
      obtain ⟨k, hk⟩ := ih (n / 10) (by omega)
      refine ⟨k * 10, fun acc rest => ?_⟩
      have hd : 48 ≤ 48 + n % 10 ∧ 48 + n % 10 ≤ 57 := by omega
      rw [List.append_assoc, hk, List.singleton_append, scanDigits, if_pos hd]
      congr 1
      have : 48 + n % 10 - 48 = n % 10 := by omega
      rw [this]
      have h2 : n = 10 * (n / 10) + n % 10 := (Nat.div_add_mod n 10).symm
      nlinarith

theorem isSpace_printable (c : Nat) (h : 33 ≤ c ∧ c ≤ 126) : isSpace c = false := by
  simp only [isSpace, inRange, Bool.or_eq_false_iff, Bool.and_eq_false_iff,
    decide_eq_false_iff_not, beq_eq_false_iff_ne, ne_eq]
  omega

theorem scanDigits_stop (c : Nat) (t : Reader) (v : Nat) (h : ¬ (48 ≤ c ∧ c ≤ 57)) :
    scanDigits (c :: t) v = (v, c :: t) := by
  rw [scanDigits, if_neg h]

theorem SkipSpace_printable (c : Nat) (t : Reader) (h : 33 ≤ c ∧ c ≤ 126) :
    SkipSpace (c :: t) = some (c :: t) := by
  have h10 : ¬ c = 10 := by omega
  rw [SkipSpace, if_neg h10, isSpace_printable c h]
  rfl

theorem SkipSpace_space (t : Reader) : SkipSpace (32 :: t) = SkipSpace t := by
  rw [SkipSpace]
  rfl

theorem skipBlanks_printable (c : Nat) (t : Reader) (h : 33 ≤ c ∧ c ≤ 126) :
    skipBlanks (c :: t) = c :: t := by
  rw [skipBlanks, isSpace_printable c h]
  rfl

theorem skipBlanks_newline (t : Reader) : skipBlanks (10 :: t) = 10 :: t := by
  rw [skipBlanks]
  rfl

theorem advanceSpaces_space (c : Nat) (t : Reader) (h : 33 ≤ c ∧ c ≤ 126) :
    advanceSpaces 0 true (32 :: c :: t) = some (c :: t) := by
  have : advanceSpaces 0 true (32 :: c :: t) = some (skipBlanks (c :: t)) := rfl
  rw [this, skipBlanks_printable c t h]

theorem skipEmptyLines_printable (c : Nat) (t : Reader) (h : 33 ≤ c ∧ c ≤ 126) :
    skipEmptyLines (c :: t) = c :: t := by
  have h1 : ¬ (c = rune ' ' ∨ c = rune '\n') := by
    have a : rune ' ' = 32 := by decide
    have b : rune '\n' = 10 := by decide
    rw [a, b]; omega
  rw [skipEmptyLines, if_neg h1]

theorem skipEmptyLines_newline (t : Reader) :
    skipEmptyLines (10 :: t) = skipEmptyLines t := by
  rw [skipEmptyLines]
  rfl

/-- The text of an integer starts with a minus sign or a digit. -/
theorem itoa_head (i : Int) : ∃ c t, itoa i = c :: t ∧ 45 ≤ c ∧ c ≤ 57 ∧ c ≠ 46 ∧ c ≠ 47 := by
  unfold itoa
  by_cases hi : i < 0
  · rw [if_pos hi]
    exact ⟨45, _, rfl, by omega, by omega, by omega, by omega⟩
  · rw [if_neg hi]
    cases hd : natDigits (i.natAbs + 1) i.natAbs with
    | nil => exact absurd hd (natDigits_ne_nil _ _)
    | cons d ds =>
      have := natDigits_digits (i.natAbs + 1) i.natAbs d (by rw [hd]; exact List.mem_cons_self _ _)
      exact ⟨d, ds, rfl, by omega, by omega, by omega, by omega⟩

theorem itoa_ascii (i : Int) : ∀ b ∈ itoa i, b < 128 := by
  intro b hb
  unfold itoa at hb
  by_cases hi : i < 0
  · rw [if_pos hi] at hb
    rcases List.mem_cons.1 hb with h1 | h1
    · omega
    · have := natDigits_digits _ _ b h1; omega
  · rw [if_neg hi] at hb
    have := natDigits_digits _ _ b hb; omega

/-- Reading back an integer that `%d` printed, before a rune that is not a
digit. -/
theorem scanInt_itoa (i : Int) (c : Nat) (t : Reader) (hc : ¬ (48 ≤ c ∧ c ≤ 57))
    (hlo : -2 ^ 63 ≤ i) (hhi : i < 2 ^ 63) :
    scanInt (itoa i ++ c :: t) = some (i, c :: t) := by
  obtain ⟨k, hk⟩ := scanDigits_natDigits (i.natAbs + 1) i.natAbs (Nat.lt_succ_self _)
  have hscan : scanDigits (natDigits (i.natAbs + 1) i.natAbs ++ c :: t) 0 =
      (i.natAbs, c :: t) := by
    rw [hk, scanDigits_stop c t _ hc]
    simp
  cases hd : natDigits (i.natAbs + 1) i.natAbs with
  | nil => exact absurd hd (natDigits_ne_nil _ _)
  | cons d ds =>
    have hdig := natDigits_digits (i.natAbs + 1) i.natAbs d
      (by rw [hd]; exact List.mem_cons_self _ _)
    rw [hd] at hscan
    unfold itoa
    by_cases hi : i < 0
    · rw [if_pos hi, hd]
      have h45 : SkipSpace (45 :: d :: (ds ++ c :: t)) = some (45 :: d :: (ds ++ c :: t)) :=
        SkipSpace_printable 45 _ (by omega)
      simp only [List.cons_append] at hscan
      simp only [scanInt, List.cons_append, h45, or_true, if_true, hdig, and_self, hscan]
      have hv : i.natAbs ≤ 2 ^ 63 := by omega
      rw [if_pos hv]
      congr 2
      omega
    · rw [if_neg hi, hd]
      have hsk : SkipSpace (d :: (ds ++ c :: t)) = some (d :: (ds ++ c :: t)) :=
        SkipSpace_printable d _ (by omega)
      simp only [List.cons_append] at hscan
      have h1 : ¬ (d = 43 ∨ d = 45) := by omega
      have h2 : ¬ d = 45 := by omega
      simp only [scanInt, List.cons_append, hsk, if_neg h1, hdig, and_self, if_true, hscan,
        if_neg h2]
      have hv : i.natAbs < 2 ^ 63 := by omega
      rw [if_pos hv]
      congr 2
      omega

theorem SkipSpace_itoa (i : Int) (rest : Reader) :
    SkipSpace (itoa i ++ rest) = some (itoa i ++ rest) := by
  obtain ⟨c, t, h, h1, h2, _, _⟩ := itoa_head i
  rw [h, List.cons_append]
  exact SkipSpace_printable c _ (by omega)

theorem advanceSpaces_itoa (i : Int) (rest : Reader) :
    advanceSpaces 0 true (32 :: (itoa i ++ rest)) = some (itoa i ++ rest) := by
  obtain ⟨c, t, h, h1, h2, _, _⟩ := itoa_head i
  rw [h, List.cons_append]
  exact advanceSpaces_space c _ (by omega)

theorem skipEmptyLines_itoa (i : Int) (rest : Reader) :
    skipEmptyLines (itoa i ++ rest) = itoa i ++ rest := by
  obtain ⟨c, t, h, h1, h2, _, _⟩ := itoa_head i
  rw [h, List.cons_append]
  exact skipEmptyLines_printable c _ (by omega)

theorem peek_itoa (i : Int) (rest : Reader) (b : Nat) (hb : b < 45 ∨ 57 < b) :
    peek (itoa i ++ rest) b = false := by
  obtain ⟨c, t, h, h1, h2, _, _⟩ := itoa_head i
  rw [h, List.cons_append, peek]
  simp only [beq_eq_false_iff_ne, ne_eq]
  omega

theorem scanVerb_d_itoa (i : Int) (c : Nat) (t : Reader) (hc : ¬ (48 ≤ c ∧ c ≤ 57))
    (hlo : -2 ^ 63 ≤ i) (hhi : i < 2 ^ 63) :
    scanVerb (rune 'd') (itoa i ++ c :: t) = some (some (.int i), c :: t) := by
  have h1 : ¬ rune 'd' = rune '%' := by decide
  have h2 : ¬ rune 'd' = rune 'c' := by decide
  simp only [scanVerb, if_neg h1, if_neg h2, if_true, SkipSpace_itoa, Option.some_bind,
    scanInt_itoa i c t hc hlo hhi, Option.map_some']

theorem scanVerb_d_space (r : Reader) :
    scanVerb (rune 'd') (32 :: r) = scanVerb (rune 'd') r := by
  have h1 : ¬ rune 'd' = rune '%' := by decide
  have h2 : ¬ rune 'd' = rune 'c' := by decide
  simp only [scanVerb, if_neg h1, if_neg h2, if_true, SkipSpace_space]

theorem scanVerb_t_formatBool (p : Bool) (t : Reader) :
    scanVerb (rune 't') (formatBool p ++ 32 :: t) = some (some (.bool p), 32 :: t) := by
  cases p <;> rfl

theorem advanceSpaces_formatBool (p : Bool) (rest : Reader) :
    advanceSpaces 0 true (32 :: (formatBool p ++ rest)) = some (formatBool p ++ rest) := by
  cases p <;> rfl

/-- Reading the id that starts an entry, before a printable character. -/
theorem Fscanf_id_itoa (i : Int) (c : Nat) (t : Reader) (hc : 33 ≤ c ∧ c ≤ 126)
    (hlo : -2 ^ 63 ≤ i) (hhi : i < 2 ^ 63) :
    Fscanf (itoa i ++ 32 :: c :: t) "%d " = some ([.int i], c :: t) := by
  rw [Fscanf_id_eq, scanVerb_d_itoa i 32 _ (by omega) hlo hhi]
  simp only [Option.some_bind, advanceSpaces_space c t hc]
  rfl

/-- Reading the five fields that follow the send text of a node line. -/
theorem Fscanf_fields_itoa (a b x y : Int) (p : Bool) (t : Reader)
    (ha : -2 ^ 63 ≤ a ∧ a < 2 ^ 63) (hb : -2 ^ 63 ≤ b ∧ b < 2 ^ 63)
    (hx : -2 ^ 63 ≤ x ∧ x < 2 ^ 63) (hy : -2 ^ 63 ≤ y ∧ y < 2 ^ 63) :
    Fscanf (32 :: (itoa a ++ 32 :: (itoa b ++ 32 :: (formatBool p ++ 32 ::
        (itoa x ++ 32 :: (itoa y ++ 10 :: t))))))
      "%d %d %t %d %d" =
      some ([.int a, .int b, .bool p, .int x, .int y], 10 :: t) := by
  rw [Fscanf_fields_eq, scanVerb_d_space, scanVerb_d_itoa a 32 _ (by omega) ha.1 ha.2]
  simp only [Option.some_bind, advanceSpaces_itoa,
    scanVerb_d_itoa b 32 _ (by omega) hb.1 hb.2, advanceSpaces_formatBool,
    scanVerb_t_formatBool, scanVerb_d_itoa x 32 _ (by omega) hx.1 hx.2,
    scanVerb_d_itoa y 10 _ (by omega) hy.1 hy.2]
  rfl

/-- Reading the destination of a channel line. -/
theorem Fscanf_chan_itoa (d : Int) (t : Reader) (hd : -2 ^ 63 ≤ d ∧ d < 2 ^ 63) :
    Fscanf (45 :: 62 :: 32 :: (itoa d ++ 10 :: t)) "-> %d" = some ([.int d], 10 :: t) := by
  rw [Fscanf_chan_eq]
  have h1 : matchLiteral (rune '-') (45 :: 62 :: 32 :: (itoa d ++ 10 :: t)) =
      some (62 :: 32 :: (itoa d ++ 10 :: t)) := rfl
  have h2 : matchLiteral (rune '>') (62 :: 32 :: (itoa d ++ 10 :: t)) =
      some (32 :: (itoa d ++ 10 :: t)) := rfl
  simp only [h1, h2, Option.some_bind, advanceSpaces_itoa,
    scanVerb_d_itoa d 10 _ (by omega) hd.1 hd.2]
  rfl

theorem Fscanf_label_lit (t : Reader) :
    Fscanf (91 :: 108 :: 97 :: 98 :: 101 :: 108 :: 61 :: t) "[label=" = some ([], t) := rfl

theorem Fscanf_sep_lit (t : Reader) :
    Fscanf (93 :: 32 :: 47 :: 47 :: 32 :: 34 :: t) "] // " = some ([], 34 :: t) := rfl

theorem Fscanf_header_lit (t : Reader) :
    Fscanf (100 :: 105 :: 103 :: 114 :: 97 :: 112 :: 104 :: 32 :: 110 :: 101 :: 116 :: 119 ::
        111 :: 114 :: 107 :: 32 :: 123 :: 10 :: t)
      "digraph network \x7b\n" = some ([], t) := by
  rfl

/-! ## Reading a quoted string without escapes -/

/-- The encoding of a rune below 128 is the rune; the encoding of another rune
starts with a byte above 127. -/
theorem encodeRune_head (r : Nat) :
    (r < 128 ∧ encodeRune r = [r]) ∨ ∃ c t, encodeRune r = c :: t ∧ 128 ≤ c := by
  unfold encodeRune
  by_cases h1 : r < 0x80
  · left; exact ⟨h1, by rw [if_pos h1]⟩
  · right
    rw [if_neg h1]
    by_cases h2 : r < 0x800
    · rw [if_pos h2]; exact ⟨_, _, rfl, by omega⟩
    · rw [if_neg h2]
      by_cases h3 : 0xD800 ≤ r ∧ r < 0xE000
      · rw [if_pos h3]; exact ⟨_, _, rfl, by omega⟩
      · rw [if_neg h3]
        by_cases h4 : r < 0x10000
        · rw [if_pos h4]; exact ⟨_, _, rfl, by omega⟩
        · rw [if_neg h4]
          by_cases h5 : r < 0x110000
          · rw [if_pos h5]; exact ⟨_, _, rfl, by omega⟩
          · rw [if_neg h5]; exact ⟨_, _, rfl, by omega⟩

theorem UnquoteChar_encodeRune (r : Nat) (rest : GoString) (hv : ValidRune r = true)
    (hq : r ≠ 34) (hb : r ≠ 92) :
    UnquoteChar (encodeRune r ++ rest) = some (encodeRune r, rest) := by
  have hdec := decodeRune_encodeRune r rest hv
  have q : rune '"' = 34 := by decide
  have b : rune '\\' = 92 := by decide
  rcases encodeRune_head r with ⟨h1, h2⟩ | ⟨c, t, h2, h1⟩
  · rw [h2, List.singleton_append]
    unfold UnquoteChar
    simp only [q, b]
    rw [if_neg hq, if_neg (by omega), if_pos hb]
  · rw [h2] at hdec ⊢
    rw [List.cons_append] at hdec ⊢
    unfold UnquoteChar
    simp only [q]
    rw [if_neg (by omega), if_pos (by omega), hdec]
    simp only [Option.map_some', h2]

theorem unquoteLoop_plain (rs : List Nat) :
    ∀ (buf : GoString) (fuel : Nat),
      (∀ r ∈ rs, ValidRune r = true ∧ r ≠ 34 ∧ r ≠ 92 ∧ r ≠ 10) →
      (rs.flatMap encodeRune ++ [34]).length < fuel →
      unquoteLoop fuel (rs.flatMap encodeRune ++ [34]) buf =
        some (buf ++ rs.flatMap encodeRune) := by
  induction rs with
  | nil =>
    intro buf fuel _ hf
    obtain ⟨f, rfl⟩ : ∃ f, fuel = f + 1 := ⟨fuel - 1, by omega⟩
    simp [unquoteLoop, rune]
  | cons r t ih =>
    intro buf fuel h hf
    obtain ⟨hv, hq, hb, hn⟩ := h r (List.mem_cons_self _ _)
    obtain ⟨f, rfl⟩ : ∃ f, fuel = f + 1 := ⟨fuel - 1, by omega⟩
    have hU := UnquoteChar_encodeRune r (t.flatMap encodeRune ++ [34]) hv hq hb
    have hlen := encodeRune_length r
    have q : rune '"' = 34 := by decide
    rw [List.flatMap_cons, List.append_assoc] at hf ⊢
    rw [List.length_append] at hf
    have hstep : unquoteLoop (f + 1) (encodeRune r ++ (t.flatMap encodeRune ++ [34])) buf =
        unquoteLoop f (t.flatMap encodeRune ++ [34]) (buf ++ encodeRune r) := by
      rcases encodeRune_head r with ⟨h1, h2⟩ | ⟨c, u, h2, h1⟩
      · rw [h2] at hU ⊢
        rw [List.singleton_append] at hU ⊢
        rw [unquoteLoop, q, if_neg hq, if_neg hn, hU]
      · rw [h2] at hU ⊢
        rw [List.cons_append] at hU ⊢
        rw [unquoteLoop, q, if_neg (by omega), if_neg (by omega), hU]
    rw [hstep, ih (buf ++ encodeRune r) f (fun x hx => h x (List.mem_cons_of_mem _ hx))
      (by omega), List.append_assoc]

theorem scanQuotedLoop_plain (rs : List Nat) (t : Reader) :
    ∀ (s : GoString), (∀ r ∈ rs, r ≠ 34 ∧ r ≠ 92) →
      scanQuotedLoop (rs ++ 34 :: t) s false =
        match Unquote (s ++ rs.flatMap encodeRune ++ [34]) with
        | none => ([], false, t)
        | some u => (u, true, t) := by
  have q : rune '"' = 34 := by decide
  have b : rune '\\' = 92 := by decide
  induction rs with
  | nil =>
    intro s _
    have e : encodeRune 34 = [34] := by decide
    simp only [List.nil_append, scanQuotedLoop, q, b, List.flatMap_nil, List.append_nil, e]
    simp only [show ¬ ((34 : Nat) = 92 ∧ false = false) by decide, if_false, and_self, if_true]
    cases Unquote (s ++ [34]) <;> rfl
  | cons r rest ih =>
    intro s h
    obtain ⟨hq, hb⟩ := h r (List.mem_cons_self _ _)
    rw [List.cons_append, scanQuotedLoop, q, b, if_neg (fun hh => hb hh.1)]
    simp only
    rw [if_neg (fun hh => hq hh.1), ih _ (fun x hx => h x (List.mem_cons_of_mem _ hx))]
    simp only [List.flatMap_cons, List.append_assoc]

/-- Reading back a string that `%s` printed between double quotes, when it is
the encoding of runes that are valid and are not a double quote, a backslash or
a newline. -/
theorem scanQuoted_plain (rs : List Nat) (t : Reader)
    (h : ∀ r ∈ rs, ValidRune r = true ∧ r ≠ 34 ∧ r ≠ 92 ∧ r ≠ 10) :
    scanQuoted (34 :: (rs ++ 34 :: t)) = (rs.flatMap encodeRune, true, t) := by
  have hs : scanQuoted (34 :: (rs ++ 34 :: t)) =
      scanQuotedLoop (rs ++ 34 :: t) (bytes "\"") false := rfl
  have hb : bytes "\"" = [34] := by decide
  rw [hs, scanQuotedLoop_plain rs t _ (fun r hr => ⟨(h r hr).2.1, (h r hr).2.2.1⟩), hb]
  have hu : Unquote ([34] ++ rs.flatMap encodeRune ++ [34]) = some (rs.flatMap encodeRune) := by
    rw [List.append_assoc, List.singleton_append, Unquote]
    have q : rune '"' = 34 := by decide
    rw [q, if_pos rfl, unquoteLoop_plain rs [] _ h (Nat.lt_succ_self _)]
    rfl
  rw [hu]

/-! ## Reading the lines that the serializer writes -/

/-- Reading a node line after its id. -/
theorem parseNode_line (id : nodeid) (rsN rsT : List Nat) (a b x y : Int) (p : Bool)
    (t : Reader)
    (hN : ∀ r ∈ rsN, ValidRune r = true ∧ r ≠ 34 ∧ r ≠ 92 ∧ r ≠ 10)
    (hT : ∀ r ∈ rsT, ValidRune r = true ∧ r ≠ 34 ∧ r ≠ 92 ∧ r ≠ 10)
    (ha : -2 ^ 63 ≤ a ∧ a < 2 ^ 63) (hb : -2 ^ 63 ≤ b ∧ b < 2 ^ 63)
    (hx : -2 ^ 63 ≤ x ∧ x < 2 ^ 63) (hy : -2 ^ 63 ≤ y ∧ y < 2 ^ 63) :
    parseNode
      (91 :: 108 :: 97 :: 98 :: 101 :: 108 :: 61 :: 34 ::
        (rsN ++ 34 :: 93 :: 32 :: 47 :: 47 :: 32 :: 34 ::
          (rsT ++ 34 :: 32 :: (itoa a ++ 32 :: (itoa b ++ 32 :: (formatBool p ++ 32 ::
            (itoa x ++ 32 :: (itoa y ++ 10 :: t)))))))) id =
      some (⟨id, rsN.flatMap encodeRune, rsT.flatMap encodeRune, a, b, p, x, y⟩, 10 :: t) := by
  unfold parseNode
  rw [Fscanf_label_lit]
  simp only
  rw [scanQuoted_plain rsN _ hN]
  simp only
  rw [Fscanf_sep_lit]
  simp only
  rw [scanQuoted_plain rsT _ hT]
  simp only
  rw [Fscanf_fields_itoa a b x y p t ha hb hx hy]

theorem parseEntries_newline (fuel : Nat) (r : Reader) :
    parseEntries fuel (10 :: r) = parseEntries fuel r := by
  cases fuel with
  | zero => rfl
  | succ fuel => simp only [parseEntries, skipEmptyLines_newline]

theorem parseEntries_close (fuel : Nat) (t : Reader) :
    parseEntries (fuel + 1) (125 :: t) = some [] := by
  have h : skipEmptyLines (125 :: t) = 125 :: t := skipEmptyLines_printable 125 t (by omega)
  have hp : peek (125 :: t) (rune '\x7d') = true := rfl
  simp only [parseEntries, h, hp, if_true]

/-- One turn of the loop on a node line. -/
theorem parseEntries_node_line (fuel : Nat) (id : nodeid) (rsN rsT : List Nat)
    (a b x y : Int) (p : Bool) (t : Reader)
    (hid : -2 ^ 63 ≤ id ∧ id < 2 ^ 63)
    (hN : ∀ r ∈ rsN, ValidRune r = true ∧ r ≠ 34 ∧ r ≠ 92 ∧ r ≠ 10)
    (hT : ∀ r ∈ rsT, ValidRune r = true ∧ r ≠ 34 ∧ r ≠ 92 ∧ r ≠ 10)
    (ha : -2 ^ 63 ≤ a ∧ a < 2 ^ 63) (hb : -2 ^ 63 ≤ b ∧ b < 2 ^ 63)
    (hx : -2 ^ 63 ≤ x ∧ x < 2 ^ 63) (hy : -2 ^ 63 ≤ y ∧ y < 2 ^ 63) :
    parseEntries (fuel + 1)
      (itoa id ++ 32 :: 91 :: 108 :: 97 :: 98 :: 101 :: 108 :: 61 :: 34 ::
        (rsN ++ 34 :: 93 :: 32 :: 47 :: 47 :: 32 :: 34 ::
          (rsT ++ 34 :: 32 :: (itoa a ++ 32 :: (itoa b ++ 32 :: (formatBool p ++ 32 ::
            (itoa x ++ 32 :: (itoa y ++ 10 :: t)))))))) =
      (parseEntries fuel t).map (fun es =>
        .node ⟨id, rsN.flatMap encodeRune, rsT.flatMap encodeRune, a, b, p, x, y⟩ :: es) := by
  have hp : peek (91 :: 108 :: 97 :: 98 :: 101 :: 108 :: 61 :: 34 ::
        (rsN ++ 34 :: 93 :: 32 :: 47 :: 47 :: 32 :: 34 ::
          (rsT ++ 34 :: 32 :: (itoa a ++ 32 :: (itoa b ++ 32 :: (formatBool p ++ 32 ::
            (itoa x ++ 32 :: (itoa y ++ 10 :: t)))))))) (rune '[') = true := rfl
  rw [parseEntries]
  simp only [skipEmptyLines_itoa, peek_itoa id _ (rune '\x7d') (Or.inr (by decide)),
    Bool.false_eq_true, if_false,
    Fscanf_id_itoa id 91 _ (by omega) hid.1 hid.2, hp, if_true,
    parseNode_line id rsN rsT a b x y p t hN hT ha hb hx hy, parseEntries_newline]

/-- One turn of the loop on a channel line. -/
theorem parseEntries_chan_line (fuel : Nat) (s d : nodeid) (t : Reader)
    (hs : -2 ^ 63 ≤ s ∧ s < 2 ^ 63) (hd : -2 ^ 63 ≤ d ∧ d < 2 ^ 63) :
    parseEntries (fuel + 1) (itoa s ++ 32 :: 45 :: 62 :: 32 :: (itoa d ++ 10 :: t)) =
      (parseEntries fuel t).map (fun es => .chan { src := s, dst := d } :: es) := by
  have hp : peek (45 :: 62 :: 32 :: (itoa d ++ 10 :: t)) (rune '[') = false := rfl
  have hm : peek (45 :: 62 :: 32 :: (itoa d ++ 10 :: t)) (rune '-') = true := rfl
  rw [parseEntries]
  simp only [skipEmptyLines_itoa, peek_itoa s _ (rune '\x7d') (Or.inr (by decide)),
    Bool.false_eq_true, if_false,
    Fscanf_id_itoa s 45 _ (by omega) hs.1 hs.2, hp, hm, if_true,
    Fscanf_chan_itoa d t hd, parseEntries_newline]

/-! ## Reading what the serializer writes -/

theorem plain_runes (s : GoString) (h : Plain s) :
    ∃ rs : List Nat, s = rs.flatMap encodeRune ∧
      ∀ r ∈ rs, ValidRune r = true ∧ r ≠ 34 ∧ r ≠ 92 ∧ r ≠ 10 := by
  obtain ⟨⟨rs, hv, hs⟩, h34, h92, h10⟩ := h
  refine ⟨rs, hs, fun r hr => ?_⟩
  have key : ∀ b, b < 128 → b ∉ s → r ≠ b := by
    intro b hb hnot e
    apply hnot
    rw [hs, List.mem_flatMap]
    exact ⟨r, hr, by rw [e, encodeRune_ascii b hb]; exact List.mem_singleton.2 rfl⟩
  exact ⟨hv r hr, key 34 (by omega) h34, key 92 (by omega) h92, key 10 (by omega) h10⟩

theorem formatBool_ascii (p : Bool) : ∀ b ∈ formatBool p, b < 128 := by
  cases p <;> decide

/-- The runes of the lines of a node, as the reader gives them. -/
theorem NewReader_node (n : node) (rsN rsT : List Nat) (rest : GoString)
    (hN : n.name = rsN.flatMap encodeRune) (hT : n.sendText = rsT.flatMap encodeRune)
    (hvN : ∀ r ∈ rsN, ValidRune r = true) (hvT : ∀ r ∈ rsT, ValidRune r = true) :
    NewReader (n.serialize ++ rest) =
      itoa n.id ++ 32 :: 91 :: 108 :: 97 :: 98 :: 101 :: 108 :: 61 :: 34 ::
        (rsN ++ 34 :: 93 :: 32 :: 47 :: 47 :: 32 :: 34 ::
          (rsT ++ 34 :: 32 :: (itoa (Milliseconds n.sendInterval) ++ 32 ::
            (itoa n.relayMode ++ 32 :: (formatBool n.paused ++ 32 ::
              (itoa n.x ++ 32 :: (itoa n.y ++ 10 ::
                NewReader (serializeOuts n.id n.outs ++ rest)))))))) := by
  have e1 : bytes " [label=\"" = [32, 91, 108, 97, 98, 101, 108, 61, 34] := by decide
  have e2 : bytes "\"] // \"" = [34, 93, 32, 47, 47, 32, 34] := by decide
  have e3 : bytes "\" " = [34, 32] := by decide
  have e4 : bytes " " = [32] := by decide
  have e5 : bytes "\n" = [10] := by decide
  unfold node.serialize
  rw [hN, hT, e1, e2, e3, e4, e5]
  simp only [List.append_assoc]
  rw [NewReader_append_ascii _ _ (itoa_ascii _),
    NewReader_append_ascii [32, 91, 108, 97, 98, 101, 108, 61, 34] _ (by decide),
    NewReader_append_valid rsN _ hvN,
    NewReader_append_ascii [34, 93, 32, 47, 47, 32, 34] _ (by decide),
    NewReader_append_valid rsT _ hvT,
    NewReader_append_ascii [34, 32] _ (by decide),
    NewReader_append_ascii _ _ (itoa_ascii _),
    NewReader_append_ascii [32] _ (by decide),
    NewReader_append_ascii _ _ (itoa_ascii _),
    NewReader_append_ascii [32] _ (by decide),
    NewReader_append_ascii _ _ (formatBool_ascii _),
    NewReader_append_ascii [32] _ (by decide),
    NewReader_append_ascii _ _ (itoa_ascii _),
    NewReader_append_ascii [32] _ (by decide),
    NewReader_append_ascii _ _ (itoa_ascii _),
    NewReader_append_ascii [10] _ (by decide)]
  rfl

/-- The runes of a channel line, as the reader gives them. -/
theorem NewReader_chan (id : nodeid) (o : chaninfo) (outs : List chaninfo) (rest : GoString) :
    NewReader (serializeOuts id (o :: outs) ++ rest) =
      itoa id ++ 32 :: 45 :: 62 :: 32 :: (itoa o.dst ++ 10 ::
        NewReader (serializeOuts id outs ++ rest)) := by
  have e1 : bytes " -> " = [32, 45, 62, 32] := by decide
  have e5 : bytes "\n" = [10] := by decide
  rw [serializeOuts, e1, e5]
  simp only [List.append_assoc]
  rw [NewReader_append_ascii _ _ (itoa_ascii _),
    NewReader_append_ascii [32, 45, 62, 32] _ (by decide),
    NewReader_append_ascii _ _ (itoa_ascii _),
    NewReader_append_ascii [10] _ (by decide)]
  rfl
theorem parseEntries_chans (id : nodeid) (rest : GoString) (fuel : Nat)
    (hid : -2 ^ 63 ≤ id ∧ id < 2 ^ 63) (outs : List chaninfo) :
    (∀ o ∈ outs, -2 ^ 63 ≤ o.dst ∧ o.dst < 2 ^ 63) →
    parseEntries (fuel + outs.length)
        (NewReader (serializeOuts id outs ++ (bytes "\n" ++ rest))) =
      (parseEntries fuel (NewReader rest)).map (fun es => chanLines id outs ++ es) := by
  induction outs with
  | nil =>
    intro _
    have e5 : bytes "\n" = [10] := by decide
    rw [serializeOuts, List.nil_append, e5, NewReader_append_ascii [10] _ (by decide)]
    simp only [List.singleton_append, List.length_nil, Nat.add_zero, parseEntries_newline,
      chanLines, List.map_nil, List.nil_append, Option.map_id']
  | cons o outs ih =>
    intro h
    have hk : fuel + (o :: outs).length = (fuel + outs.length) + 1 := by
      rw [List.length_cons]; omega
    rw [hk, NewReader_chan, parseEntries_chan_line _ id o.dst _ hid (h o (List.mem_cons_self _ _)),
      ih (fun x hx => h x (List.mem_cons_of_mem _ hx)), Option.map_map]
    rfl

theorem Milliseconds_whole (d ms : Int) (h : d = ms * 1000000) : Milliseconds d = ms := by
  rw [h, Milliseconds]
  exact Int.mul_tdiv_cancel ms (by norm_num)

/-- The turns of the loop on the lines of a node that a file records in full. -/
theorem parseEntries_block (k : nodeid) (n : node) (rest : GoString) (fuel : Nat)
    (hw : Writable k n) :
    parseEntries (fuel + n.outs.length + 1) (NewReader (n.serialize ++ (bytes "\n" ++ rest))) =
      (parseEntries fuel (NewReader rest)).map (fun es =>
        .node (lineOf n) :: (chanLines n.id n.outs ++ es)) := by
  obtain ⟨_, hname, htext, ⟨ms, hms⟩, hint, _, hid, hmode, hx, hy, hdst⟩ := hw
  have hmsr : -2 ^ 63 ≤ Milliseconds n.sendInterval ∧ Milliseconds n.sendInterval < 2 ^ 63 := by
    rw [Milliseconds_whole _ ms hms]
    unfold isInt64 at hint
    rw [hms] at hint
    constructor <;> omega
  obtain ⟨rsN, hN, hpN⟩ := plain_runes _ hname
  obtain ⟨rsT, hT, hpT⟩ := plain_runes _ htext
  rw [NewReader_node n rsN rsT _ hN hT (fun r hr => (hpN r hr).1) (fun r hr => (hpT r hr).1),
    parseEntries_node_line _ n.id rsN rsT _ _ _ _ _ _ hid hpN hpT
      hmsr hmode hx hy,
    parseEntries_chans n.id rest fuel hid n.outs hdst, Option.map_map]
  unfold lineOf
  rw [← hN, ← hT]
  rfl

theorem parseEntries_nodes (net : network) :
    (∀ e ∈ net, Writable e.1 e.2) → ∀ fuel : Nat,
    parseEntries (fuel + 1 + (entriesOf net).length)
        (NewReader (serializeNodes net ++ bytes "\x7d\n")) = some (entriesOf net) := by
  induction net with
  | nil =>
    intro _ fuel
    have e : NewReader (serializeNodes [] ++ bytes "\x7d\n") = [125, 10] := by decide
    rw [e]
    exact parseEntries_close _ _
  | cons e rest ih =>
    intro hw fuel
    obtain ⟨k, n⟩ := e
    have hlen : fuel + 1 + (entriesOf ((k, n) :: rest)).length =
        (fuel + 1 + (entriesOf rest).length) + n.outs.length + 1 := by
      simp only [entriesOf, chanLines, List.length_cons, List.length_append, List.length_map]
      omega
    rw [hlen, serializeNodes, List.append_assoc, List.append_assoc,
      parseEntries_block k n _ _ (hw (k, n) (List.mem_cons_self _ _)),
      ih (fun x hx => hw x (List.mem_cons_of_mem _ hx))]
    rfl

/-- The deserializer reads in the output of the serializer the lines that the
serializer wrote. -/
theorem fileEntries_serialize (net : network) (hw : ∀ e ∈ net, Writable e.1 e.2) :
    fileEntries (network.serialize net) = some (entriesOf net) := by
  have eh : bytes "digraph network \x7b\n" =
      [100, 105, 103, 114, 97, 112, 104, 32, 110, 101, 116, 119, 111, 114, 107, 32, 123, 10] := by
    decide
  have hr : NewReader (network.serialize net) =
      100 :: 105 :: 103 :: 114 :: 97 :: 112 :: 104 :: 32 :: 110 :: 101 :: 116 :: 119 ::
        111 :: 114 :: 107 :: 32 :: 123 :: 10 ::
          NewReader (serializeNodes net ++ bytes "\x7d\n") := by
    unfold network.serialize
    rw [eh, List.append_assoc, NewReader_append_ascii _ _ (by decide)]
    rfl
  unfold fileEntries
  rw [hr, skipEmptyLines_printable 100 _ (by omega), Fscanf_header_lit]
  simp only
  have := parseEntries_fuel ((NewReader (serializeNodes net ++ bytes "\x7d\n")).length + 1)
    (NewReader (serializeNodes net ++ bytes "\x7d\n")) (entriesOf net).length
    (Nat.lt_succ_self _)
  rw [← this]
  exact parseEntries_nodes net hw _

/-! ## The registry read from the output of the serializer -/

theorem nodesOf_append (a b : List Entry) : nodesOf (a ++ b) = nodesOf a ++ nodesOf b := by
  induction a with
  | nil => rfl
  | cons e rest ih =>
    cases e with
    | node d =>
      show nodesOf (.node d :: (rest ++ b)) = nodesOf (.node d :: rest) ++ nodesOf b
      rw [nodesOf, nodesOf, ih]
      rfl
    | chan c =>
      show nodesOf (.chan c :: (rest ++ b)) = nodesOf (.chan c :: rest) ++ nodesOf b
      rw [nodesOf, nodesOf, ih]

theorem chansOf_append (a b : List Entry) : chansOf (a ++ b) = chansOf a ++ chansOf b := by
  induction a with
  | nil => rfl
  | cons e rest ih =>
    cases e with
    | node d =>
      show chansOf (.node d :: (rest ++ b)) = chansOf (.node d :: rest) ++ chansOf b
      rw [chansOf, chansOf, ih]
    | chan c =>
      show chansOf (.chan c :: (rest ++ b)) = chansOf (.chan c :: rest) ++ chansOf b
      rw [chansOf, chansOf, ih]
      rfl

theorem nodesOf_chanLines (id : nodeid) (outs : List chaninfo) :
    nodesOf (chanLines id outs) = [] := by
  induction outs with
  | nil => rfl
  | cons o rest ih => simpa only [chanLines, List.map_cons, nodesOf] using ih

theorem chansOf_chanLines (id : nodeid) (outs : List chaninfo) :
    chansOf (chanLines id outs) = outs.map (fun o => { src := id, dst := o.dst }) := by
  induction outs with
  | nil => rfl
  | cons o rest ih =>
    simp only [chanLines, List.map_cons, chansOf] at ih ⊢
    rw [ih]

theorem nodesOf_entriesOf (net : network) :
    nodesOf (entriesOf net) = net.map (fun e => lineOf e.2) := by
  induction net with
  | nil => rfl
  | cons e rest ih =>
    obtain ⟨k, n⟩ := e
    rw [entriesOf, nodesOf, nodesOf_append, nodesOf_chanLines, ih]
    rfl

theorem chansFrom_append (a b : List endpoints) (s : nodeid) :
    chansFrom (a ++ b) s = chansFrom a s ++ chansFrom b s := by
  induction a with
  | nil => rfl
  | cons c rest ih =>
    show chansFrom (c :: (rest ++ b)) s = chansFrom (c :: rest) s ++ chansFrom b s
    rw [chansFrom, chansFrom, ih]
    by_cases h : c.src = s
    · rw [if_pos h, if_pos h]; rfl
    · rw [if_neg h, if_neg h]

theorem chansFrom_of_src (id s : nodeid) (outs : List chaninfo) :
    chansFrom (outs.map (fun o => ({ src := id, dst := o.dst } : endpoints))) s =
      if id = s then outs.map (fun o => o.dst) else [] := by
  induction outs with
  | nil => simp [chansFrom]
  | cons o rest ih =>
    rw [List.map_cons, chansFrom, ih]
    by_cases h : id = s
    · simp [h]
    · simp [h]

/-- The channel lines written for a registry whose nodes are stored under
their ids: those with the source `k` are the channels of the entry `k`. -/
theorem chansFrom_entriesOf (net : network) :
    (∀ e ∈ net, e.2.id = e.1) → (network.keys net).Nodup → ∀ k : nodeid,
      chansFrom (chansOf (entriesOf net)) k = (network.get net k).outs.map (fun o => o.dst) := by
  induction net with
  | nil => intro _ _ k; rfl
  | cons e rest ih =>
    intro hid hnd k
    obtain ⟨k0, n⟩ := e
    have hk0 : n.id = k0 := hid (k0, n) (List.mem_cons_self _ _)
    have hnd' : k0 ∉ network.keys rest ∧ (network.keys rest).Nodup := by
      simpa [network.keys] using hnd
    rw [entriesOf, chansOf, chansOf_append, chansOf_chanLines, chansFrom_append,
      chansFrom_of_src, ih (fun x hx => hid x (List.mem_cons_of_mem _ hx)) hnd'.2 k, hk0]
    by_cases h : k0 = k
    · subst h
      have hf : network.find? rest k0 = none := find?_eq_none_of_not_mem_keys rest k0 hnd'.1
      simp [network.get, network.find?, hf, zeroNode]
    · simp [network.get, network.find?, h]

theorem find?_of_mem (net : network) :
    (network.keys net).Nodup → ∀ k n, (k, n) ∈ net → network.find? net k = some n := by
  induction net with
  | nil => intro _ k n h; cases h
  | cons e rest ih =>
    intro hnd k n h
    obtain ⟨k0, n0⟩ := e
    have hnd' : k0 ∉ network.keys rest ∧ (network.keys rest).Nodup := by
      simpa [network.keys] using hnd
    rcases List.mem_cons.1 h with h1 | h1
    · cases h1
      simp [network.find?]
    · have hne : k0 ≠ k := by
        intro e
        apply hnd'.1
        rw [e]
        exact List.mem_map.2 ⟨(k, n), h1, rfl⟩
      simp only [network.find?, if_neg hne]
      exact ih hnd'.2 k n h1

theorem mem_of_find? (net : network) :
    ∀ k n, network.find? net k = some n → (k, n) ∈ net := by
  induction net with
  | nil => intro k n h; cases h
  | cons e rest ih =>
    intro k n h
    obtain ⟨k0, n0⟩ := e
    simp only [network.find?] at h
    by_cases hk : k0 = k
    · rw [if_pos hk] at h
      cases h
      rw [hk]
      exact List.mem_cons_self _ _
    · rw [if_neg hk] at h
      exact List.mem_cons_of_mem _ (ih k n h)

theorem oddLast_nodup (all : List nodeid) (l : List nodeid) :
    l.Nodup → (∀ x ∈ l, all.count x % 2 = 1) → oddLast all l = l := by
  induction l with
  | nil => intro _ _; rfl
  | cons d rest ih =>
    intro hnd hc
    have hnd' := List.nodup_cons.1 hnd
    rw [oddLast, if_pos ⟨hnd'.1, hc d (List.mem_cons_self _ _)⟩,
      ih hnd'.2 (fun x hx => hc x (List.mem_cons_of_mem _ hx))]

theorem foldl_toggleChan_nodup (ds : List nodeid) (h : ds.Nodup) :
    (ds.foldl toggleChan []).map (fun c => c.dst) = ds ∧
      ∀ c ∈ ds.foldl toggleChan [], c.usage = 0 := by
  obtain ⟨h1, h2⟩ := foldl_toggleChan ds
  refine ⟨?_, h2⟩
  rw [h1]
  exact oddLast_nodup ds ds h (fun x hx => by rw [List.count_eq_one_of_mem h hx])

theorem src_chansOf_entriesOf (net : network) :
    ∀ c ∈ chansOf (entriesOf net), c.src ∈ net.map (fun e => e.2.id) := by
  induction net with
  | nil => intro c hc; cases hc
  | cons e rest ih =>
    intro c hc
    obtain ⟨k, n⟩ := e
    rw [entriesOf, chansOf, chansOf_append, chansOf_chanLines] at hc
    rcases List.mem_append.1 hc with h | h
    · obtain ⟨o, _, ho⟩ := List.mem_map.1 h
      rw [← ho]
      exact List.mem_cons_self _ _
    · exact List.mem_cons_of_mem _ (ih c h)

/-- C18 (counterexample): the registry `strayKey` has the keys 0 and 5, plain
names and send texts, send intervals 0 and no channel; `deserialize` accepts
what `serialize` writes for it and returns a registry whose only key is 0. -/
theorem C18_round_trip_loses_key :
    network.keys strayKey = [0, 5] ∧
      (∀ e ∈ strayKey, e.2.sendInterval = 0 ∧ e.2.outs = [] ∧
        (e.2.name = bytes "node" ∨ e.2.name = []) ∧
        (e.2.sendText = bytes "from 0" ∨ e.2.sendText = [])) ∧
      deserialize (network.serialize strayKey) 0 =
        .ok ([(0, declNode ⟨0, [], [], 0, 0, false, 0, 0⟩ 1)], 0) := by
  refine ⟨by decide, by decide, by decide⟩

/-- C18 (amended): for a registry with distinct keys whose entries are
writable (each node is stored under its id; names and send texts are valid
UTF-8 without double quote, backslash and newline; send intervals are whole
numbers of milliseconds; channels of a node go to different destinations),
`deserialize` accepts the output of `serialize` and returns a registry with the
same keys and, under each key, the same id, name, send text, send interval,
relay mode, paused flag and position, and the same destinations of channels in
the same order, each with usage 0. -/
theorem C18_restricted_round_trip (net : network) (made : Nat)
    (hkeys : (network.keys net).Nodup) (hw : ∀ e ∈ net, Writable e.1 e.2) :
    ∃ net1 maxid, deserialize (network.serialize net) made = .ok (net1, maxid) ∧
      (∀ k, k ∈ network.keys net1 ↔ k ∈ network.keys net) ∧
      ∀ k ∈ network.keys net,
        (network.get net1 k).id = k ∧
        (network.get net1 k).name = (network.get net k).name ∧
        (network.get net1 k).sendText = (network.get net k).sendText ∧
        (network.get net1 k).sendInterval = (network.get net k).sendInterval ∧
        (network.get net1 k).relayMode = (network.get net k).relayMode ∧
        (network.get net1 k).paused = (network.get net k).paused ∧
        (network.get net1 k).x = (network.get net k).x ∧
        (network.get net1 k).y = (network.get net k).y ∧
        (network.get net1 k).outs.map (fun c => c.dst) =
          (network.get net k).outs.map (fun c => c.dst) ∧
        ∀ c ∈ (network.get net1 k).outs, c.usage = 0 := by
  have hf := fileEntries_serialize net hw
  have hid : ∀ e ∈ net, e.2.id = e.1 := fun e he => (hw e he).1
  have hids : net.map (fun e => e.2.id) = network.keys net :=
    List.map_congr_left (fun e he => hid e he)
  have hdsmap : (nodesOf (entriesOf net)).map (fun d => d.id) = network.keys net := by
    rw [nodesOf_entriesOf, List.map_map, ← hids]
    rfl
  have hall : allCtl (registerAll [] (nodesOf (entriesOf net)) made) :=
    allCtl_registerAll _ _ _ (fun k n h => by cases h)
  have hregkeys : ∀ k, k ∈ network.keys (registerAll [] (nodesOf (entriesOf net)) made) ↔
      k ∈ network.keys net := by
    intro k
    rw [mem_keys_registerAll, hdsmap]
    simp [network.keys]
  have hsrc : ∀ c ∈ chansOf (entriesOf net),
      c.src ∈ network.keys (registerAll [] (nodesOf (entriesOf net)) made) := by
    intro c hc
    rw [hregkeys, ← hids]
    exact src_chansOf_entriesOf net c hc
  obtain ⟨net1, h1⟩ := addChans_returns _ _ hall hsrc
  obtain ⟨hk1, hget⟩ := addChans_toggle _ _ _ h1
  refine ⟨net1, maxId 0 (nodesOf (entriesOf net)), ?_, ?_, ?_⟩
  · rw [deserialize_eq, hf]
    simp only [h1]
  · intro k
    rw [hk1, hregkeys]
  · intro k hk
    have hfn := find?_of_mem_keys net k hk
    have hmem := mem_of_find? net k _ hfn
    obtain ⟨_, _, _, ⟨ms, hms⟩, hint, hnd, _, _, _, _, _⟩ := hw _ hmem
    have hidk : (network.get net k).id = k := hid _ hmem
    have hreg := find?_of_mem_keys _ k ((hregkeys k).2 hk)
    rcases find?_registerAll_last _ _ _ _ _ hreg with ⟨h0, _⟩ | ⟨pre, d, post, hds, hdk, _, hn⟩
    · simp [network.find?] at h0
    · have hd : d ∈ nodesOf (entriesOf net) := by
        rw [hds]; exact List.mem_append_right _ (List.mem_cons_self _ _)
      rw [nodesOf_entriesOf] at hd
      obtain ⟨e, he, hed⟩ := List.mem_map.1 hd
      have hek : e.1 = k := by
        rw [← hid e he, ← hdk, ← hed]
        rfl
      have hen : e.2 = network.get net k := by
        have := find?_of_mem net hkeys e.1 e.2 he
        rw [hek, hfn] at this
        exact (Option.some.inj this).symm
      have hdline : d = lineOf (network.get net k) := by rw [← hed, hen]
      have houts := foldl_toggleChan_nodup _
        (by rw [chansFrom_entriesOf net hid hkeys k]; exact hnd :
          (chansFrom (chansOf (entriesOf net)) k).Nodup)
      have hg := hget k
      rw [hn, hdline] at hg
      have hwrap : wrap64 (Milliseconds (network.get net k).sendInterval * 1000000) =
          (network.get net k).sendInterval := by
        rw [Milliseconds_whole _ ms hms, ← hms]
        exact wrap64_of_range _ hint.1 hint.2
      rw [hg]
      refine ⟨hidk, rfl, rfl, hwrap, rfl, rfl, rfl, rfl, ?_, ?_⟩
      · show List.map (fun c => c.dst) (List.foldl toggleChan [] _) = _
        rw [houts.1, chansFrom_entriesOf net hid hkeys k]
      · exact houts.2
theorem C18_restricted_round_trip_witness :
    (network.keys twoNodes).Nodup ∧ (∀ e ∈ twoNodes, Writable e.1 e.2) ∧
      (network.get twoNodes 0).outs = [⟨1, 1⟩, ⟨0, 0⟩] ∧
      ∃ net1 maxid, deserialize (network.serialize twoNodes) 0 = .ok (net1, maxid) ∧
        (∀ k, k ∈ network.keys net1 ↔ k ∈ network.keys twoNodes) ∧
        ∀ k ∈ network.keys twoNodes,
          (network.get net1 k).id = k ∧
          (network.get net1 k).name = (network.get twoNodes k).name ∧
          (network.get net1 k).sendText = (network.get twoNodes k).sendText ∧
          (network.get net1 k).sendInterval = (network.get twoNodes k).sendInterval ∧
          (network.get net1 k).relayMode = (network.get twoNodes k).relayMode ∧
          (network.get net1 k).paused = (network.get twoNodes k).paused ∧
          (network.get net1 k).x = (network.get twoNodes k).x ∧
          (network.get net1 k).y = (network.get twoNodes k).y ∧
          (network.get net1 k).outs.map (fun c => c.dst) =
            (network.get twoNodes k).outs.map (fun c => c.dst) ∧
          ∀ c ∈ (network.get net1 k).outs, c.usage = 0 := by
  have hk : (network.keys twoNodes).Nodup := by decide
  have hnode : Plain (bytes "node") :=
    ⟨⟨[110, 111, 100, 101], by decide, by decide⟩, by decide, by decide, by decide⟩
  have hfrom0 : Plain (bytes "from 0") :=
    ⟨⟨[102, 114, 111, 109, 32, 48], by decide, by decide⟩, by decide, by decide, by decide⟩
  have hfrom1 : Plain (bytes "from 1") :=
    ⟨⟨[102, 114, 111, 109, 32, 49], by decide, by decide⟩, by decide, by decide, by decide⟩
  have hw : ∀ e ∈ twoNodes, Writable e.1 e.2 := by
    intro e he
    have hmem : e = (0, network.get twoNodes 0) ∨ e = (1, network.get twoNodes 1) := by
      revert e; decide
    rcases hmem with rfl | rfl
    · refine ⟨by decide, ?_, ?_, ⟨0, by decide⟩, ?_, by decide, ?_, ?_, ?_, ?_, ?_⟩
      · have : (network.get twoNodes 0).name = bytes "node" := by decide
        rw [this]; exact hnode
      · have : (network.get twoNodes 0).sendText = bytes "from 0" := by decide
        rw [this]; exact hfrom0
      all_goals simp only [isInt64]; decide
    · refine ⟨by decide, ?_, ?_, ⟨0, by decide⟩, ?_, by decide, ?_, ?_, ?_, ?_, ?_⟩
      · have : (network.get twoNodes 1).name = bytes "node" := by decide
        rw [this]; exact hnode
      · have : (network.get twoNodes 1).sendText = bytes "from 1" := by decide
        rw [this]; exact hfrom1
      all_goals simp only [isInt64]; decide
  exact ⟨hk, hw, by decide, C18_restricted_round_trip twoNodes 0 hk hw⟩

/-! ## Every failure is a malformed file -/

theorem scanVerb_d_shape (r r1 : Reader) (v : Option ScanVal)
    (h : scanVerb (rune 'd') r = some (v, r1)) : ∃ i, v = some (.int i) := by
  have h1 : ¬ rune 'd' = rune '%' := by decide
  have h2 : ¬ rune 'd' = rune 'c' := by decide
  simp only [scanVerb, if_neg h1, if_neg h2, if_true] at h
  cases hs : SkipSpace r with
  | none => simp [hs] at h
  | some r2 =>
    cases hi : scanInt r2 with
    | none => simp [hs, hi] at h
    | some p =>
      simp only [hs, hi, Option.some_bind, Option.map_some', Option.some.injEq,
        Prod.mk.injEq] at h
      exact ⟨p.1, h.1.symm⟩

theorem scanVerb_t_shape (r r1 : Reader) (v : Option ScanVal)
    (h : scanVerb (rune 't') r = some (v, r1)) : ∃ b, v = some (.bool b) := by
  have h1 : ¬ rune 't' = rune '%' := by decide
  have h2 : ¬ rune 't' = rune 'c' := by decide
  have h3 : ¬ rune 't' = rune 'd' := by decide
  simp only [scanVerb, if_neg h1, if_neg h2, if_neg h3, if_true] at h
  cases hs : SkipSpace r with
  | none => simp [hs] at h
  | some r2 =>
    cases hi : scanBool r2 with
    | none => simp [hs, hi] at h
    | some p =>
      simp only [hs, hi, Option.some_bind, Option.map_some', Option.some.injEq,
        Prod.mk.injEq] at h
      exact ⟨p.1, h.1.symm⟩

theorem Fscanf_id_shape (r r1 : Reader) (vals : List ScanVal)
    (h : Fscanf r "%d " = some (vals, r1)) : ∃ id, vals = [.int id] := by
  rw [Fscanf_id_eq] at h
  cases hv : scanVerb (rune 'd') r with
  | none => simp [hv] at h
  | some p =>
    obtain ⟨v, r2⟩ := p
    obtain ⟨i, rfl⟩ := scanVerb_d_shape r r2 v hv
    simp only [hv, Option.some_bind] at h
    cases ha : advanceSpaces 0 true r2 with
    | none => simp [ha] at h
    | some r3 =>
      simp only [ha, Option.some_bind, Option.some.injEq, Prod.mk.injEq] at h
      exact ⟨i, h.1.symm⟩

theorem Fscanf_chan_shape (r r1 : Reader) (vals : List ScanVal)
    (h : Fscanf r "-> %d" = some (vals, r1)) : ∃ d, vals = [.int d] := by
  rw [Fscanf_chan_eq] at h
  cases h1 : matchLiteral (rune '-') r with
  | none => simp [h1] at h
  | some r2 =>
    simp only [h1, Option.some_bind] at h
    cases h2 : matchLiteral (rune '>') r2 with
    | none => simp [h2] at h
    | some r3 =>
      simp only [h2, Option.some_bind] at h
      cases h3 : advanceSpaces 0 true r3 with
      | none => simp [h3] at h
      | some r4 =>
        simp only [h3, Option.some_bind] at h
        cases hv : scanVerb (rune 'd') r4 with
        | none => simp [hv] at h
        | some p =>
          obtain ⟨v, r5⟩ := p
          obtain ⟨i, rfl⟩ := scanVerb_d_shape r4 r5 v hv
          simp only [hv, Option.some_bind, Option.some.injEq, Prod.mk.injEq] at h
          exact ⟨i, h.1.symm⟩

theorem Fscanf_fields_shape (r r1 : Reader) (vals : List ScanVal)
    (h : Fscanf r "%d %d %t %d %d" = some (vals, r1)) :
    ∃ a b p x y, vals = [.int a, .int b, .bool p, .int x, .int y] := by
  rw [Fscanf_fields_eq] at h
  cases h1 : scanVerb (rune 'd') r with
  | none => simp [h1] at h
  | some p1 =>
    obtain ⟨v1, q1⟩ := p1
    obtain ⟨a, rfl⟩ := scanVerb_d_shape _ _ _ h1
    simp only [h1, Option.some_bind] at h
    cases s1 : advanceSpaces 0 true q1 with
    | none => simp [s1] at h
    | some t1 =>
      simp only [s1, Option.some_bind] at h
      cases h2 : scanVerb (rune 'd') t1 with
      | none => simp [h2] at h
      | some p2 =>
        obtain ⟨v2, q2⟩ := p2
        obtain ⟨b, rfl⟩ := scanVerb_d_shape _ _ _ h2
        simp only [h2, Option.some_bind] at h
        cases s2 : advanceSpaces 0 true q2 with
        | none => simp [s2] at h
        | some t2 =>
          simp only [s2, Option.some_bind] at h
          cases h3 : scanVerb (rune 't') t2 with
          | none => simp [h3] at h
          | some p3 =>
            obtain ⟨v3, q3⟩ := p3
            obtain ⟨p, rfl⟩ := scanVerb_t_shape _ _ _ h3
            simp only [h3, Option.some_bind] at h
            cases s3 : advanceSpaces 0 true q3 with
            | none => simp [s3] at h
            | some t3 =>
              simp only [s3, Option.some_bind] at h
              cases h4 : scanVerb (rune 'd') t3 with
              | none => simp [h4] at h
              | some p4 =>
                obtain ⟨v4, q4⟩ := p4
                obtain ⟨x, rfl⟩ := scanVerb_d_shape _ _ _ h4
                simp only [h4, Option.some_bind] at h
                cases s4 : advanceSpaces 0 true q4 with
                | none => simp [s4] at h
                | some t4 =>
                  simp only [s4, Option.some_bind] at h
                  cases h5 : scanVerb (rune 'd') t4 with
                  | none => simp [h5] at h
                  | some p5 =>
                    obtain ⟨v5, q5⟩ := p5
                    obtain ⟨y, rfl⟩ := scanVerb_d_shape _ _ _ h5
                    simp only [h5, Option.some_bind, Option.some.injEq, Prod.mk.injEq] at h
                    exact ⟨a, b, p, x, y, h.1.symm⟩

/-- When the reading of a node line fails, the line is malformed. -/
theorem bad_of_parseNode (r : Reader) (id : nodeid) (h : parseNode r id = none) :
    BadNode r := by
  unfold parseNode at h
  cases h1 : Fscanf r "[label=" with
  | none => exact BadNode.label r h1
  | some p1 =>
    obtain ⟨v1, r1⟩ := p1
    simp only [h1] at h
    rcases hq : scanQuoted r1 with ⟨s, b, r2⟩
    cases b with
    | false => exact BadNode.name r r1 v1 h1 (by rw [hq])
    | true =>
      have hq1 : (scanQuoted r1).2.1 = true := by rw [hq]
      have hq2 : (scanQuoted r1).2.2 = r2 := by rw [hq]
      simp only [hq] at h
      cases h2 : Fscanf r2 "] // " with
      | none => exact BadNode.separator r r1 v1 h1 hq1 (by rw [hq2]; exact h2)
      | some p2 =>
        obtain ⟨v2, r3⟩ := p2
        simp only [h2] at h
        rcases hs : scanQuoted r3 with ⟨s2, b2, r4⟩
        cases b2 with
        | false =>
          exact BadNode.sendText r r1 r3 v1 v2 h1 hq1 (by rw [hq2]; exact h2) (by rw [hs])
        | true =>
          have hs1 : (scanQuoted r3).2.1 = true := by rw [hs]
          have hs2 : (scanQuoted r3).2.2 = r4 := by rw [hs]
          simp only [hs] at h
          cases h3 : Fscanf r4 "%d %d %t %d %d" with
          | none =>
            exact BadNode.fields r r1 r3 v1 v2 h1 hq1 (by rw [hq2]; exact h2) hs1
              (by rw [hs2]; exact h3)
          | some p3 =>
            obtain ⟨vals, r5⟩ := p3
            obtain ⟨a, b, p, x, y, rfl⟩ := Fscanf_fields_shape _ _ _ h3
            simp [h3] at h
/-- When the loop returns nil, the entries are cut short or hold a malformed
entry. -/
theorem bad_of_parseEntries (fuel : Nat) :
    ∀ r : Reader, r.length < fuel → parseEntries fuel r = none → BadEntries r := by
  induction fuel with
  | zero => intro r h; omega
  | succ fuel ih =>
    intro r hlen h
    have l0 := skipEmptyLines_length r
    rw [parseEntries] at h
    by_cases hc : peek (skipEmptyLines r) (rune '\x7d') = true
    · simp [hc] at h
    · have hc' : peek (skipEmptyLines r) (rune '\x7d') = false := by simpa using hc
      simp only [hc', Bool.false_eq_true, ↓reduceIte] at h
      cases hf : Fscanf (skipEmptyLines r) "%d " with
      | none => exact BadEntries.noId r hc' hf
      | some p1 =>
        obtain ⟨vals, r1⟩ := p1
        obtain ⟨id, rfl⟩ := Fscanf_id_shape _ _ _ hf
        have l1 := Fscanf_id_length _ _ _ hf
        simp only [hf] at h
        by_cases hp : peek r1 (rune '[') = true
        · simp only [hp, if_true] at h
          cases hn : parseNode r1 id with
          | none => exact BadEntries.node r r1 id hc' hf hp (bad_of_parseNode r1 id hn)
          | some q =>
            obtain ⟨d, r2⟩ := q
            have l2 := parseNode_length _ _ _ _ hn
            simp only [hn, Option.map_eq_none'] at h
            exact BadEntries.afterNode r r1 r2 id d hc' hf hp hn (ih r2 (by omega) h)
        · have hp' : peek r1 (rune '[') = false := by simpa using hp
          simp only [hp', Bool.false_eq_true, ↓reduceIte] at h
          by_cases hm : peek r1 (rune '-') = true
          · simp only [hm, if_true] at h
            cases hd : Fscanf r1 "-> %d" with
            | none => exact BadEntries.chan r r1 id hc' hf hp' hm hd
            | some q =>
              obtain ⟨vals2, r2⟩ := q
              obtain ⟨dst, rfl⟩ := Fscanf_chan_shape _ _ _ hd
              have l2 := Fscanf_length _ _ _ _ hd
              simp only [hd, Option.map_eq_none'] at h
              exact BadEntries.afterChan r r1 r2 id dst hc' hf hp' hm hd (ih r2 (by omega) h)
          · have hm' : peek r1 (rune '-') = false := by simpa using hm
            exact BadEntries.kind r r1 id hc' hf hp' hm'

/-- The inputs on which `deserialize` returns the nil network are those whose
header line is not found and those whose entries are cut short or hold a
malformed entry. -/
theorem deserialize_failed_iff (input : GoString) (made : Nat) :
    deserialize input made = .failed ↔
      (Fscanf (skipEmptyLines (NewReader input)) "digraph network \x7b\n" = none ∨
        ∃ vals r, Fscanf (skipEmptyLines (NewReader input)) "digraph network \x7b\n" =
          some (vals, r) ∧ BadEntries r) := by
  constructor
  · intro h
    rw [deserialize_eq] at h
    unfold fileEntries at h
    cases hh : Fscanf (skipEmptyLines (NewReader input)) "digraph network \x7b\n" with
    | none => exact Or.inl rfl
    | some p =>
      obtain ⟨vals, r⟩ := p
      right
      refine ⟨vals, r, rfl, ?_⟩
      simp only [hh] at h
      cases hp : parseEntries (r.length + 1) r with
      | none => exact bad_of_parseEntries _ r (Nat.lt_succ_self _) hp
      | some es =>
        simp only [hp] at h
        cases ha : addChans (registerAll [] (nodesOf es) made) (chansOf es) with
        | none => simp [ha] at h
        | some net => simp [ha] at h
  · intro h
    rw [deserialize_eq]
    unfold fileEntries
    rcases h with h | ⟨vals, r, h, hb⟩
    · simp only [h]
    · simp only [h, parseEntries_of_bad r hb]

end PscProject
